import Mathlib

/-!
Shallow embedding of `src/shared.h`: a reference-counted `SharedPtr<T>` with a
polymorphic control block, `MakeShared` (combined allocation) and
`EnableSharedFromThis`.

Modelling choices:
* Object addresses and control-block identities are `Nat`; a raw pointer is an
  `Option Nat` (`none` = `nullptr`).  The C++ templates are erased: the code
  never branches on the pointee type except for the `is_base_of_v`
  `EnableSharedFromThis` test, which becomes an explicit `esft : Bool`
  parameter at the places where the pointee's type enters
  (`SharedPtr(U*)`, `Reset(U*)`, `MakeShared`).
* The heap of control blocks is an association list `List (Nat × BaseBlock)`;
  `new` conses a block with a fresh identity, `delete` erases it.  An event
  log records every allocation, in-place construction, object destruction
  (`DeleteObject` on a non-null owned pointer) and block deallocation.
* `EnableSharedFromThis<T>::weak_this_` is one handle-valued slot per object
  address, kept in an address-keyed association list; an absent entry is the
  default-constructed (empty) slot.
* Each C++ member function becomes a Lean function on `(Mem, Handle)`.
  Assignment operators whose guard is object identity (`this != &other`) are
  modelled in the transition system `step`, where handle identity is the index
  in the handle store.
-/

/-- A raw pointer: `none` is `nullptr`, `some a` the object at address `a`. -/
abbrev Ptr := Option Nat

/-- The control block (`BaseBlock` plus what its concrete `DeleteObject`
acts on): `cnt` is the shared count, `obj` the pointer the block destroys
(`ControlBlock<U>::ptr`, or the address of the in-place storage for the
`MakeShared` block; `none` for a `ControlBlock` built over a null pointer),
`combined` marks the single-allocation `MakeShared` block. -/
structure BaseBlock where
  cnt : Nat
  obj : Ptr
  combined : Bool
  deriving Repr, DecidableEq

/-- `SharedPtr<T>`'s data members: `ptr` is `ptr_` (the view pointer, as an
address), `block` is `block_` (the identity of the control block, `none` when
`block_ == nullptr`). -/
structure Handle where
  ptr : Ptr
  block : Option Nat
  deriving Repr, DecidableEq

/-- The default-constructed / `nullptr` handle: `ptr_(nullptr), block_(nullptr)`. -/
def Handle.empty : Handle := ⟨none, none⟩

/-- Observable heap events: block allocation, in-place construction of a value
with its forwarded arguments, object destruction (`DeleteObject` reaching a
non-null pointee) and control-block deallocation (`delete block_`). -/
inductive Event where
  | allocBlock (b : Nat)
  | construct (a : Nat) (args : List Nat)
  | destroyObj (b : Nat) (a : Nat)
  | freeBlock (b : Nat)
  deriving Repr, DecidableEq

/-- Global memory: fresh-identity counters, the live control blocks, the
`EnableSharedFromThis` back-link slots (keyed by object address), the event
log and the number of heap allocations performed. -/
structure Mem where
  nextBlock : Nat
  nextAddr : Nat
  blocks : List (Nat × BaseBlock)
  slots : List (Nat × Handle)
  events : List Event
  allocs : Nat
  deriving Repr, DecidableEq

def Mem.init : Mem := ⟨0, 0, [], [], [], 0⟩

/-! ### Association-list primitives (hand-rolled for easy induction) -/

/-- First value bound to key `k`. -/
def findK {α : Type} : List (Nat × α) → Nat → Option α
  | [], _ => none
  | (k, v) :: t, b => if k = b then some v else findK t b

/-- Remove every entry with key `k`. -/
def eraseK {α : Type} : List (Nat × α) → Nat → List (Nat × α)
  | [], _ => []
  | (k, v) :: t, b => if k = b then eraseK t b else (k, v) :: eraseK t b

/-- Apply `f` to every value bound to key `k`. -/
def mapK {α : Type} (b : Nat) (f : α → α) : List (Nat × α) → List (Nat × α)
  | [] => []
  | (k, v) :: t => if k = b then (k, f v) :: mapK b f t else (k, v) :: mapK b f t

def keysOf {α : Type} (l : List (Nat × α)) : List Nat := l.map Prod.fst

/-! ### Counting references and events -/

/-- Number of handles in the store whose `block_` is block `b`. -/
def countB : List Handle → Nat → Nat
  | [], _ => 0
  | h :: t, b => (if h.block = some b then 1 else 0) + countB t b

/-- Number of `weak_this_` slots whose stored handle's `block_` is block `b`. -/
def countS : List (Nat × Handle) → Nat → Nat
  | [], _ => 0
  | (_, h) :: t, b => (if h.block = some b then 1 else 0) + countS t b

/-- Number of `freeBlock b` events (deallocations of block `b`). -/
def countFree : List Event → Nat → Nat
  | [], _ => 0
  | Event.freeBlock b' :: t, b => (if b' = b then 1 else 0) + countFree t b
  | _ :: t, b => countFree t b

/-- Number of `destroyObj b _` events (pointee destructions through block `b`). -/
def countDObj : List Event → Nat → Nat
  | [], _ => 0
  | Event.destroyObj b' _ :: t, b => (if b' = b then 1 else 0) + countDObj t b
  | _ :: t, b => countDObj t b

/-! ### The handle store -/

def getH : List Handle → Nat → Option Handle
  | [], _ => none
  | h :: _, 0 => some h
  | _ :: t, n + 1 => getH t n

def setH : List Handle → Nat → Handle → List Handle
  | [], _, _ => []
  | _ :: t, 0, v => v :: t
  | h :: t, n + 1, v => h :: setH t n v

/-! ### The member functions of `SharedPtr` -/

/-- `SharedPtr::Reset()` body acting on memory, with fuel for the destruction
cascade: `if (block_) { if (--cnt == 0) { DeleteObject(); delete block_; } }`.
`DeleteObject` destroys the pointee; destroying an `EnableSharedFromThis`
pointee runs the destructor of its `weak_this_` member, which is itself a
`SharedPtr` whose destructor calls `Reset()` — the recursive call.  The block
is removed from the live map before the cascade (its count has already
reached zero at that point, so no further operation can reach it). -/
def resetFuel : Nat → Mem → Option Nat → Mem
  | _, m, none => m
  | 0, m, some _ => m
  | fuel + 1, m, some b =>
    match findK m.blocks b with
    | none => m
    | some blk =>
      if blk.cnt - 1 = 0 then
        let m1 : Mem := { m with
          blocks := eraseK m.blocks b,
          events := m.events ++ (match blk.obj with
            | some a => [Event.destroyObj b a]
            | none => []) }
        let m2 : Mem :=
          match blk.obj with
          | some a =>
            match findK m1.slots a with
            | some wh => resetFuel fuel { m1 with slots := eraseK m1.slots a } wh.block
            | none => m1
          | none => m1
        { m2 with events := m2.events ++ [Event.freeBlock b] }
      else
        { m with blocks := mapK b (fun v => { v with cnt := v.cnt - 1 }) m.blocks }

/-- `SharedPtr::Reset()`'s effect on memory (enough fuel for any cascade). -/
def Mem.resetB (m : Mem) (b? : Option Nat) : Mem :=
  resetFuel (m.blocks.length + 1) m b?

/-- `if (block_) ++block_->cnt;` — increment the count of the held block. -/
def incr (m : Mem) (b? : Option Nat) : Mem :=
  match b? with
  | none => m
  | some b => { m with blocks := mapK b (fun v => { v with cnt := v.cnt + 1 }) m.blocks }

namespace SharedPtr

/-- `EnableSharedFromThis<T>::InternalSetWeakThis(const SharedPtr<T>& sp)`:
`weak_this_ = sp`, i.e. `Weak::operator=` assigning `ptr_ = sp` through
`SharedPtr`'s copy assignment (the member and `sp` are distinct objects, so
the `this != &other` guard passes): reset the old stored handle, then share
`sp`'s block. -/
def InternalSetWeakThis (m : Mem) (a : Nat) (sp : Handle) : Mem :=
  let old := (findK m.slots a).getD Handle.empty
  let m1 := m.resetB old.block
  let m2 := incr m1 sp.block
  { m2 with slots := (a, sp) :: eraseK m2.slots a }

/-- `SharedPtr::MakeEnableSharedFromThis(Y* p)`: when `Y` derives from
`EnableSharedFromThis` (the `esft` flag) and `p` is non-null, install the
back-link `p->InternalSetWeakThis(*this)`. -/
def MakeEnableSharedFromThis (m : Mem) (esft : Bool) (p : Ptr) (self : Handle) : Mem :=
  if esft then
    match p with
    | some a => InternalSetWeakThis m a self
    | none => m
  else m

/-- `template <typename U> explicit SharedPtr(U* p)`: null `p` gives the empty
handle; otherwise allocate `new ControlBlock<U>(p)` (count 1) and install the
back-link. -/
def ctorPtr (m : Mem) (esft : Bool) (p : Ptr) : Mem × Handle :=
  match p with
  | none => (m, Handle.empty)
  | some a =>
    let b := m.nextBlock
    let m1 : Mem := { m with
      nextBlock := b + 1,
      blocks := (b, ⟨1, some a, false⟩) :: m.blocks,
      events := m.events ++ [Event.allocBlock b],
      allocs := m.allocs + 1 }
    let h : Handle := ⟨some a, some b⟩
    (MakeEnableSharedFromThis m1 esft (some a) h, h)

/-- Copy constructor (same-type and converting have identical bodies):
share the source's view and block, `if (block_) ++cnt`. -/
def ctorCopy (m : Mem) (other : Handle) : Mem × Handle :=
  (incr m other.block, other)

/-- Move constructor (same-type and converting): take the source's members,
null the source.  Returns `(destination, emptied source)`; memory untouched. -/
def ctorMove (other : Handle) : Handle × Handle :=
  (other, Handle.empty)

/-- Aliasing constructor `SharedPtr(const SharedPtr<Y>& other, T* ptr)`:
share `other`'s block but present view `ptr`. -/
def ctorAlias (m : Mem) (other : Handle) (p : Ptr) : Mem × Handle :=
  (incr m other.block, ⟨p, other.block⟩)

/-- `SharedPtr::Reset()`: release the block, leave the handle empty. -/
def Reset (m : Mem) (h : Handle) : Mem × Handle :=
  (m.resetB h.block, Handle.empty)

/-- `template <typename U> void Reset(U* p)`: guarded by
`ptr_ != static_cast<T*>(p)`; on the taken branch: `Reset()`, then
`block_ = new ControlBlock<U>(p)` (unconditionally, even for null `p`),
`ptr_ = p`, `MakeEnableSharedFromThis(p)`. -/
def ResetPtr (m : Mem) (h : Handle) (esft : Bool) (p : Ptr) : Mem × Handle :=
  if h.ptr = p then (m, h)
  else
    let m1 := m.resetB h.block
    let b := m1.nextBlock
    let m2 : Mem := { m1 with
      nextBlock := b + 1,
      blocks := (b, ⟨1, p, false⟩) :: m1.blocks,
      events := m1.events ++ [Event.allocBlock b],
      allocs := m1.allocs + 1 }
    let h' : Handle := ⟨p, some b⟩
    (MakeEnableSharedFromThis m2 esft p h', h')

/-- `T* Get() const` — the view pointer. -/
def Get (h : Handle) : Ptr := h.ptr

/-- `size_t UseCount() const`: `block_ ? block_->cnt : 0`.  The inner lookup
failing (a dangling `block_`) has no C++ counterpart (it would be a wild
dereference) and is mapped to 0; it is unreachable for handles of a
well-formed state. -/
def UseCount (m : Mem) (h : Handle) : Nat :=
  match h.block with
  | none => 0
  | some b =>
    match findK m.blocks b with
    | some blk => blk.cnt
    | none => 0

/-- `operator==(const SharedPtr<T>&, const SharedPtr<U>&)`:
`left.Get() == right.Get()`. -/
def eqOp (l r : Handle) : Bool := Get l == Get r

end SharedPtr

/-- `MakeShared<T>(args...)`: one `new Control(std::forward<Args>(args)...)`
(a single allocation holding count and in-place storage; its constructor
placement-constructs the value once with the forwarded arguments), then a
handle whose view is `GetObject()` (the in-place storage) and whose block is
the new block, then `MakeEnableSharedFromThis`. -/
def MakeShared (m : Mem) (esft : Bool) (args : List Nat) : Mem × Handle :=
  let b := m.nextBlock
  let a := m.nextAddr
  let m1 : Mem := { m with
    nextBlock := b + 1,
    nextAddr := a + 1,
    blocks := (b, ⟨1, some a, true⟩) :: m.blocks,
    events := m.events ++ [Event.allocBlock b, Event.construct a args],
    allocs := m.allocs + 1 }
  let sp : Handle := ⟨some a, some b⟩
  (SharedPtr.MakeEnableSharedFromThis m1 esft (some a) sp, sp)

/-- `EnableSharedFromThis<T>::SharedFromThis()` on the object at address `a`:
`return weak_this_.Lock();` where `Weak::Lock` is `return ptr_;` — a copy of
the stored handle (one count increment).  An object never bound to an owning
handle has the default-constructed (empty) slot. -/
def SharedFromThis (m : Mem) (a : Nat) : Mem × Handle :=
  SharedPtr.ctorCopy m ((findK m.slots a).getD Handle.empty)

/-! ### The transition system over a family of handles

A `Sys` is the memory plus a store of handle objects; the index of a handle
in the store is its identity (`this`).  A destructed handle slot is left as
the empty handle (it no longer references anything). -/

structure Sys where
  mem : Mem
  handles : List Handle
  deriving Repr, DecidableEq

def Sys.init : Sys := ⟨Mem.init, []⟩

/-- One public operation on the family.  Constructions append a new handle;
`i`/`j` index existing handles (`i` the assigned-to handle, `j` the source).
`wrapFresh`/`resetFresh` wrap a freshly `new`-ed object (the caller-side
allocation that precedes `SharedPtr(U* p)` / `Reset(U* p)`); wrapping a
pointer already owned by another group is the double-ownership undefined
behavior excluded by the source's precondition and is not an operation of the
model. -/
inductive Op where
  | mkEmpty
  | wrapFresh (esft : Bool)
  | wrapNull
  | copy (j : Nat)
  | move (j : Nat)
  | aliasOf (j : Nat) (p : Ptr)
  | assignCopy (i j : Nat)
  | assignMove (i j : Nat)
  | assignCopyConv (i j : Nat)
  | assignMoveConv (i j : Nat)
  | reset (i : Nat)
  | resetNull (i : Nat)
  | resetFresh (i : Nat) (esft : Bool)
  | destruct (i : Nat)
  | mkShared (esft : Bool) (args : List Nat)
  | fromThis (a : Nat)
  | swapOp (i j : Nat)
  deriving Repr, DecidableEq

def step (s : Sys) (op : Op) : Sys :=
  match op with
  | .mkEmpty =>
    -- SharedPtr() / SharedPtr(nullptr)
    { s with handles := s.handles ++ [Handle.empty] }
  | .wrapFresh esft =>
    -- caller: p = new U(...); then SharedPtr(p)
    let a := s.mem.nextAddr
    let m0 := { s.mem with nextAddr := a + 1 }
    let r := SharedPtr.ctorPtr m0 esft (some a)
    { mem := r.1, handles := s.handles ++ [r.2] }
  | .wrapNull =>
    -- SharedPtr((U*)nullptr)
    let r := SharedPtr.ctorPtr s.mem false none
    { mem := r.1, handles := s.handles ++ [r.2] }
  | .copy j =>
    match getH s.handles j with
    | none => s
    | some hj =>
      let r := SharedPtr.ctorCopy s.mem hj
      { mem := r.1, handles := s.handles ++ [r.2] }
  | .move j =>
    match getH s.handles j with
    | none => s
    | some hj =>
      let r := SharedPtr.ctorMove hj
      { mem := s.mem, handles := setH s.handles j r.2 ++ [r.1] }
  | .aliasOf j p =>
    match getH s.handles j with
    | none => s
    | some hj =>
      let r := SharedPtr.ctorAlias s.mem hj p
      { mem := r.1, handles := s.handles ++ [r.2] }
  | .assignCopy i j =>
    -- operator=(const SharedPtr&): guard this != &other
    if i = j then s else
    match getH s.handles i, getH s.handles j with
    | some hi, some hj =>
      let m1 := s.mem.resetB hi.block
      let m2 := incr m1 hj.block
      { mem := m2, handles := setH s.handles i ⟨hj.ptr, hj.block⟩ }
    | _, _ => s
  | .assignMove i j =>
    -- operator=(SharedPtr&&): guard this != &other
    if i = j then s else
    match getH s.handles i, getH s.handles j with
    | some hi, some hj =>
      let m1 := s.mem.resetB hi.block
      { mem := m1, handles := setH (setH s.handles i ⟨hj.ptr, hj.block⟩) j Handle.empty }
    | _, _ => s
  | .assignCopyConv i j =>
    -- template operator=(const SharedPtr<Y>&): guard block_ != other.block_ || ptr_ != other.ptr_
    match getH s.handles i, getH s.handles j with
    | some hi, some hj =>
      if hi.block = hj.block ∧ hi.ptr = hj.ptr then s
      else
        let m1 := s.mem.resetB hi.block
        let m2 := incr m1 hj.block
        { mem := m2, handles := setH s.handles i ⟨hj.ptr, hj.block⟩ }
    | _, _ => s
  | .assignMoveConv i j =>
    -- template operator=(SharedPtr<Y>&&): same guard, then take and empty the source
    match getH s.handles i, getH s.handles j with
    | some hi, some hj =>
      if hi.block = hj.block ∧ hi.ptr = hj.ptr then s
      else
        let m1 := s.mem.resetB hi.block
        { mem := m1, handles := setH (setH s.handles i ⟨hj.ptr, hj.block⟩) j Handle.empty }
    | _, _ => s
  | .reset i =>
    match getH s.handles i with
    | none => s
    | some hi =>
      let r := SharedPtr.Reset s.mem hi
      { mem := r.1, handles := setH s.handles i r.2 }
  | .resetNull i =>
    match getH s.handles i with
    | none => s
    | some hi =>
      let r := SharedPtr.ResetPtr s.mem hi false none
      { mem := r.1, handles := setH s.handles i r.2 }
  | .resetFresh i esft =>
    match getH s.handles i with
    | none => s
    | some hi =>
      -- caller: p = new U(...); then Reset(p)
      let a := s.mem.nextAddr
      let m0 := { s.mem with nextAddr := a + 1 }
      let r := SharedPtr.ResetPtr m0 hi esft (some a)
      { mem := r.1, handles := setH s.handles i r.2 }
  | .destruct i =>
    -- ~SharedPtr(): calls Reset(); the dead slot is left as the empty handle
    match getH s.handles i with
    | none => s
    | some hi =>
      let r := SharedPtr.Reset s.mem hi
      { mem := r.1, handles := setH s.handles i r.2 }
  | .mkShared esft args =>
    let r := MakeShared s.mem esft args
    { mem := r.1, handles := s.handles ++ [r.2] }
  | .fromThis a =>
    -- the object at address a calls SharedFromThis(); the result is kept as a new handle
    let r := SharedFromThis s.mem a
    { mem := r.1, handles := s.handles ++ [r.2] }
  | .swapOp i j =>
    -- Swap(other): std::swap(ptr_, other.ptr_); std::swap(block_, other.block_)
    match getH s.handles i, getH s.handles j with
    | some hi, some hj =>
      { s with handles := setH (setH s.handles i hj) j hi }
    | _, _ => s

def run (ops : List Op) : Sys := ops.foldl step Sys.init

def runFrom (s : Sys) (ops : List Op) : Sys := ops.foldl step s

/-! ### Lemmas about the association-list primitives -/

theorem findK_eraseK_self {α : Type} (l : List (Nat × α)) (k : Nat) :
    findK (eraseK l k) k = none := by
  induction l with
  | nil => rfl
  | cons p t ih =>
    obtain ⟨k', v⟩ := p
    by_cases hk : k' = k
    · simp [eraseK, hk, ih]
    · simp [eraseK, findK, hk, ih]

theorem findK_eraseK_ne {α : Type} (l : List (Nat × α)) (k k' : Nat) (h : k' ≠ k) :
    findK (eraseK l k) k' = findK l k' := by
  induction l with
  | nil => rfl
  | cons p t ih =>
    obtain ⟨k0, v⟩ := p
    by_cases hk : k0 = k
    · subst hk
      simp [eraseK, findK, Ne.symm h, ih]
    · by_cases hk' : k0 = k'
      · subst hk'
        simp [eraseK, findK, hk, ih]
      · simp [eraseK, findK, hk, hk', ih]

theorem eraseK_of_findK_none {α : Type} (l : List (Nat × α)) (k : Nat)
    (h : findK l k = none) : eraseK l k = l := by
  induction l with
  | nil => rfl
  | cons p t ih =>
    obtain ⟨k0, v⟩ := p
    by_cases hk : k0 = k
    · simp [findK, hk] at h
    · simp [findK, hk] at h
      simp [eraseK, hk, ih h]

theorem findK_mapK_self {α : Type} (l : List (Nat × α)) (k : Nat) (f : α → α) :
    findK (mapK k f l) k = (findK l k).map f := by
  induction l with
  | nil => rfl
  | cons p t ih =>
    obtain ⟨k0, v⟩ := p
    by_cases hk : k0 = k
    · simp [mapK, findK, hk]
    · simp [mapK, findK, hk, ih]

theorem findK_mapK_ne {α : Type} (l : List (Nat × α)) (k k' : Nat) (f : α → α) (h : k' ≠ k) :
    findK (mapK k f l) k' = findK l k' := by
  induction l with
  | nil => rfl
  | cons p t ih =>
    obtain ⟨k0, v⟩ := p
    by_cases hk : k0 = k
    · subst hk
      simp [mapK, findK, Ne.symm h, ih]
    · by_cases hk' : k0 = k'
      · subst hk'
        simp [mapK, findK, hk, ih]
      · simp [mapK, findK, hk, hk', ih]

theorem keysOf_mapK {α : Type} (l : List (Nat × α)) (k : Nat) (f : α → α) :
    keysOf (mapK k f l) = keysOf l := by
  induction l with
  | nil => rfl
  | cons p t ih =>
    obtain ⟨k0, v⟩ := p
    by_cases hk : k0 = k
    · simp [mapK, keysOf, hk] at ih ⊢
      exact ih
    · simp [mapK, keysOf, hk] at ih ⊢
      exact ih

theorem keysOf_cons {α : Type} (p : Nat × α) (t : List (Nat × α)) :
    keysOf (p :: t) = p.1 :: keysOf t := rfl

theorem mem_keysOf_eraseK {α : Type} (l : List (Nat × α)) (k k' : Nat)
    (h : k' ∈ keysOf (eraseK l k)) : k' ∈ keysOf l := by
  induction l with
  | nil => simp [eraseK, keysOf] at h
  | cons p t ih =>
    obtain ⟨k0, v⟩ := p
    rw [keysOf_cons, List.mem_cons]
    by_cases hk : k0 = k
    · rw [eraseK, if_pos hk] at h
      exact Or.inr (ih h)
    · rw [eraseK, if_neg hk, keysOf_cons, List.mem_cons] at h
      rcases h with h | h
      · exact Or.inl h
      · exact Or.inr (ih h)

theorem nodup_keysOf_eraseK {α : Type} (l : List (Nat × α)) (k : Nat)
    (h : (keysOf l).Nodup) : (keysOf (eraseK l k)).Nodup := by
  induction l with
  | nil => simp [eraseK, keysOf]
  | cons p t ih =>
    obtain ⟨k0, v⟩ := p
    rw [keysOf_cons, List.nodup_cons] at h
    by_cases hk : k0 = k
    · rw [eraseK, if_pos hk]
      exact ih h.2
    · rw [eraseK, if_neg hk, keysOf_cons, List.nodup_cons]
      exact ⟨fun hmem => h.1 (mem_keysOf_eraseK t k k0 hmem), ih h.2⟩

theorem mem_keysOf_of_findK {α : Type} (l : List (Nat × α)) (k : Nat) (v : α)
    (h : findK l k = some v) : k ∈ keysOf l := by
  induction l with
  | nil => simp [findK] at h
  | cons p t ih =>
    obtain ⟨k0, v0⟩ := p
    rw [keysOf_cons, List.mem_cons]
    by_cases hk : k0 = k
    · exact Or.inl hk.symm
    · rw [findK, if_neg hk] at h
      exact Or.inr (ih h)

theorem findK_none_of_not_mem {α : Type} (l : List (Nat × α)) (k : Nat)
    (h : k ∉ keysOf l) : findK l k = none := by
  induction l with
  | nil => rfl
  | cons p t ih =>
    obtain ⟨k0, v0⟩ := p
    rw [keysOf_cons, List.mem_cons] at h
    push_neg at h
    rw [findK, if_neg (fun he => h.1 he.symm)]
    exact ih h.2

theorem findK_mem {α : Type} (l : List (Nat × α)) (k : Nat) (v : α)
    (h : findK l k = some v) : (k, v) ∈ l := by
  induction l with
  | nil => simp [findK] at h
  | cons p t ih =>
    obtain ⟨k0, v0⟩ := p
    by_cases hk : k0 = k
    · subst hk
      simp [findK] at h
      simp [h]
    · simp [findK, hk] at h
      simp [ih h]

theorem findK_of_mem_nodup {α : Type} (l : List (Nat × α)) (k : Nat) (v : α)
    (hnd : (keysOf l).Nodup) (h : (k, v) ∈ l) : findK l k = some v := by
  induction l with
  | nil => simp at h
  | cons p t ih =>
    obtain ⟨k0, v0⟩ := p
    rw [keysOf_cons, List.nodup_cons] at hnd
    rcases List.mem_cons.1 h with h1 | h1
    · rw [Prod.mk.injEq] at h1
      simp [findK, h1.1, h1.2]
    · have hk : k0 ≠ k := by
        intro he
        subst he
        exact hnd.1 (List.mem_map.2 ⟨(k0, v), h1, rfl⟩)
      rw [findK, if_neg hk]
      exact ih hnd.2 h1

/-! ### Lemmas about reference counting -/

/-- Contribution of one handle to the reference count of block `b`. -/
def indB (h : Handle) (b : Nat) : Nat := if h.block = some b then 1 else 0

theorem countB_cons (h : Handle) (t : List Handle) (b : Nat) :
    countB (h :: t) b = indB h b + countB t b := rfl

theorem countB_append (l l' : List Handle) (b : Nat) :
    countB (l ++ l') b = countB l b + countB l' b := by
  induction l with
  | nil => simp [countB]
  | cons h t ih =>
    simp only [List.cons_append, countB_cons, ih]
    omega

theorem countS_cons (a : Nat) (h : Handle) (t : List (Nat × Handle)) (b : Nat) :
    countS ((a, h) :: t) b = indB h b + countS t b := rfl

theorem getH_mem (hs : List Handle) (i : Nat) (h : Handle)
    (hg : getH hs i = some h) : h ∈ hs := by
  induction hs generalizing i with
  | nil => simp [getH] at hg
  | cons h0 t ih =>
    cases i with
    | zero =>
      rw [getH] at hg
      exact (Option.some.injEq .. ▸ hg) ▸ List.mem_cons_self h0 t
    | succ n =>
      rw [getH] at hg
      exact List.mem_cons_of_mem h0 (ih n hg)

theorem countB_pos_of_mem (hs : List Handle) (h : Handle) (b : Nat)
    (hm : h ∈ hs) (hb : h.block = some b) : 1 ≤ countB hs b := by
  induction hs with
  | nil => simp at hm
  | cons h0 t ih =>
    rw [countB_cons]
    rcases List.mem_cons.1 hm with h1 | h1
    · subst h1
      simp [indB, hb]
    · have := ih h1
      omega

theorem countB_zero_not_mem (hs : List Handle) (b : Nat)
    (hz : countB hs b = 0) (h : Handle) (hm : h ∈ hs) : h.block ≠ some b := by
  intro hb
  have := countB_pos_of_mem hs h b hm hb
  omega

theorem countS_pos_of_findK (sl : List (Nat × Handle)) (a : Nat) (wh : Handle) (b : Nat)
    (hf : findK sl a = some wh) (hb : wh.block = some b) : 1 ≤ countS sl b := by
  induction sl with
  | nil => simp [findK] at hf
  | cons p t ih =>
    obtain ⟨a0, h0⟩ := p
    rw [countS_cons]
    by_cases ha : a0 = a
    · rw [findK, if_pos ha] at hf
      have : h0 = wh := by injection hf
      subst this
      simp [indB, hb]
    · rw [findK, if_neg ha] at hf
      have := ih hf
      omega

theorem countS_pos_mem (sl : List (Nat × Handle)) (b : Nat)
    (hp : 0 < countS sl b) : ∃ a wh, (a, wh) ∈ sl ∧ wh.block = some b := by
  induction sl with
  | nil => simp [countS] at hp
  | cons p t ih =>
    obtain ⟨a0, h0⟩ := p
    rw [countS_cons] at hp
    by_cases hb : h0.block = some b
    · exact ⟨a0, h0, List.mem_cons_self _ _, hb⟩
    · simp [indB, hb] at hp
      obtain ⟨a, wh, hm, hwb⟩ := ih hp
      exact ⟨a, wh, List.mem_cons_of_mem _ hm, hwb⟩

theorem countS_eraseK (sl : List (Nat × Handle)) (a : Nat) (wh : Handle) (b : Nat)
    (hnd : (keysOf sl).Nodup) (hf : findK sl a = some wh) :
    countS (eraseK sl a) b + indB wh b = countS sl b := by
  induction sl with
  | nil => simp [findK] at hf
  | cons p t ih =>
    obtain ⟨a0, h0⟩ := p
    rw [keysOf_cons, List.nodup_cons] at hnd
    by_cases ha : a0 = a
    · rw [findK, if_pos ha] at hf
      have hh : h0 = wh := by injection hf
      subst hh
      subst ha
      rw [eraseK, if_pos rfl, eraseK_of_findK_none t a0 (findK_none_of_not_mem t a0 hnd.1),
        countS_cons]
      omega
    · rw [findK, if_neg ha] at hf
      rw [eraseK, if_neg ha, countS_cons, countS_cons]
      have := ih hnd.2 hf
      omega

/-! ### Lemmas about the handle store -/

theorem getH_setH_self (hs : List Handle) (i : Nat) (h v : Handle)
    (hg : getH hs i = some h) : getH (setH hs i v) i = some v := by
  induction hs generalizing i with
  | nil => simp [getH] at hg
  | cons h0 t ih =>
    cases i with
    | zero => rfl
    | succ n =>
      rw [getH] at hg
      rw [setH, getH]
      exact ih n hg

theorem getH_setH_ne (hs : List Handle) (i j : Nat) (v : Handle) (hne : j ≠ i) :
    getH (setH hs i v) j = getH hs j := by
  induction hs generalizing i j with
  | nil => rfl
  | cons h0 t ih =>
    cases i with
    | zero =>
      cases j with
      | zero => exact absurd rfl hne
      | succ n => rfl
    | succ n =>
      cases j with
      | zero => rfl
      | succ m =>
        rw [setH, getH, getH]
        exact ih n m (fun he => hne (by rw [he]))

theorem setH_setH (hs : List Handle) (i : Nat) (v w : Handle) :
    setH (setH hs i v) i w = setH hs i w := by
  induction hs generalizing i with
  | nil => rfl
  | cons h0 t ih =>
    cases i with
    | zero => rfl
    | succ n =>
      rw [setH, setH, setH]
      rw [ih]

theorem setH_self (hs : List Handle) (i : Nat) (v : Handle)
    (hg : getH hs i = some v) : setH hs i v = hs := by
  induction hs generalizing i with
  | nil => rfl
  | cons h0 t ih =>
    cases i with
    | zero =>
      rw [getH] at hg
      have hv : h0 = v := by injection hg
      rw [setH, hv]
    | succ n =>
      rw [getH] at hg
      rw [setH, ih n hg]

theorem mem_setH (hs : List Handle) (i : Nat) (v x : Handle)
    (hm : x ∈ setH hs i v) : x ∈ hs ∨ x = v := by
  induction hs generalizing i with
  | nil => simp [setH] at hm
  | cons h0 t ih =>
    cases i with
    | zero =>
      rw [setH] at hm
      rcases List.mem_cons.1 hm with h1 | h1
      · exact Or.inr h1
      · exact Or.inl (List.mem_cons_of_mem _ h1)
    | succ n =>
      rw [setH] at hm
      rcases List.mem_cons.1 hm with h1 | h1
      · exact Or.inl (h1 ▸ List.mem_cons_self _ _)
      · rcases ih n h1 with h2 | h2
        · exact Or.inl (List.mem_cons_of_mem _ h2)
        · exact Or.inr h2

theorem countB_setH (hs : List Handle) (i : Nat) (h0 v : Handle) (b : Nat)
    (hg : getH hs i = some h0) :
    countB (setH hs i v) b + indB h0 b = countB hs b + indB v b := by
  induction hs generalizing i with
  | nil => simp [getH] at hg
  | cons hh t ih =>
    cases i with
    | zero =>
      rw [getH] at hg
      have : hh = h0 := by injection hg
      subst this
      rw [setH, countB_cons, countB_cons]
      omega
    | succ n =>
      rw [getH] at hg
      rw [setH, countB_cons, countB_cons]
      have := ih n hg
      omega

theorem getH_append_left (hs l : List Handle) (i : Nat) (h : Handle)
    (hg : getH hs i = some h) : getH (hs ++ l) i = some h := by
  induction hs generalizing i with
  | nil => simp [getH] at hg
  | cons h0 t ih =>
    cases i with
    | zero => exact hg
    | succ n =>
      rw [getH] at hg
      rw [List.cons_append, getH]
      exact ih n hg

theorem getH_append_last (hs : List Handle) (v : Handle) :
    getH (hs ++ [v]) hs.length = some v := by
  induction hs with
  | nil => rfl
  | cons h0 t ih => exact ih

/-! ### Lemmas about event counting -/

theorem countFree_append (l l' : List Event) (b : Nat) :
    countFree (l ++ l') b = countFree l b + countFree l' b := by
  induction l with
  | nil => simp [countFree]
  | cons e t ih =>
    cases e with
    | freeBlock b' =>
      rw [List.cons_append, countFree, countFree, ih]
      omega
    | allocBlock b' => rw [List.cons_append]; exact ih
    | construct a args => rw [List.cons_append]; exact ih
    | destroyObj b' a => rw [List.cons_append]; exact ih

theorem countDObj_append (l l' : List Event) (b : Nat) :
    countDObj (l ++ l') b = countDObj l b + countDObj l' b := by
  induction l with
  | nil => simp [countDObj]
  | cons e t ih =>
    cases e with
    | destroyObj b' a =>
      rw [List.cons_append, countDObj, countDObj, ih]
      omega
    | allocBlock b' => rw [List.cons_append]; exact ih
    | construct a args => rw [List.cons_append]; exact ih
    | freeBlock b' => rw [List.cons_append]; exact ih

/-! ### Branch equations for `Mem.resetB` -/

theorem resetB_none (m : Mem) : m.resetB none = m := rfl

theorem resetB_dangling (m : Mem) (b : Nat) (h : findK m.blocks b = none) :
    m.resetB (some b) = m := by
  unfold Mem.resetB resetFuel
  rw [h]

theorem resetB_decr (m : Mem) (b : Nat) (blk : BaseBlock)
    (hf : findK m.blocks b = some blk) (hc : blk.cnt - 1 ≠ 0) :
    m.resetB (some b) =
      { m with blocks := mapK b (fun v => { v with cnt := v.cnt - 1 }) m.blocks } := by
  unfold Mem.resetB resetFuel
  rw [hf]
  simp only [if_neg hc]

theorem resetB_destroy_objNone (m : Mem) (b : Nat) (blk : BaseBlock)
    (hf : findK m.blocks b = some blk) (hc : blk.cnt - 1 = 0) (ho : blk.obj = none) :
    m.resetB (some b) =
      { m with blocks := eraseK m.blocks b,
               events := m.events ++ [Event.freeBlock b] } := by
  unfold Mem.resetB resetFuel
  rw [hf]
  simp only [if_pos hc, ho, List.append_nil]

theorem resetB_destroy_objSome (m : Mem) (b : Nat) (blk : BaseBlock) (a : Nat)
    (hf : findK m.blocks b = some blk) (hc : blk.cnt - 1 = 0) (ho : blk.obj = some a)
    (hsl : findK m.slots a = none) :
    m.resetB (some b) =
      { m with blocks := eraseK m.blocks b,
               events := m.events ++ [Event.destroyObj b a, Event.freeBlock b] } := by
  unfold Mem.resetB resetFuel
  rw [hf]
  simp only [if_pos hc, ho, hsl, List.append_assoc, List.singleton_append]

/-! ### The well-formedness invariant -/

/-- The number of live references to block `b`: handles in the store plus
installed `weak_this_` back-links. -/
def refs (s : Sys) (b : Nat) : Nat := countB s.handles b + countS s.mem.slots b

/-- Well-formedness of a system state, the inductive invariant of `step`:
every live block's count equals its number of live references; identities are
fresh and unique; every referenced block is live; every installed back-link
points to a live block owning exactly the slot's object; a live block has not
been freed, and no block is ever freed or its pointee destroyed twice. -/
structure WF (s : Sys) : Prop where
  cntRefs : ∀ b blk, findK s.mem.blocks b = some blk → blk.cnt = refs s b
  nodupB : (keysOf s.mem.blocks).Nodup
  liveFresh : ∀ b, b ∈ keysOf s.mem.blocks → b < s.mem.nextBlock
  handleLive : ∀ h, h ∈ s.handles → ∀ b, h.block = some b →
    ∃ blk, findK s.mem.blocks b = some blk
  slotLive : ∀ a wh, findK s.mem.slots a = some wh →
    ∃ b blk, wh.block = some b ∧ findK s.mem.blocks b = some blk ∧ blk.obj = some a
  nodupS : (keysOf s.mem.slots).Nodup
  slotFresh : ∀ a, a ∈ keysOf s.mem.slots → a < s.mem.nextAddr
  objFresh : ∀ b blk a, findK s.mem.blocks b = some blk → blk.obj = some a →
    a < s.mem.nextAddr
  objUnique : ∀ b1 b2 blk1 blk2 a, findK s.mem.blocks b1 = some blk1 →
    findK s.mem.blocks b2 = some blk2 → blk1.obj = some a → blk2.obj = some a → b1 = b2
  liveNotFreed : ∀ b blk, findK s.mem.blocks b = some blk →
    countFree s.mem.events b = 0 ∧ countDObj s.mem.events b = 0
  freedOnce : ∀ b, countFree s.mem.events b ≤ 1 ∧ countDObj s.mem.events b ≤ 1
  freedFresh : ∀ b, 0 < countFree s.mem.events b → b < s.mem.nextBlock
  dobjFree : ∀ b, countDObj s.mem.events b ≤ countFree s.mem.events b

theorem wf_init : WF Sys.init := by
  refine ⟨?_, ?_, ?_, ?_, ?_, ?_, ?_, ?_, ?_, ?_, ?_, ?_, ?_⟩ <;>
    simp [Sys.init, Mem.init, findK, keysOf, countFree, countDObj]

/-! ### Further support lemmas -/

theorem findK_eraseK_back {α : Type} (l : List (Nat × α)) (k b : Nat) (v : α)
    (h : findK (eraseK l b) k = some v) : k ≠ b ∧ findK l k = some v := by
  by_cases hk : k = b
  · subst hk
    rw [findK_eraseK_self] at h
    exact absurd h (by simp)
  · exact ⟨hk, (findK_eraseK_ne l b k hk) ▸ h⟩

theorem findK_mapK_back {α : Type} (l : List (Nat × α)) (k b : Nat) (f : α → α) (v : α)
    (h : findK (mapK b f l) k = some v) :
    (k = b ∧ ∃ v0, findK l k = some v0 ∧ v = f v0) ∨ (k ≠ b ∧ findK l k = some v) := by
  by_cases hk : k = b
  · subst hk
    rw [findK_mapK_self] at h
    cases hf : findK l k with
    | none => rw [hf] at h; exact absurd h (by simp)
    | some v0 =>
      rw [hf] at h
      refine Or.inl ⟨rfl, v0, rfl, ?_⟩
      injection h with h2
      exact h2.symm
  · exact Or.inr ⟨hk, (findK_mapK_ne l b k f hk) ▸ h⟩

theorem findK_mapK_isSome {α : Type} (l : List (Nat × α)) (k b : Nat) (f : α → α) (v0 : α)
    (h : findK l k = some v0) : ∃ v, findK (mapK b f l) k = some v := by
  by_cases hk : k = b
  · subst hk
    rw [findK_mapK_self, h]
    exact ⟨f v0, rfl⟩
  · rw [findK_mapK_ne l b k f hk]
    exact ⟨v0, h⟩

theorem countB_pos_mem (hs : List Handle) (b : Nat) (hp : 0 < countB hs b) :
    ∃ h, h ∈ hs ∧ h.block = some b := by
  induction hs with
  | nil => simp [countB] at hp
  | cons h0 t ih =>
    rw [countB_cons] at hp
    by_cases hb : h0.block = some b
    · exact ⟨h0, List.mem_cons_self _ _, hb⟩
    · simp [indB, hb] at hp
      obtain ⟨h, hm, hhb⟩ := ih hp
      exact ⟨h, List.mem_cons_of_mem _ hm, hhb⟩

/-- A state's fresh block identity has no references at all. -/
theorem refs_nextBlock_zero (s : Sys) (hw : WF s) :
    countB s.handles s.mem.nextBlock = 0 ∧ countS s.mem.slots s.mem.nextBlock = 0 := by
  constructor
  · by_contra hne
    have hp : 0 < countB s.handles s.mem.nextBlock := Nat.pos_of_ne_zero hne
    obtain ⟨h, hm, hb⟩ := countB_pos_mem _ _ hp
    obtain ⟨blk, hf⟩ := hw.handleLive h hm _ hb
    exact absurd (hw.liveFresh _ (mem_keysOf_of_findK _ _ _ hf)) (by omega)
  · by_contra hne
    have hp : 0 < countS s.mem.slots s.mem.nextBlock := Nat.pos_of_ne_zero hne
    obtain ⟨a, wh, hm, hb⟩ := countS_pos_mem _ _ hp
    obtain ⟨b2, blk2, hwb, hf2, _⟩ := hw.slotLive a wh (findK_of_mem_nodup _ _ _ hw.nodupS hm)
    rw [hwb] at hb
    have hbe : b2 = s.mem.nextBlock := by injection hb
    subst hbe
    exact absurd (hw.liveFresh _ (mem_keysOf_of_findK _ _ _ hf2)) (by omega)

theorem indB_none (h : Handle) (hb : h.block = none) (b : Nat) : indB h b = 0 := by
  simp [indB, hb]

theorem indB_of_block (h h' : Handle) (hb : h.block = h'.block) (b : Nat) :
    indB h b = indB h' b := by
  simp [indB, hb]

theorem indB_mk (p : Ptr) (ob : Option Nat) (b : Nat) :
    indB ⟨p, ob⟩ b = if ob = some b then 1 else 0 := rfl

theorem indB_mk_self (p : Ptr) (b : Nat) : indB ⟨p, some b⟩ b = 1 := by
  rw [indB_mk, if_pos rfl]

theorem indB_mk_ne (p : Ptr) (b b' : Nat) (h : b ≠ b') : indB ⟨p, some b⟩ b' = 0 := by
  rw [indB_mk, if_neg]
  intro hc
  exact h (Option.some.inj hc)

theorem findK_incr_self (m : Mem) (b : Nat) (v0 : BaseBlock)
    (h : findK m.blocks b = some v0) :
    findK (incr m (some b)).blocks b = some { v0 with cnt := v0.cnt + 1 } := by
  simp only [incr]
  rw [findK_mapK_self, h]
  rfl

theorem findK_incr_ne (m : Mem) (b b' : Nat) (h : b' ≠ b) :
    findK (incr m (some b)).blocks b' = findK m.blocks b' := by
  simp only [incr]
  exact findK_mapK_ne _ _ _ _ h

theorem incr_slots (m : Mem) (b? : Option Nat) : (incr m b?).slots = m.slots := by
  cases b? <;> rfl

theorem incr_events (m : Mem) (b? : Option Nat) : (incr m b?).events = m.events := by
  cases b? <;> rfl

/-- Every live block of `incr m (some b)` comes from a live block of `m` with
the same `obj`. -/
theorem findK_incr_back (m : Mem) (b b' : Nat) (blk' : BaseBlock)
    (h : findK (incr m (some b)).blocks b' = some blk') :
    ∃ v0, findK m.blocks b' = some v0 ∧ blk'.obj = v0.obj := by
  by_cases hbe : b' = b
  · subst hbe
    cases hv0 : findK m.blocks b' with
    | none =>
      simp only [incr] at h
      rw [findK_mapK_self, hv0] at h
      exact absurd h (by simp)
    | some v0 =>
      rw [findK_incr_self m b' v0 hv0] at h
      have h6 : blk' = { v0 with cnt := v0.cnt + 1 } := by
        injection h with h7
        exact h7.symm
      exact ⟨v0, rfl, by rw [h6]⟩
  · rw [findK_incr_ne m b b' hbe] at h
    exact ⟨blk', h, rfl⟩

/-- Generic "share src's block into a fresh reference" lemma: if the handle
store changes so that block `src.block` gains exactly one reference (a new
handle `⟨p, src.block⟩`) and every handle of the new store is an old handle
or that new one, then incrementing the count preserves well-formedness. -/
theorem wf_shareGen (s : Sys) (hw : WF s) (src : Handle)
    (hva : src.block = none ∨ ∃ b blk, src.block = some b ∧ findK s.mem.blocks b = some blk)
    (p : Ptr) (hs2 : List Handle)
    (hcb : ∀ b2, countB hs2 b2 = countB s.handles b2 + indB (⟨p, src.block⟩ : Handle) b2)
    (hmemH : ∀ h, h ∈ hs2 → h ∈ s.handles ∨ h = ⟨p, src.block⟩) :
    WF ⟨incr s.mem src.block, hs2⟩ := by
  rcases hva with hsb | ⟨b, blk, hsb, hf⟩
  · rw [hsb] at hcb hmemH ⊢
    simp only [incr]
    refine ⟨?_, hw.nodupB, hw.liveFresh, ?_, hw.slotLive, hw.nodupS, hw.slotFresh,
      hw.objFresh, hw.objUnique, hw.liveNotFreed, hw.freedOnce, hw.freedFresh, hw.dobjFree⟩
    · intro b' blk' hf'
      have h1 := hw.cntRefs b' blk' hf'
      have h2 := hcb b'
      have h4 : indB (⟨p, none⟩ : Handle) b' = 0 := indB_none _ rfl b'
      simp only [refs] at h1 ⊢
      omega
    · intro h hm b' hb'
      rcases hmemH h hm with h1 | h1
      · exact hw.handleLive h h1 b' hb'
      · rw [h1] at hb'
        simp at hb'
  · rw [hsb] at hcb hmemH ⊢
    have hslots : (incr s.mem (some b)).slots = s.mem.slots := incr_slots _ _
    refine ⟨?_, ?_, ?_, ?_, ?_, ?_, ?_, ?_, ?_, ?_, ?_, ?_, ?_⟩
    · -- cntRefs
      intro b' blk' hf'
      have h2 := hcb b'
      by_cases hbe : b' = b
      · subst hbe
        rw [findK_incr_self s.mem b' blk hf] at hf'
        have h6 : blk' = { blk with cnt := blk.cnt + 1 } := by
          injection hf' with h7
          exact h7.symm
        have h1 := hw.cntRefs b' blk hf
        have h4 : indB (⟨p, some b'⟩ : Handle) b' = 1 := indB_mk_self p b'
        have h8 : blk'.cnt = blk.cnt + 1 := by rw [h6]
        simp only [refs, hslots] at h1 ⊢
        omega
      · rw [findK_incr_ne s.mem b b' hbe] at hf'
        have h1 := hw.cntRefs b' blk' hf'
        have h4 : indB (⟨p, some b⟩ : Handle) b' = 0 :=
          indB_mk_ne p b b' (fun he => hbe he.symm)
        simp only [refs, hslots] at h1 ⊢
        omega
    · -- nodupB
      simp only [incr]
      rw [keysOf_mapK]
      exact hw.nodupB
    · -- liveFresh
      intro b' hm
      simp only [incr] at hm
      rw [keysOf_mapK] at hm
      exact hw.liveFresh b' hm
    · -- handleLive
      intro h hm b' hb'
      have hsome : ∃ blk0, findK s.mem.blocks b' = some blk0 := by
        rcases hmemH h hm with h1 | h1
        · exact hw.handleLive h h1 b' hb'
        · rw [h1] at hb'
          simp at hb'
          rw [hb'] at hf
          exact ⟨blk, hf⟩
      obtain ⟨blk0, hf0⟩ := hsome
      simp only [incr]
      exact findK_mapK_isSome _ _ _ _ _ hf0
    · -- slotLive
      intro a wh hfs
      rw [hslots] at hfs
      obtain ⟨b2, blk2, hwb, hf2, ho2⟩ := hw.slotLive a wh hfs
      refine ⟨b2, ?_⟩
      by_cases hbe : b2 = b
      · subst hbe
        rw [findK_incr_self s.mem b2 blk2 hf2]
        exact ⟨_, hwb, rfl, ho2⟩
      · rw [findK_incr_ne s.mem b b2 hbe]
        exact ⟨blk2, hwb, hf2, ho2⟩
    · -- nodupS
      rw [hslots]
      exact hw.nodupS
    · -- slotFresh
      intro a hm
      rw [hslots] at hm
      exact hw.slotFresh a hm
    · -- objFresh
      intro b' blk' a hf' ho'
      obtain ⟨v0, hv0, hobj⟩ := findK_incr_back s.mem b b' blk' hf'
      rw [hobj] at ho'
      exact hw.objFresh b' v0 a hv0 ho'
    · -- objUnique
      intro b1 b2 blk1 blk2 a hf1 hf2 ho1 ho2
      obtain ⟨u1, hu1, hou1⟩ := findK_incr_back s.mem b b1 blk1 hf1
      obtain ⟨u2, hu2, hou2⟩ := findK_incr_back s.mem b b2 blk2 hf2
      rw [hou1] at ho1
      rw [hou2] at ho2
      exact hw.objUnique b1 b2 u1 u2 a hu1 hu2 ho1 ho2
    · -- liveNotFreed
      intro b' blk' hf'
      obtain ⟨v0, hv0, _⟩ := findK_incr_back s.mem b b' blk' hf'
      rw [incr_events]
      exact hw.liveNotFreed b' v0 hv0
    · -- freedOnce
      intro b'
      rw [incr_events]
      exact hw.freedOnce b'
    · -- freedFresh
      intro b' hp
      rw [incr_events] at hp
      exact hw.freedFresh b' hp
    · -- dobjFree
      intro b'
      rw [incr_events]
      exact hw.dobjFree b'

/-- The shared second phase of the copy-assignment operators: overwrite a
handle slot already holding a blockless handle with a copy of `src`. -/
theorem wf_overwrite (s : Sys) (hw : WF s) (i : Nat) (h0 : Handle)
    (hg : getH s.handles i = some h0) (hb0 : h0.block = none)
    (src : Handle)
    (hva : src.block = none ∨ ∃ b blk, src.block = some b ∧ findK s.mem.blocks b = some blk)
    (p : Ptr) :
    WF ⟨incr s.mem src.block, setH s.handles i ⟨p, src.block⟩⟩ := by
  apply wf_shareGen s hw src hva p
  · intro b'
    have h2 := countB_setH s.handles i h0 ⟨p, src.block⟩ b' hg
    have h3 : indB h0 b' = 0 := indB_none h0 hb0 b'
    omega
  · exact fun h hm => mem_setH _ _ _ _ hm

/-- Appending a copy of `src` (the copy, converting-copy and aliasing
constructors, and `mkEmpty` with an empty `src`). -/
theorem wf_shareAppend (s : Sys) (hw : WF s) (src : Handle)
    (hva : src.block = none ∨ ∃ b blk, src.block = some b ∧ findK s.mem.blocks b = some blk)
    (p : Ptr) :
    WF ⟨incr s.mem src.block, s.handles ++ [⟨p, src.block⟩]⟩ := by
  apply wf_shareGen s hw src hva p
  · intro b'
    rw [countB_append, countB_cons]
    simp [countB]
  · intro h hm
    rcases List.mem_append.1 hm with h1 | h1
    · exact Or.inl h1
    · exact Or.inr (List.mem_singleton.1 h1)

/-- Generic "references preserved" lemma: a handle-store change that keeps
every per-block handle count and introduces only old or blockless handles
preserves well-formedness, with memory untouched. -/
theorem wf_permGen (s : Sys) (hw : WF s) (hs2 : List Handle)
    (hcb : ∀ b2, countB hs2 b2 = countB s.handles b2)
    (hmemH : ∀ h, h ∈ hs2 → h ∈ s.handles ∨ h.block = none) :
    WF ⟨s.mem, hs2⟩ := by
  refine ⟨?_, hw.nodupB, hw.liveFresh, ?_, hw.slotLive, hw.nodupS, hw.slotFresh,
    hw.objFresh, hw.objUnique, hw.liveNotFreed, hw.freedOnce, hw.freedFresh, hw.dobjFree⟩
  · intro b' blk' hf'
    have h1 := hw.cntRefs b' blk' hf'
    have h2 := hcb b'
    simp only [refs] at h1 ⊢
    omega
  · intro h hm b' hb'
    rcases hmemH h hm with h1 | h1
    · exact hw.handleLive h h1 b' hb'
    · rw [h1] at hb'
      exact absurd hb' (by simp)

/-- Move construction: empty the source slot and append the taken handle. -/
theorem wf_moveAppend (s : Sys) (hw : WF s) (j : Nat) (hj : Handle)
    (hg : getH s.handles j = some hj) :
    WF ⟨s.mem, setH s.handles j Handle.empty ++ [hj]⟩ := by
  apply wf_permGen s hw
  · intro b'
    have h2 := countB_setH s.handles j hj Handle.empty b' hg
    have h3 : indB Handle.empty b' = 0 := indB_none _ rfl b'
    rw [countB_append, countB_cons]
    simp only [countB]
    omega
  · intro h hm
    rcases List.mem_append.1 hm with h1 | h1
    · rcases mem_setH _ _ _ _ h1 with h2 | h2
      · exact Or.inl h2
      · exact Or.inr (by rw [h2]; rfl)
    · exact Or.inl ((List.mem_singleton.1 h1) ▸ getH_mem _ _ _ hg)

/-- Move assignment's handle phase: the destination slot (already emptied)
takes the source's members and the source slot is emptied. -/
theorem wf_moveSet (s : Sys) (hw : WF s) (i j : Nat) (hne : i ≠ j)
    (hie : getH s.handles i = some Handle.empty) (hj : Handle)
    (hg : getH s.handles j = some hj) :
    WF ⟨s.mem, setH (setH s.handles i ⟨hj.ptr, hj.block⟩) j Handle.empty⟩ := by
  apply wf_permGen s hw
  · intro b'
    have h1 := countB_setH s.handles i Handle.empty ⟨hj.ptr, hj.block⟩ b' hie
    have hgj : getH (setH s.handles i ⟨hj.ptr, hj.block⟩) j = some hj := by
      rw [getH_setH_ne s.handles i j _ (fun he => hne he.symm)]
      exact hg
    have h2 := countB_setH _ j hj Handle.empty b' hgj
    have h3 : indB Handle.empty b' = 0 := indB_none _ rfl b'
    have h4 : indB (⟨hj.ptr, hj.block⟩ : Handle) b' = indB hj b' := indB_of_block _ _ rfl b'
    omega
  · intro h hm
    rcases mem_setH _ _ _ _ hm with h1 | h1
    · rcases mem_setH _ _ _ _ h1 with h2 | h2
      · exact Or.inl h2
      · refine Or.inl ?_
        rw [h2]
        have : (⟨hj.ptr, hj.block⟩ : Handle) = hj := rfl
        rw [this]
        exact getH_mem _ _ _ hg
    · exact Or.inr (by rw [h1]; rfl)

/-- `Swap`: exchanging the members of two handles. -/
theorem wf_swap (s : Sys) (hw : WF s) (i j : Nat) (hi hj : Handle)
    (hgi : getH s.handles i = some hi) (hgj : getH s.handles j = some hj) :
    WF ⟨s.mem, setH (setH s.handles i hj) j hi⟩ := by
  by_cases hij : i = j
  · subst hij
    have he : hi = hj := by rw [hgi] at hgj; injection hgj
    subst he
    rw [setH_setH, setH_self s.handles i hi hgi]
    exact hw
  · apply wf_permGen s hw
    · intro b'
      have h1 := countB_setH s.handles i hi hj b' hgi
      have hgj2 : getH (setH s.handles i hj) j = some hj := by
        rw [getH_setH_ne s.handles i j _ (fun he => hij he.symm)]
        exact hgj
      have h2 := countB_setH _ j hj hi b' hgj2
      omega
    · intro h hm
      rcases mem_setH _ _ _ _ hm with h1 | h1
      · rcases mem_setH _ _ _ _ h1 with h2 | h2
        · exact Or.inl h2
        · exact Or.inl (h2 ▸ getH_mem _ _ _ hgj)
      · exact Or.inl (h1 ▸ getH_mem _ _ _ hgi)

/-- Raising the fresh-address counter preserves well-formedness. -/
theorem wf_bumpAddr (s : Sys) (hw : WF s) (n : Nat) (hn : s.mem.nextAddr ≤ n) :
    WF ⟨{ s.mem with nextAddr := n }, s.handles⟩ := by
  refine ⟨hw.cntRefs, hw.nodupB, hw.liveFresh, hw.handleLive, hw.slotLive, hw.nodupS, ?_, ?_,
    hw.objUnique, hw.liveNotFreed, hw.freedOnce, hw.freedFresh, hw.dobjFree⟩
  · intro a hm
    exact lt_of_lt_of_le (hw.slotFresh a hm) hn
  · intro b blk a hf ho
    exact lt_of_lt_of_le (hw.objFresh b blk a hf ho) hn

/-- Allocating a fresh control block with count 1 together with one new
reference to it (`new ControlBlock<U>(p)` in the wrapping constructor and
`Reset(U*)`, or the `MakeShared` combined block), optionally also raising the
fresh-address counter and appending allocation/construction events. -/
theorem wf_newBlock (s : Sys) (hw : WF s) (obj : Ptr) (comb : Bool) (p : Ptr)
    (na : Nat) (hna : s.mem.nextAddr ≤ na)
    (hobj : ∀ a, obj = some a → a < na ∧
      (∀ b blk, findK s.mem.blocks b = some blk → blk.obj ≠ some a))
    (es : List Event)
    (hesf : ∀ b2, countFree es b2 = 0)
    (hesd : ∀ b2, countDObj es b2 = 0)
    (hs2 : List Handle)
    (hcb : ∀ b2, countB hs2 b2 = countB s.handles b2 +
      indB (⟨p, some s.mem.nextBlock⟩ : Handle) b2)
    (hmemH : ∀ h, h ∈ hs2 → h ∈ s.handles ∨ h = ⟨p, some s.mem.nextBlock⟩) :
    WF ⟨{ s.mem with
          nextBlock := s.mem.nextBlock + 1,
          nextAddr := na,
          blocks := (s.mem.nextBlock, ⟨1, obj, comb⟩) :: s.mem.blocks,
          events := s.mem.events ++ es,
          allocs := s.mem.allocs + 1 }, hs2⟩ := by
  have hnbKeys : s.mem.nextBlock ∉ keysOf s.mem.blocks := by
    intro hm
    exact absurd (hw.liveFresh _ hm) (by omega)
  have hfindCons : ∀ b', findK ((s.mem.nextBlock, (⟨1, obj, comb⟩ : BaseBlock)) :: s.mem.blocks) b'
      = if s.mem.nextBlock = b' then some ⟨1, obj, comb⟩ else findK s.mem.blocks b' := by
    intro b'
    simp only [findK]
  refine ⟨?_, ?_, ?_, ?_, ?_, hw.nodupS, ?_, ?_, ?_, ?_, ?_, ?_, ?_⟩
  · -- cntRefs
    intro b' blk' hf'
    rw [hfindCons b'] at hf'
    have h2 := hcb b'
    by_cases hbe : s.mem.nextBlock = b'
    · rw [if_pos hbe] at hf'
      have hblk : blk' = ⟨1, obj, comb⟩ := by injection hf' with h7; exact h7.symm
      obtain ⟨hz1, hz2⟩ := refs_nextBlock_zero s hw
      have h5 : indB (⟨p, some s.mem.nextBlock⟩ : Handle) s.mem.nextBlock = 1 :=
        indB_mk_self _ _
      have h4 := hcb s.mem.nextBlock
      subst hbe
      rw [hblk]
      show (1 : Nat) = countB hs2 s.mem.nextBlock + countS s.mem.slots s.mem.nextBlock
      omega
    · rw [if_neg hbe] at hf'
      have h1 := hw.cntRefs b' blk' hf'
      have h4 : indB (⟨p, some s.mem.nextBlock⟩ : Handle) b' = 0 := indB_mk_ne _ _ _ hbe
      simp only [refs] at h1 ⊢
      omega
  · -- nodupB
    rw [keysOf_cons, List.nodup_cons]
    exact ⟨hnbKeys, hw.nodupB⟩
  · -- liveFresh
    intro b' hm
    rw [keysOf_cons, List.mem_cons] at hm
    show b' < s.mem.nextBlock + 1
    rcases hm with h1 | h1
    · simp only at h1
      omega
    · have := hw.liveFresh b' h1
      omega
  · -- handleLive
    intro h hm b' hb'
    rw [hfindCons b']
    by_cases hbe : s.mem.nextBlock = b'
    · rw [if_pos hbe]
      exact ⟨_, rfl⟩
    · rw [if_neg hbe]
      rcases hmemH h hm with h1 | h1
      · exact hw.handleLive h h1 b' hb'
      · rw [h1] at hb'
        simp at hb'
        exact absurd hb' hbe
  · -- slotLive
    intro a wh hfs
    obtain ⟨b2, blk2, hwb, hf2, ho2⟩ := hw.slotLive a wh hfs
    have hb2 : b2 < s.mem.nextBlock := hw.liveFresh b2 (mem_keysOf_of_findK _ _ _ hf2)
    refine ⟨b2, blk2, hwb, ?_, ho2⟩
    rw [hfindCons b2, if_neg (by omega)]
    exact hf2
  · -- slotFresh
    intro a hm
    exact lt_of_lt_of_le (hw.slotFresh a hm) hna
  · -- objFresh
    intro b' blk' a hf' ho'
    rw [hfindCons b'] at hf'
    by_cases hbe : s.mem.nextBlock = b'
    · rw [if_pos hbe] at hf'
      have hblk : blk' = ⟨1, obj, comb⟩ := by injection hf' with h7; exact h7.symm
      rw [hblk] at ho'
      exact (hobj a ho').1
    · rw [if_neg hbe] at hf'
      exact lt_of_lt_of_le (hw.objFresh b' blk' a hf' ho') hna
  · -- objUnique
    intro b1 b2 blk1 blk2 a hf1 hf2 ho1 ho2
    rw [hfindCons b1] at hf1
    rw [hfindCons b2] at hf2
    by_cases he1 : s.mem.nextBlock = b1
    · rw [if_pos he1] at hf1
      have hblk1 : blk1 = ⟨1, obj, comb⟩ := by injection hf1 with h7; exact h7.symm
      by_cases he2 : s.mem.nextBlock = b2
      · omega
      · rw [if_neg he2] at hf2
        rw [hblk1] at ho1
        exact absurd ho2 ((hobj a ho1).2 b2 blk2 hf2)
    · rw [if_neg he1] at hf1
      by_cases he2 : s.mem.nextBlock = b2
      · rw [if_pos he2] at hf2
        have hblk2 : blk2 = ⟨1, obj, comb⟩ := by injection hf2 with h7; exact h7.symm
        rw [hblk2] at ho2
        exact absurd ho1 ((hobj a ho2).2 b1 blk1 hf1)
      · rw [if_neg he2] at hf2
        exact hw.objUnique b1 b2 blk1 blk2 a hf1 hf2 ho1 ho2
  · -- liveNotFreed
    intro b' blk' hf'
    rw [hfindCons b'] at hf'
    rw [countFree_append, countDObj_append, hesf b', hesd b']
    by_cases hbe : s.mem.nextBlock = b'
    · have hcf : countFree s.mem.events b' = 0 := by
        by_contra hne
        have := hw.freedFresh b' (Nat.pos_of_ne_zero hne)
        omega
      have hcd : countDObj s.mem.events b' = 0 := by
        have := hw.dobjFree b'
        omega
      omega
    · rw [if_neg hbe] at hf'
      have := hw.liveNotFreed b' blk' hf'
      omega
  · -- freedOnce
    intro b'
    rw [countFree_append, countDObj_append, hesf b', hesd b']
    have := hw.freedOnce b'
    omega
  · -- freedFresh
    intro b' hp
    rw [countFree_append, hesf b'] at hp
    have := hw.freedFresh b' (by omega)
    show b' < s.mem.nextBlock + 1
    omega
  · -- dobjFree
    intro b'
    rw [countFree_append, countDObj_append, hesf b', hesd b']
    have := hw.dobjFree b'
    omega

theorem findK_isSome_of_mem {α : Type} (l : List (Nat × α)) (k : Nat)
    (h : k ∈ keysOf l) : ∃ v, findK l k = some v := by
  induction l with
  | nil => simp [keysOf] at h
  | cons p t ih =>
    obtain ⟨k0, v0⟩ := p
    by_cases hk : k0 = k
    · exact ⟨v0, by simp [findK, hk]⟩
    · rw [keysOf_cons, List.mem_cons] at h
      rcases h with h1 | h1
      · exact absurd h1.symm hk
      · obtain ⟨v, hv⟩ := ih h1
        exact ⟨v, by rw [findK, if_neg hk]; exact hv⟩

/-- Installing the `EnableSharedFromThis` back-link on a freshly wrapped
object: the object address has no previous slot, and the installed handle
references the live block owning that address. -/
theorem wf_installWeak (s : Sys) (hw : WF s) (a b : Nat) (blk : BaseBlock) (sp : Handle)
    (hspb : sp.block = some b) (hf : findK s.mem.blocks b = some blk) (ho : blk.obj = some a)
    (hsl : findK s.mem.slots a = none) (ha : a < s.mem.nextAddr) :
    WF ⟨SharedPtr.InternalSetWeakThis s.mem a sp, s.handles⟩ := by
  have hanm : a ∉ keysOf s.mem.slots := by
    intro hm
    obtain ⟨v, hv⟩ := findK_isSome_of_mem _ _ hm
    rw [hv] at hsl
    exact absurd hsl (by simp)
  have heq : SharedPtr.InternalSetWeakThis s.mem a sp =
      { incr s.mem sp.block with slots := (a, sp) :: s.mem.slots } := by
    unfold SharedPtr.InternalSetWeakThis
    rw [hsl]
    simp only [Option.getD_none]
    rw [show Handle.empty.block = none from rfl, resetB_none, incr_slots,
      eraseK_of_findK_none _ _ hsl]
  rw [heq, hspb]
  have hFindSlots : ∀ a' : Nat, findK ((a, sp) :: s.mem.slots) a'
      = if a = a' then some sp else findK s.mem.slots a' := by
    intro a'
    simp only [findK]
  have hIncrFind : ∀ b2 blk2, findK s.mem.blocks b2 = some blk2 →
      ∃ blk2', findK (incr s.mem (some b)).blocks b2 = some blk2' ∧ blk2'.obj = blk2.obj := by
    intro b2 blk2 hf2
    by_cases hbe : b2 = b
    · subst hbe
      exact ⟨_, findK_incr_self s.mem b2 blk2 hf2, rfl⟩
    · exact ⟨blk2, by rw [findK_incr_ne s.mem b b2 hbe]; exact hf2, rfl⟩
  refine ⟨?_, ?_, ?_, ?_, ?_, ?_, ?_, ?_, ?_, ?_, ?_, ?_, ?_⟩
  · -- cntRefs
    intro b' blk' hf'
    have hcs : countS ((a, sp) :: s.mem.slots) b' = indB sp b' + countS s.mem.slots b' :=
      countS_cons a sp s.mem.slots b'
    by_cases hbe : b' = b
    · subst hbe
      rw [findK_incr_self s.mem b' blk hf] at hf'
      have hblk : blk' = { blk with cnt := blk.cnt + 1 } := by
        injection hf' with h7
        exact h7.symm
      have h1 := hw.cntRefs b' blk hf
      have h8 : blk'.cnt = blk.cnt + 1 := by rw [hblk]
      have h5 : indB sp b' = 1 := by rw [indB, if_pos hspb]
      simp only [refs] at h1 ⊢
      omega
    · rw [findK_incr_ne s.mem b b' hbe] at hf'
      have h1 := hw.cntRefs b' blk' hf'
      have h5 : indB sp b' = 0 := by
        rw [indB, if_neg]
        rw [hspb]
        intro hc
        exact hbe (Option.some.inj hc).symm
      simp only [refs] at h1 ⊢
      omega
  · -- nodupB
    simp only [incr]
    rw [keysOf_mapK]
    exact hw.nodupB
  · -- liveFresh
    intro b' hm
    simp only [incr] at hm
    rw [keysOf_mapK] at hm
    exact hw.liveFresh b' hm
  · -- handleLive
    intro h hm b' hb'
    obtain ⟨blk0, hf0⟩ := hw.handleLive h hm b' hb'
    simp only [incr]
    exact findK_mapK_isSome _ _ _ _ _ hf0
  · -- slotLive
    intro a' wh hfs
    rw [hFindSlots a'] at hfs
    by_cases hae : a = a'
    · rw [if_pos hae] at hfs
      have hwh : wh = sp := by injection hfs with h7; exact h7.symm
      subst hwh
      obtain ⟨blk2', hf2', ho2'⟩ := hIncrFind b blk hf
      exact ⟨b, blk2', hspb, hf2', by rw [ho2', ho, hae]⟩
    · rw [if_neg hae] at hfs
      obtain ⟨b2, blk2, hwb, hf2, ho2⟩ := hw.slotLive a' wh hfs
      obtain ⟨blk2', hf2', ho2'⟩ := hIncrFind b2 blk2 hf2
      exact ⟨b2, blk2', hwb, hf2', by rw [ho2', ho2]⟩
  · -- nodupS
    rw [keysOf_cons, List.nodup_cons]
    exact ⟨hanm, hw.nodupS⟩
  · -- slotFresh
    intro a' hm
    rw [keysOf_cons, List.mem_cons] at hm
    rcases hm with h1 | h1
    · simp only at h1
      subst h1
      exact ha
    · exact hw.slotFresh a' h1
  · -- objFresh
    intro b' blk' a' hf' ho'
    obtain ⟨v0, hv0, hobj⟩ := findK_incr_back s.mem b b' blk' hf'
    rw [hobj] at ho'
    exact hw.objFresh b' v0 a' hv0 ho'
  · -- objUnique
    intro b1 b2 blk1 blk2 a' hf1 hf2 ho1 ho2
    obtain ⟨u1, hu1, hou1⟩ := findK_incr_back s.mem b b1 blk1 hf1
    obtain ⟨u2, hu2, hou2⟩ := findK_incr_back s.mem b b2 blk2 hf2
    rw [hou1] at ho1
    rw [hou2] at ho2
    exact hw.objUnique b1 b2 u1 u2 a' hu1 hu2 ho1 ho2
  · -- liveNotFreed
    intro b' blk' hf'
    obtain ⟨v0, hv0, _⟩ := findK_incr_back s.mem b b' blk' hf'
    rw [incr_events]
    exact hw.liveNotFreed b' v0 hv0
  · -- freedOnce
    intro b'
    rw [incr_events]
    exact hw.freedOnce b'
  · -- freedFresh
    intro b' hp
    rw [incr_events] at hp
    exact hw.freedFresh b' hp
  · -- dobjFree
    intro b'
    rw [incr_events]
    exact hw.dobjFree b'

/-- `Reset()` when the released block still has other references: the count
is decremented. -/
theorem wf_release_decr (s : Sys) (hw : WF s) (i : Nat) (hi : Handle) (b : Nat)
    (blk : BaseBlock) (hg : getH s.handles i = some hi) (hb : hi.block = some b)
    (hf : findK s.mem.blocks b = some blk) (hc : 2 ≤ blk.cnt) :
    WF ⟨{ s.mem with blocks := mapK b (fun v => { v with cnt := v.cnt - 1 }) s.mem.blocks },
        setH s.handles i Handle.empty⟩ := by
  have hcbs : ∀ b2, countB (setH s.handles i Handle.empty) b2 + indB hi b2
      = countB s.handles b2 + indB Handle.empty b2 :=
    fun b2 => countB_setH s.handles i hi Handle.empty b2 hg
  have hFind : ∀ b2, findK (mapK b (fun v => { v with cnt := v.cnt - 1 }) s.mem.blocks) b2
      = if b2 = b then (findK s.mem.blocks b2).map (fun v => { v with cnt := v.cnt - 1 })
        else findK s.mem.blocks b2 := by
    intro b2
    by_cases hk : b2 = b
    · subst hk
      rw [if_pos rfl]
      exact findK_mapK_self _ _ _
    · rw [if_neg hk]
      exact findK_mapK_ne _ _ _ _ hk
  have hBack : ∀ b2 blk2, findK (mapK b (fun v => { v with cnt := v.cnt - 1 })
        s.mem.blocks) b2 = some blk2 →
      ∃ v0, findK s.mem.blocks b2 = some v0 ∧ blk2.obj = v0.obj := by
    intro b2 blk2 hf2
    rw [hFind b2] at hf2
    by_cases hk : b2 = b
    · rw [if_pos hk] at hf2
      cases hv0 : findK s.mem.blocks b2 with
      | none => rw [hv0] at hf2; exact absurd hf2 (by simp)
      | some v0 =>
        rw [hv0] at hf2
        have : blk2 = { v0 with cnt := v0.cnt - 1 } := by
          injection hf2 with h7
          exact h7.symm
        exact ⟨v0, rfl, by rw [this]⟩
    · rw [if_neg hk] at hf2
      exact ⟨blk2, hf2, rfl⟩
  refine ⟨?_, ?_, ?_, ?_, ?_, hw.nodupS, hw.slotFresh, ?_, ?_, ?_, hw.freedOnce,
    hw.freedFresh, hw.dobjFree⟩
  · -- cntRefs
    intro b' blk' hf'
    rw [hFind b'] at hf'
    have h2 := hcbs b'
    have h3 : indB Handle.empty b' = 0 := indB_none _ rfl b'
    by_cases hbe : b' = b
    · subst hbe
      rw [hf] at hf'
      have hblk : blk' = { blk with cnt := blk.cnt - 1 } := by
        rw [if_pos rfl] at hf'
        injection hf' with h7
        exact h7.symm
      have h1 := hw.cntRefs b' blk hf
      have h8 : blk'.cnt = blk.cnt - 1 := by rw [hblk]
      have h4 : indB hi b' = 1 := by rw [indB, if_pos hb]
      simp only [refs] at h1 ⊢
      omega
    · rw [if_neg hbe] at hf'
      have h1 := hw.cntRefs b' blk' hf'
      have h4 : indB hi b' = 0 := by
        rw [indB, if_neg]
        rw [hb]
        intro hcon
        exact hbe (Option.some.inj hcon).symm
      simp only [refs] at h1 ⊢
      omega
  · -- nodupB
    rw [keysOf_mapK]
    exact hw.nodupB
  · -- liveFresh
    intro b' hm
    rw [keysOf_mapK] at hm
    exact hw.liveFresh b' hm
  · -- handleLive
    intro h hm b' hb'
    rcases mem_setH _ _ _ _ hm with h1 | h1
    · obtain ⟨blk0, hf0⟩ := hw.handleLive h h1 b' hb'
      exact findK_mapK_isSome _ _ _ _ _ hf0
    · rw [h1] at hb'
      exact absurd hb' (by simp [Handle.empty])
  · -- slotLive
    intro a wh hfs
    obtain ⟨b2, blk2, hwb, hf2, ho2⟩ := hw.slotLive a wh hfs
    by_cases hbe : b2 = b
    · subst hbe
      refine ⟨b2, { blk2 with cnt := blk2.cnt - 1 }, hwb, ?_, ho2⟩
      show findK (mapK b2 (fun v => { v with cnt := v.cnt - 1 }) s.mem.blocks) b2 = _
      rw [findK_mapK_self, hf2]
      rfl
    · refine ⟨b2, blk2, hwb, ?_, ho2⟩
      show findK (mapK b (fun v => { v with cnt := v.cnt - 1 }) s.mem.blocks) b2 = _
      rw [findK_mapK_ne _ _ _ _ hbe]
      exact hf2
  · -- objFresh
    intro b' blk' a hf' ho'
    obtain ⟨v0, hv0, hobj⟩ := hBack b' blk' hf'
    rw [hobj] at ho'
    exact hw.objFresh b' v0 a hv0 ho'
  · -- objUnique
    intro b1 b2 blk1 blk2 a hf1 hf2 ho1 ho2
    obtain ⟨u1, hu1, hou1⟩ := hBack b1 blk1 hf1
    obtain ⟨u2, hu2, hou2⟩ := hBack b2 blk2 hf2
    rw [hou1] at ho1
    rw [hou2] at ho2
    exact hw.objUnique b1 b2 u1 u2 a hu1 hu2 ho1 ho2
  · -- liveNotFreed
    intro b' blk' hf'
    obtain ⟨v0, hv0, _⟩ := hBack b' blk' hf'
    exact hw.liveNotFreed b' v0 hv0

/-- `Reset()` when the released reference was the block's last: the pointee is
destroyed and the block deallocated, emitting the events `es`. -/
theorem wf_release_destroy (s : Sys) (hw : WF s) (i : Nat) (hi : Handle) (b : Nat)
    (blk : BaseBlock) (hg : getH s.handles i = some hi) (hb : hi.block = some b)
    (hf : findK s.mem.blocks b = some blk) (hc : blk.cnt = 1)
    (es : List Event)
    (hcf : ∀ b2, countFree es b2 = if b = b2 then 1 else 0)
    (hcd : ∀ b2, countDObj es b2 ≤ if b = b2 then 1 else 0) :
    WF ⟨{ s.mem with blocks := eraseK s.mem.blocks b, events := s.mem.events ++ es },
        setH s.handles i Handle.empty⟩ := by
  have h1 := hw.cntRefs b blk hf
  have hmemi : hi ∈ s.handles := getH_mem _ _ _ hg
  have hpos : 1 ≤ countB s.handles b := countB_pos_of_mem _ _ _ hmemi hb
  have hCB : countB s.handles b = 1 ∧ countS s.mem.slots b = 0 := by
    simp only [refs] at h1
    omega
  have hcbs : ∀ b2, countB (setH s.handles i Handle.empty) b2 + indB hi b2
      = countB s.handles b2 + indB Handle.empty b2 :=
    fun b2 => countB_setH s.handles i hi Handle.empty b2 hg
  have hCBnew : countB (setH s.handles i Handle.empty) b = 0 := by
    have h2 := hcbs b
    have h3 : indB Handle.empty b = 0 := indB_none _ rfl b
    have h4 : indB hi b = 1 := by rw [indB, if_pos hb]
    omega
  refine ⟨?_, ?_, ?_, ?_, ?_, hw.nodupS, hw.slotFresh, ?_, ?_, ?_, ?_, ?_, ?_⟩
  · -- cntRefs
    intro b' blk' hf'
    obtain ⟨hne, hold⟩ := findK_eraseK_back _ _ _ _ hf'
    have h5 := hw.cntRefs b' blk' hold
    have h2 := hcbs b'
    have h3 : indB Handle.empty b' = 0 := indB_none _ rfl b'
    have h4 : indB hi b' = 0 := by
      rw [indB, if_neg]
      rw [hb]
      intro hcon
      exact hne (Option.some.inj hcon).symm
    simp only [refs] at h5 ⊢
    omega
  · -- nodupB
    exact nodup_keysOf_eraseK _ _ hw.nodupB
  · -- liveFresh
    intro b' hm
    exact hw.liveFresh b' (mem_keysOf_eraseK _ _ _ hm)
  · -- handleLive
    intro h hm b' hb'
    by_cases hbe : b' = b
    · subst hbe
      exact absurd hb' (countB_zero_not_mem _ _ hCBnew h hm)
    · rcases mem_setH _ _ _ _ hm with h1' | h1'
      · obtain ⟨blk0, hf0⟩ := hw.handleLive h h1' b' hb'
        rw [findK_eraseK_ne _ _ _ hbe]
        exact ⟨blk0, hf0⟩
      · rw [h1'] at hb'
        exact absurd hb' (by simp [Handle.empty])
  · -- slotLive
    intro a wh hfs
    obtain ⟨b2, blk2, hwb, hf2, ho2⟩ := hw.slotLive a wh hfs
    have hbne : b2 ≠ b := by
      intro he
      subst he
      have hfs2 : findK s.mem.slots a = some wh := hfs
      have := countS_pos_of_findK s.mem.slots a wh b2 hfs2 hwb
      omega
    refine ⟨b2, blk2, hwb, ?_, ho2⟩
    rw [findK_eraseK_ne _ _ _ hbne]
    exact hf2
  · -- objFresh
    intro b' blk' a hf' ho'
    obtain ⟨hne, hold⟩ := findK_eraseK_back _ _ _ _ hf'
    exact hw.objFresh b' blk' a hold ho'
  · -- objUnique
    intro b1 b2 blk1 blk2 a hf1 hf2 ho1 ho2
    obtain ⟨hne1, hold1⟩ := findK_eraseK_back _ _ _ _ hf1
    obtain ⟨hne2, hold2⟩ := findK_eraseK_back _ _ _ _ hf2
    exact hw.objUnique b1 b2 blk1 blk2 a hold1 hold2 ho1 ho2
  · -- liveNotFreed
    intro b' blk' hf'
    obtain ⟨hne, hold⟩ := findK_eraseK_back _ _ _ _ hf'
    obtain ⟨hlf, hld⟩ := hw.liveNotFreed b' blk' hold
    rw [countFree_append, countDObj_append, hcf b', hlf, hld, if_neg (fun he => hne he.symm)]
    have := hcd b'
    rw [if_neg (fun he => hne he.symm)] at this
    omega
  · -- freedOnce
    intro b'
    rw [countFree_append, countDObj_append, hcf b']
    have h6 := hcd b'
    by_cases hbe : b = b'
    · subst hbe
      rw [if_pos rfl] at h6 ⊢
      obtain ⟨hlf, hld⟩ := hw.liveNotFreed b blk hf
      omega
    · rw [if_neg hbe] at h6 ⊢
      have := hw.freedOnce b'
      omega
  · -- freedFresh
    intro b' hp
    rw [countFree_append, hcf b'] at hp
    by_cases hbe : b = b'
    · subst hbe
      exact hw.liveFresh b (mem_keysOf_of_findK _ _ _ hf)
    · rw [if_neg hbe] at hp
      exact hw.freedFresh b' (by omega)
  · -- dobjFree
    intro b'
    rw [countFree_append, countDObj_append, hcf b']
    have h6 := hcd b'
    by_cases hbe : b = b'
    · subst hbe
      rw [if_pos rfl] at h6 ⊢
      obtain ⟨hlf, hld⟩ := hw.liveNotFreed b blk hf
      omega
    · rw [if_neg hbe] at h6 ⊢
      have := hw.dobjFree b'
      omega

/-- `Reset()` on handle `i` preserves well-formedness; moreover the memory
frame (slots, counters) is untouched and surviving blocks keep their `obj`. -/
theorem wf_release (s : Sys) (hw : WF s) (i : Nat) (hi : Handle)
    (hg : getH s.handles i = some hi) :
    WF ⟨s.mem.resetB hi.block, setH s.handles i Handle.empty⟩ ∧
    (s.mem.resetB hi.block).slots = s.mem.slots ∧
    (s.mem.resetB hi.block).nextBlock = s.mem.nextBlock ∧
    (s.mem.resetB hi.block).nextAddr = s.mem.nextAddr ∧
    (∀ b' blk', findK (s.mem.resetB hi.block).blocks b' = some blk' →
      ∃ blk0, findK s.mem.blocks b' = some blk0 ∧ blk'.obj = blk0.obj) := by
  cases hbb : hi.block with
  | none =>
    rw [resetB_none]
    refine ⟨?_, rfl, rfl, rfl, fun b' blk' hf' => ⟨blk', hf', rfl⟩⟩
    apply wf_permGen s hw
    · intro b2
      have h2 := countB_setH s.handles i hi Handle.empty b2 hg
      have h3 : indB Handle.empty b2 = 0 := indB_none _ rfl b2
      have h4 : indB hi b2 = 0 := indB_none _ hbb b2
      omega
    · intro h hm
      rcases mem_setH _ _ _ _ hm with h1 | h1
      · exact Or.inl h1
      · exact Or.inr (by rw [h1]; rfl)
  | some b =>
    obtain ⟨blk, hf⟩ := hw.handleLive hi (getH_mem _ _ _ hg) b hbb
    by_cases hc : blk.cnt - 1 = 0
    · have hc1 : blk.cnt = 1 := by
        have h1 := hw.cntRefs b blk hf
        have hpos : 1 ≤ countB s.handles b :=
          countB_pos_of_mem _ _ _ (getH_mem _ _ _ hg) hbb
        simp only [refs] at h1
        omega
      cases ho : blk.obj with
      | none =>
        rw [resetB_destroy_objNone s.mem b blk hf hc ho]
        refine ⟨?_, rfl, rfl, rfl, ?_⟩
        · refine wf_release_destroy s hw i hi b blk hg hbb hf hc1 [Event.freeBlock b] ?_ ?_
          · intro b2
            simp only [countFree]
            rfl
          · intro b2
            simp only [countDObj]
            omega
        · intro b' blk' hf'
          obtain ⟨hne, hold⟩ := findK_eraseK_back _ _ _ _ hf'
          exact ⟨blk', hold, rfl⟩
      | some a =>
        have hsl : findK s.mem.slots a = none := by
          cases hq : findK s.mem.slots a with
          | none => rfl
          | some wh =>
            obtain ⟨b2, blk2, hwb, hf2, ho2⟩ := hw.slotLive a wh hq
            have hbeq : b2 = b := hw.objUnique b2 b blk2 blk a hf2 hf ho2 ho
            subst hbeq
            have hcs : 1 ≤ countS s.mem.slots b2 := countS_pos_of_findK _ _ _ _ hq hwb
            have h1 := hw.cntRefs b2 blk hf
            have hpos : 1 ≤ countB s.handles b2 :=
              countB_pos_of_mem _ _ _ (getH_mem _ _ _ hg) hbb
            simp only [refs] at h1
            omega
        rw [resetB_destroy_objSome s.mem b blk a hf hc ho hsl]
        refine ⟨?_, rfl, rfl, rfl, ?_⟩
        · refine wf_release_destroy s hw i hi b blk hg hbb hf hc1
            [Event.destroyObj b a, Event.freeBlock b] ?_ ?_
          · intro b2
            simp only [countFree]
            rfl
          · intro b2
            simp only [countDObj]
            omega
        · intro b' blk' hf'
          obtain ⟨hne, hold⟩ := findK_eraseK_back _ _ _ _ hf'
          exact ⟨blk', hold, rfl⟩
    · have hc2 : 2 ≤ blk.cnt := by
        have h1 := hw.cntRefs b blk hf
        have hpos : 1 ≤ countB s.handles b :=
          countB_pos_of_mem _ _ _ (getH_mem _ _ _ hg) hbb
        simp only [refs] at h1
        omega
      rw [resetB_decr s.mem b blk hf hc]
      refine ⟨wf_release_decr s hw i hi b blk hg hbb hf hc2, rfl, rfl, rfl, ?_⟩
      intro b' blk' hf'
      rcases findK_mapK_back _ _ _ _ _ hf' with ⟨hbe, v0, hv0, hve⟩ | ⟨hbe, hold⟩
      · exact ⟨v0, hv0, by rw [hve]⟩
      · exact ⟨blk', hold, rfl⟩

theorem slot_none_of_fresh (s : Sys) (hw : WF s) (a : Nat) (ha : s.mem.nextAddr ≤ a) :
    findK s.mem.slots a = none := by
  apply findK_none_of_not_mem
  intro hm
  have := hw.slotFresh a hm
  omega

theorem noObj_of_fresh (s : Sys) (hw : WF s) (a : Nat) (ha : s.mem.nextAddr ≤ a) :
    ∀ b blk, findK s.mem.blocks b = some blk → blk.obj ≠ some a := by
  intro b blk hf ho
  have := hw.objFresh b blk a hf ho
  omega

theorem wf_step_wrapFresh (s : Sys) (hw : WF s) (esft : Bool) :
    WF (step s (Op.wrapFresh esft)) := by
  have hbump : WF ⟨{ s.mem with nextAddr := s.mem.nextAddr + 1 }, s.handles⟩ :=
    wf_bumpAddr s hw (s.mem.nextAddr + 1) (by omega)
  set s1 : Sys := ⟨{ s.mem with nextAddr := s.mem.nextAddr + 1 }, s.handles⟩ with hs1
  have hnew : WF ⟨{ s1.mem with
      nextBlock := s1.mem.nextBlock + 1,
      nextAddr := s.mem.nextAddr + 1,
      blocks := (s1.mem.nextBlock, ⟨1, some s.mem.nextAddr, false⟩) :: s1.mem.blocks,
      events := s1.mem.events ++ [Event.allocBlock s1.mem.nextBlock],
      allocs := s1.mem.allocs + 1 },
      s.handles ++ [⟨some s.mem.nextAddr, some s1.mem.nextBlock⟩]⟩ := by
    apply wf_newBlock s1 hbump (some s.mem.nextAddr) false (some s.mem.nextAddr)
      (s.mem.nextAddr + 1) (by rfl)
    · intro a ha
      have haa : a = s.mem.nextAddr := Option.some.inj ha.symm
      subst haa
      exact ⟨by omega, noObj_of_fresh s hw s.mem.nextAddr (by omega)⟩
    · intro b2
      simp [countFree]
    · intro b2
      simp [countDObj]
    · intro b2
      rw [countB_append, countB_cons]
      simp only [countB]
      omega
    · intro h hm
      rcases List.mem_append.1 hm with h1 | h1
      · exact Or.inl h1
      · exact Or.inr (List.mem_singleton.1 h1)
  cases esft with
  | false => exact hnew
  | true =>
    set s2 : Sys := ⟨{ s1.mem with
      nextBlock := s1.mem.nextBlock + 1,
      nextAddr := s.mem.nextAddr + 1,
      blocks := (s1.mem.nextBlock, ⟨1, some s.mem.nextAddr, false⟩) :: s1.mem.blocks,
      events := s1.mem.events ++ [Event.allocBlock s1.mem.nextBlock],
      allocs := s1.mem.allocs + 1 },
      s.handles ++ [⟨some s.mem.nextAddr, some s1.mem.nextBlock⟩]⟩ with hs2
    have hsl : findK s2.mem.slots s.mem.nextAddr = none :=
      slot_none_of_fresh s hw s.mem.nextAddr (by omega)
    have hinst : WF ⟨SharedPtr.InternalSetWeakThis s2.mem s.mem.nextAddr
        ⟨some s.mem.nextAddr, some s1.mem.nextBlock⟩, s2.handles⟩ := by
      apply wf_installWeak s2 hnew s.mem.nextAddr s1.mem.nextBlock
        ⟨1, some s.mem.nextAddr, false⟩ ⟨some s.mem.nextAddr, some s1.mem.nextBlock⟩ rfl
      · show (if s1.mem.nextBlock = s1.mem.nextBlock then _ else _) = _
        rw [if_pos rfl]
      · rfl
      · exact hsl
      · show s.mem.nextAddr < s.mem.nextAddr + 1
        omega
    exact hinst

theorem handle_valid (s : Sys) (hw : WF s) (hj : Handle) (hm : hj ∈ s.handles) :
    hj.block = none ∨ ∃ b blk, hj.block = some b ∧ findK s.mem.blocks b = some blk := by
  cases hjb : hj.block with
  | none => exact Or.inl rfl
  | some b =>
    obtain ⟨blk, hf⟩ := hw.handleLive hj hm b hjb
    exact Or.inr ⟨b, blk, rfl, hf⟩

theorem wf_step_mkEmpty (s : Sys) (hw : WF s) : WF (step s Op.mkEmpty) :=
  wf_shareAppend s hw Handle.empty (Or.inl rfl) none

theorem wf_step_wrapNull (s : Sys) (hw : WF s) : WF (step s Op.wrapNull) :=
  wf_shareAppend s hw Handle.empty (Or.inl rfl) none

theorem wf_step_copy (s : Sys) (hw : WF s) (j : Nat) : WF (step s (Op.copy j)) := by
  simp only [step]
  cases hg : getH s.handles j with
  | none => exact hw
  | some hj =>
    exact wf_shareAppend s hw hj (handle_valid s hw hj (getH_mem _ _ _ hg)) hj.ptr

theorem wf_step_move (s : Sys) (hw : WF s) (j : Nat) : WF (step s (Op.move j)) := by
  simp only [step]
  cases hg : getH s.handles j with
  | none => exact hw
  | some hj => exact wf_moveAppend s hw j hj hg

theorem wf_step_aliasOf (s : Sys) (hw : WF s) (j : Nat) (p : Ptr) :
    WF (step s (Op.aliasOf j p)) := by
  simp only [step]
  cases hg : getH s.handles j with
  | none => exact hw
  | some hj =>
    exact wf_shareAppend s hw hj (handle_valid s hw hj (getH_mem _ _ _ hg)) p

theorem wf_step_fromThis (s : Sys) (hw : WF s) (a : Nat) : WF (step s (Op.fromThis a)) := by
  simp only [step, SharedFromThis]
  cases hq : findK s.mem.slots a with
  | none =>
    simp only [Option.getD_none]
    exact wf_shareAppend s hw Handle.empty (Or.inl rfl) Handle.empty.ptr
  | some wh =>
    simp only [Option.getD_some]
    obtain ⟨b, blk, hwb, hf, _⟩ := hw.slotLive a wh hq
    exact wf_shareAppend s hw wh (Or.inr ⟨b, blk, hwb, hf⟩) wh.ptr

theorem wf_step_swap (s : Sys) (hw : WF s) (i j : Nat) : WF (step s (Op.swapOp i j)) := by
  simp only [step]
  cases hgi : getH s.handles i with
  | none => exact hw
  | some hi =>
    cases hgj : getH s.handles j with
    | none => exact hw
    | some hj => exact wf_swap s hw i j hi hj hgi hgj

theorem wf_step_reset (s : Sys) (hw : WF s) (i : Nat) : WF (step s (Op.reset i)) := by
  simp only [step]
  cases hg : getH s.handles i with
  | none => exact hw
  | some hi => exact (wf_release s hw i hi hg).1

theorem wf_step_destruct (s : Sys) (hw : WF s) (i : Nat) : WF (step s (Op.destruct i)) := by
  simp only [step]
  cases hg : getH s.handles i with
  | none => exact hw
  | some hi => exact (wf_release s hw i hi hg).1

/-- Shared body of the copy-assignment operators once the guard has passed:
release the destination, then copy the source's members and share its block. -/
theorem wf_assignCopyBody (s : Sys) (hw : WF s) (i j : Nat) (hij : i ≠ j)
    (hi hj : Handle) (hgi : getH s.handles i = some hi) (hgj : getH s.handles j = some hj) :
    WF ⟨incr (s.mem.resetB hi.block) hj.block, setH s.handles i ⟨hj.ptr, hj.block⟩⟩ := by
  obtain ⟨hr, _, _, _, _⟩ := wf_release s hw i hi hgi
  have hgi1 : getH (setH s.handles i Handle.empty) i = some Handle.empty :=
    getH_setH_self s.handles i hi Handle.empty hgi
  have hgj1 : getH (setH s.handles i Handle.empty) j = some hj := by
    rw [getH_setH_ne s.handles i j Handle.empty (fun he => hij he.symm)]
    exact hgj
  have hres := wf_overwrite ⟨s.mem.resetB hi.block, setH s.handles i Handle.empty⟩ hr i
    Handle.empty hgi1 rfl hj
    (handle_valid _ hr hj (getH_mem _ _ _ hgj1)) hj.ptr
  rw [setH_setH] at hres
  exact hres

/-- Shared body of the move-assignment operators once the guard has passed:
release the destination, take the source's members, empty the source. -/
theorem wf_assignMoveBody (s : Sys) (hw : WF s) (i j : Nat) (hij : i ≠ j)
    (hi hj : Handle) (hgi : getH s.handles i = some hi) (hgj : getH s.handles j = some hj) :
    WF ⟨s.mem.resetB hi.block,
        setH (setH s.handles i ⟨hj.ptr, hj.block⟩) j Handle.empty⟩ := by
  obtain ⟨hr, _, _, _, _⟩ := wf_release s hw i hi hgi
  have hgi1 : getH (setH s.handles i Handle.empty) i = some Handle.empty :=
    getH_setH_self s.handles i hi Handle.empty hgi
  have hgj1 : getH (setH s.handles i Handle.empty) j = some hj := by
    rw [getH_setH_ne s.handles i j Handle.empty (fun he => hij he.symm)]
    exact hgj
  have hres := wf_moveSet ⟨s.mem.resetB hi.block, setH s.handles i Handle.empty⟩ hr i j hij
    hgi1 hj hgj1
  rw [setH_setH] at hres
  exact hres

theorem wf_step_assignCopy (s : Sys) (hw : WF s) (i j : Nat) :
    WF (step s (Op.assignCopy i j)) := by
  simp only [step]
  by_cases hij : i = j
  · rw [if_pos hij]
    exact hw
  · rw [if_neg hij]
    cases hgi : getH s.handles i with
    | none => exact hw
    | some hi =>
      cases hgj : getH s.handles j with
      | none => exact hw
      | some hj => exact wf_assignCopyBody s hw i j hij hi hj hgi hgj

theorem wf_step_assignMove (s : Sys) (hw : WF s) (i j : Nat) :
    WF (step s (Op.assignMove i j)) := by
  simp only [step]
  by_cases hij : i = j
  · rw [if_pos hij]
    exact hw
  · rw [if_neg hij]
    cases hgi : getH s.handles i with
    | none => exact hw
    | some hi =>
      cases hgj : getH s.handles j with
      | none => exact hw
      | some hj => exact wf_assignMoveBody s hw i j hij hi hj hgi hgj

theorem wf_step_assignCopyConv (s : Sys) (hw : WF s) (i j : Nat) :
    WF (step s (Op.assignCopyConv i j)) := by
  simp only [step]
  cases hgi : getH s.handles i with
  | none => exact hw
  | some hi =>
    cases hgj : getH s.handles j with
    | none => exact hw
    | some hj =>
      change WF (if hi.block = hj.block ∧ hi.ptr = hj.ptr then s
        else ⟨incr (s.mem.resetB hi.block) hj.block, setH s.handles i ⟨hj.ptr, hj.block⟩⟩)
      by_cases hguard : hi.block = hj.block ∧ hi.ptr = hj.ptr
      · rw [if_pos hguard]
        exact hw
      · rw [if_neg hguard]
        have hij : i ≠ j := by
          intro he
          subst he
          rw [hgi] at hgj
          have : hi = hj := by injection hgj
          exact hguard ⟨by rw [this], by rw [this]⟩
        exact wf_assignCopyBody s hw i j hij hi hj hgi hgj

theorem wf_step_assignMoveConv (s : Sys) (hw : WF s) (i j : Nat) :
    WF (step s (Op.assignMoveConv i j)) := by
  simp only [step]
  cases hgi : getH s.handles i with
  | none => exact hw
  | some hi =>
    cases hgj : getH s.handles j with
    | none => exact hw
    | some hj =>
      change WF (if hi.block = hj.block ∧ hi.ptr = hj.ptr then s
        else ⟨s.mem.resetB hi.block,
          setH (setH s.handles i ⟨hj.ptr, hj.block⟩) j Handle.empty⟩)
      by_cases hguard : hi.block = hj.block ∧ hi.ptr = hj.ptr
      · rw [if_pos hguard]
        exact hw
      · rw [if_neg hguard]
        have hij : i ≠ j := by
          intro he
          subst he
          rw [hgi] at hgj
          have : hi = hj := by injection hgj
          exact hguard ⟨by rw [this], by rw [this]⟩
        exact wf_assignMoveBody s hw i j hij hi hj hgi hgj

theorem wf_step_mkShared (s : Sys) (hw : WF s) (esft : Bool) (args : List Nat) :
    WF (step s (Op.mkShared esft args)) := by
  have hnew : WF ⟨{ s.mem with
      nextBlock := s.mem.nextBlock + 1,
      nextAddr := s.mem.nextAddr + 1,
      blocks := (s.mem.nextBlock, ⟨1, some s.mem.nextAddr, true⟩) :: s.mem.blocks,
      events := s.mem.events ++ [Event.allocBlock s.mem.nextBlock,
        Event.construct s.mem.nextAddr args],
      allocs := s.mem.allocs + 1 },
      s.handles ++ [⟨some s.mem.nextAddr, some s.mem.nextBlock⟩]⟩ := by
    apply wf_newBlock s hw (some s.mem.nextAddr) true (some s.mem.nextAddr)
      (s.mem.nextAddr + 1) (by omega)
    · intro a ha
      have haa : a = s.mem.nextAddr := Option.some.inj ha.symm
      subst haa
      exact ⟨by omega, noObj_of_fresh s hw s.mem.nextAddr (by omega)⟩
    · intro b2
      simp [countFree]
    · intro b2
      simp [countDObj]
    · intro b2
      rw [countB_append, countB_cons]
      simp only [countB]
      omega
    · intro h hm
      rcases List.mem_append.1 hm with h1 | h1
      · exact Or.inl h1
      · exact Or.inr (List.mem_singleton.1 h1)
  cases esft with
  | false => exact hnew
  | true =>
    set s2 : Sys := ⟨{ s.mem with
      nextBlock := s.mem.nextBlock + 1,
      nextAddr := s.mem.nextAddr + 1,
      blocks := (s.mem.nextBlock, ⟨1, some s.mem.nextAddr, true⟩) :: s.mem.blocks,
      events := s.mem.events ++ [Event.allocBlock s.mem.nextBlock,
        Event.construct s.mem.nextAddr args],
      allocs := s.mem.allocs + 1 },
      s.handles ++ [⟨some s.mem.nextAddr, some s.mem.nextBlock⟩]⟩ with hs2
    have hinst : WF ⟨SharedPtr.InternalSetWeakThis s2.mem s.mem.nextAddr
        ⟨some s.mem.nextAddr, some s.mem.nextBlock⟩, s2.handles⟩ := by
      apply wf_installWeak s2 hnew s.mem.nextAddr s.mem.nextBlock
        ⟨1, some s.mem.nextAddr, true⟩ ⟨some s.mem.nextAddr, some s.mem.nextBlock⟩ rfl
      · show (if s.mem.nextBlock = s.mem.nextBlock then _ else _) = _
        rw [if_pos rfl]
      · rfl
      · exact slot_none_of_fresh s hw s.mem.nextAddr (by omega)
      · show s.mem.nextAddr < s.mem.nextAddr + 1
        omega
    exact hinst

theorem wf_step_resetNull (s : Sys) (hw : WF s) (i : Nat) : WF (step s (Op.resetNull i)) := by
  simp only [step]
  cases hg : getH s.handles i with
  | none => exact hw
  | some hi =>
    change WF ⟨(SharedPtr.ResetPtr s.mem hi false none).1,
      setH s.handles i (SharedPtr.ResetPtr s.mem hi false none).2⟩
    by_cases hptr : hi.ptr = (none : Ptr)
    · have hr : SharedPtr.ResetPtr s.mem hi false none = (s.mem, hi) := by
        unfold SharedPtr.ResetPtr
        rw [if_pos hptr]
      rw [hr]
      show WF ⟨s.mem, setH s.handles i hi⟩
      rw [setH_self s.handles i hi hg]
      exact hw
    · have hr : SharedPtr.ResetPtr s.mem hi false none =
          ({ (s.mem.resetB hi.block) with
            nextBlock := (s.mem.resetB hi.block).nextBlock + 1,
            blocks := ((s.mem.resetB hi.block).nextBlock, ⟨1, none, false⟩)
              :: (s.mem.resetB hi.block).blocks,
            events := (s.mem.resetB hi.block).events
              ++ [Event.allocBlock (s.mem.resetB hi.block).nextBlock],
            allocs := (s.mem.resetB hi.block).allocs + 1 },
          ⟨none, some (s.mem.resetB hi.block).nextBlock⟩) := by
        unfold SharedPtr.ResetPtr
        rw [if_neg hptr]
        rfl
      rw [hr]
      obtain ⟨hr1, hslots1, hnb1, hna1, hobj1⟩ := wf_release s hw i hi hg
      have hgi1 : getH (setH s.handles i Handle.empty) i = some Handle.empty :=
        getH_setH_self s.handles i hi Handle.empty hg
      have hnew : WF ⟨{ (s.mem.resetB hi.block) with
          nextBlock := (s.mem.resetB hi.block).nextBlock + 1,
          nextAddr := (s.mem.resetB hi.block).nextAddr,
          blocks := ((s.mem.resetB hi.block).nextBlock, ⟨1, none, false⟩)
            :: (s.mem.resetB hi.block).blocks,
          events := (s.mem.resetB hi.block).events
            ++ [Event.allocBlock (s.mem.resetB hi.block).nextBlock],
          allocs := (s.mem.resetB hi.block).allocs + 1 },
          setH (setH s.handles i Handle.empty) i
            ⟨none, some (s.mem.resetB hi.block).nextBlock⟩⟩ := by
        apply wf_newBlock _ hr1 none false none _ (le_refl _)
        · intro a ha
          exact absurd ha (by simp)
        · intro b2
          simp [countFree]
        · intro b2
          simp [countDObj]
        · intro b2
          show countB (setH (setH s.handles i Handle.empty) i
              ⟨none, some (s.mem.resetB hi.block).nextBlock⟩) b2
            = countB (setH s.handles i Handle.empty) b2
              + indB (⟨none, some (s.mem.resetB hi.block).nextBlock⟩ : Handle) b2
          have h2 := countB_setH (setH s.handles i Handle.empty) i Handle.empty
            ⟨none, some (s.mem.resetB hi.block).nextBlock⟩ b2 hgi1
          have h3 : indB Handle.empty b2 = 0 := indB_none _ rfl b2
          omega
        · intro h hm
          exact mem_setH _ _ _ _ hm
      rw [setH_setH] at hnew
      exact hnew

theorem wf_step_resetFresh (s : Sys) (hw : WF s) (i : Nat) (esft : Bool) :
    WF (step s (Op.resetFresh i esft)) := by
  simp only [step]
  cases hg : getH s.handles i with
  | none => exact hw
  | some hi =>
    change WF ⟨(SharedPtr.ResetPtr { s.mem with nextAddr := s.mem.nextAddr + 1 } hi esft
        (some s.mem.nextAddr)).1,
      setH s.handles i (SharedPtr.ResetPtr { s.mem with nextAddr := s.mem.nextAddr + 1 } hi esft
        (some s.mem.nextAddr)).2⟩
    have hw0 : WF ⟨{ s.mem with nextAddr := s.mem.nextAddr + 1 }, s.handles⟩ :=
      wf_bumpAddr s hw (s.mem.nextAddr + 1) (by omega)
    by_cases hptr : hi.ptr = (some s.mem.nextAddr : Ptr)
    · have hr : SharedPtr.ResetPtr { s.mem with nextAddr := s.mem.nextAddr + 1 } hi esft
          (some s.mem.nextAddr) = ({ s.mem with nextAddr := s.mem.nextAddr + 1 }, hi) := by
        unfold SharedPtr.ResetPtr
        rw [if_pos hptr]
      rw [hr]
      show WF ⟨{ s.mem with nextAddr := s.mem.nextAddr + 1 }, setH s.handles i hi⟩
      rw [setH_self s.handles i hi hg]
      exact hw0
    · have hr : SharedPtr.ResetPtr { s.mem with nextAddr := s.mem.nextAddr + 1 } hi esft
          (some s.mem.nextAddr) =
          (SharedPtr.MakeEnableSharedFromThis
            { (Mem.resetB { s.mem with nextAddr := s.mem.nextAddr + 1 } hi.block) with
              nextBlock := (Mem.resetB { s.mem with nextAddr := s.mem.nextAddr + 1 }
                hi.block).nextBlock + 1,
              blocks := ((Mem.resetB { s.mem with nextAddr := s.mem.nextAddr + 1 }
                  hi.block).nextBlock, ⟨1, some s.mem.nextAddr, false⟩)
                :: (Mem.resetB { s.mem with nextAddr := s.mem.nextAddr + 1 } hi.block).blocks,
              events := (Mem.resetB { s.mem with nextAddr := s.mem.nextAddr + 1 }
                  hi.block).events
                ++ [Event.allocBlock (Mem.resetB { s.mem with
                  nextAddr := s.mem.nextAddr + 1 } hi.block).nextBlock],
              allocs := (Mem.resetB { s.mem with nextAddr := s.mem.nextAddr + 1 }
                hi.block).allocs + 1 }
            esft (some s.mem.nextAddr)
            ⟨some s.mem.nextAddr, some (Mem.resetB { s.mem with
              nextAddr := s.mem.nextAddr + 1 } hi.block).nextBlock⟩,
          ⟨some s.mem.nextAddr, some (Mem.resetB { s.mem with
            nextAddr := s.mem.nextAddr + 1 } hi.block).nextBlock⟩) := by
        unfold SharedPtr.ResetPtr
        rw [if_neg hptr]
      rw [hr]
      obtain ⟨hr1, hslots1, hnb1, hna1, hobj1⟩ :=
        wf_release ⟨{ s.mem with nextAddr := s.mem.nextAddr + 1 }, s.handles⟩ hw0 i hi hg
      have hna2 : (Mem.resetB { s.mem with nextAddr := s.mem.nextAddr + 1 }
          hi.block).nextAddr = s.mem.nextAddr + 1 := hna1
      have hgi1 : getH (setH s.handles i Handle.empty) i = some Handle.empty :=
        getH_setH_self s.handles i hi Handle.empty hg
      have hnew : WF ⟨{ (Mem.resetB { s.mem with nextAddr := s.mem.nextAddr + 1 }
            hi.block) with
          nextBlock := (Mem.resetB { s.mem with nextAddr := s.mem.nextAddr + 1 }
            hi.block).nextBlock + 1,
          nextAddr := (Mem.resetB { s.mem with nextAddr := s.mem.nextAddr + 1 }
            hi.block).nextAddr,
          blocks := ((Mem.resetB { s.mem with nextAddr := s.mem.nextAddr + 1 }
              hi.block).nextBlock, ⟨1, some s.mem.nextAddr, false⟩)
            :: (Mem.resetB { s.mem with nextAddr := s.mem.nextAddr + 1 } hi.block).blocks,
          events := (Mem.resetB { s.mem with nextAddr := s.mem.nextAddr + 1 }
              hi.block).events
            ++ [Event.allocBlock (Mem.resetB { s.mem with
              nextAddr := s.mem.nextAddr + 1 } hi.block).nextBlock],
          allocs := (Mem.resetB { s.mem with nextAddr := s.mem.nextAddr + 1 }
            hi.block).allocs + 1 },
          setH (setH s.handles i Handle.empty) i
            ⟨some s.mem.nextAddr, some (Mem.resetB { s.mem with
              nextAddr := s.mem.nextAddr + 1 } hi.block).nextBlock⟩⟩ := by
        apply wf_newBlock _ hr1 (some s.mem.nextAddr) false (some s.mem.nextAddr) _
          (le_refl _)
        · intro a2 ha2
          have haa : a2 = s.mem.nextAddr := Option.some.inj ha2.symm
          subst haa
          constructor
          · rw [hna2]
            omega
          · intro b blk hf ho
            obtain ⟨blk0, hf0, hoeq⟩ := hobj1 b blk hf
            have hf0' : findK s.mem.blocks b = some blk0 := hf0
            rw [hoeq] at ho
            exact noObj_of_fresh s hw s.mem.nextAddr (by omega) b blk0 hf0' ho
        · intro b2
          simp [countFree]
        · intro b2
          simp [countDObj]
        · intro b2
          show countB (setH (setH s.handles i Handle.empty) i
              ⟨some s.mem.nextAddr, some (Mem.resetB { s.mem with
                nextAddr := s.mem.nextAddr + 1 } hi.block).nextBlock⟩) b2
            = countB (setH s.handles i Handle.empty) b2
              + indB (⟨some s.mem.nextAddr, some (Mem.resetB { s.mem with
                nextAddr := s.mem.nextAddr + 1 } hi.block).nextBlock⟩ : Handle) b2
          have h2 := countB_setH (setH s.handles i Handle.empty) i Handle.empty
            ⟨some s.mem.nextAddr, some (Mem.resetB { s.mem with
              nextAddr := s.mem.nextAddr + 1 } hi.block).nextBlock⟩ b2 hgi1
          have h3 : indB Handle.empty b2 = 0 := indB_none _ rfl b2
          omega
        · intro h hm
          exact mem_setH _ _ _ _ hm
      rw [setH_setH] at hnew
      cases esft with
      | false => exact hnew
      | true =>
        have hinst := wf_installWeak _ hnew s.mem.nextAddr
          (Mem.resetB { s.mem with nextAddr := s.mem.nextAddr + 1 } hi.block).nextBlock
          ⟨1, some s.mem.nextAddr, false⟩
          ⟨some s.mem.nextAddr, some (Mem.resetB { s.mem with
            nextAddr := s.mem.nextAddr + 1 } hi.block).nextBlock⟩
          rfl ?hf ?ho ?hsl ?ha
        case hf =>
          show (if (Mem.resetB { s.mem with nextAddr := s.mem.nextAddr + 1 }
              hi.block).nextBlock = (Mem.resetB { s.mem with
              nextAddr := s.mem.nextAddr + 1 } hi.block).nextBlock
            then _ else _) = _
          rw [if_pos rfl]
        case ho => rfl
        case hsl =>
          show findK (Mem.resetB { s.mem with nextAddr := s.mem.nextAddr + 1 }
            hi.block).slots s.mem.nextAddr = none
          rw [hslots1]
          exact slot_none_of_fresh s hw s.mem.nextAddr (by omega)
        case ha =>
          show s.mem.nextAddr < (Mem.resetB { s.mem with nextAddr := s.mem.nextAddr + 1 }
            hi.block).nextAddr
          rw [hna2]
          omega
        exact hinst

theorem wf_step (s : Sys) (hw : WF s) (op : Op) : WF (step s op) := by
  cases op with
  | mkEmpty => exact wf_step_mkEmpty s hw
  | wrapFresh esft => exact wf_step_wrapFresh s hw esft
  | wrapNull => exact wf_step_wrapNull s hw
  | copy j => exact wf_step_copy s hw j
  | move j => exact wf_step_move s hw j
  | aliasOf j p => exact wf_step_aliasOf s hw j p
  | assignCopy i j => exact wf_step_assignCopy s hw i j
  | assignMove i j => exact wf_step_assignMove s hw i j
  | assignCopyConv i j => exact wf_step_assignCopyConv s hw i j
  | assignMoveConv i j => exact wf_step_assignMoveConv s hw i j
  | reset i => exact wf_step_reset s hw i
  | resetNull i => exact wf_step_resetNull s hw i
  | resetFresh i esft => exact wf_step_resetFresh s hw i esft
  | destruct i => exact wf_step_destruct s hw i
  | mkShared esft args => exact wf_step_mkShared s hw esft args
  | fromThis a => exact wf_step_fromThis s hw a
  | swapOp i j => exact wf_step_swap s hw i j

theorem wf_runFrom (s : Sys) (hw : WF s) (ops : List Op) : WF (runFrom s ops) := by
  induction ops generalizing s with
  | nil => exact hw
  | cons op t ih => exact ih (step s op) (wf_step s hw op)

theorem wf_run (ops : List Op) : WF (run ops) :=
  wf_runFrom Sys.init wf_init ops

/-- `resetFuel` only ever appends to the event log. -/
theorem resetFuel_events_mono (fuel : Nat) (m : Mem) (b? : Option Nat) :
    ∃ es, (resetFuel fuel m b?).events = m.events ++ es := by
  induction fuel generalizing m b? with
  | zero =>
    cases b? with
    | none => exact ⟨[], by simp [resetFuel]⟩
    | some b => exact ⟨[], by simp [resetFuel]⟩
  | succ n ih =>
    cases b? with
    | none => exact ⟨[], by simp [resetFuel]⟩
    | some b =>
      unfold resetFuel
      cases hf : findK m.blocks b with
      | none => exact ⟨[], by simp⟩
      | some blk =>
        simp only
        by_cases hc : blk.cnt - 1 = 0
        · rw [if_pos hc]
          cases ho : blk.obj with
          | none =>
            simp only [ho]
            exact ⟨[Event.freeBlock b], by simp⟩
          | some a =>
            simp only [ho]
            cases hq : findK m.slots a with
            | none =>
              simp only [hq]
              exact ⟨[Event.destroyObj b a, Event.freeBlock b], by simp⟩
            | some wh =>
              simp only [hq]
              obtain ⟨es, hes⟩ := ih { m with
                blocks := eraseK m.blocks b,
                slots := eraseK m.slots a,
                events := m.events ++ [Event.destroyObj b a] } wh.block
              refine ⟨[Event.destroyObj b a] ++ es ++ [Event.freeBlock b], ?_⟩
              show (resetFuel n { m with
                blocks := eraseK m.blocks b,
                slots := eraseK m.slots a,
                events := m.events ++ [Event.destroyObj b a] } wh.block).events
                  ++ [Event.freeBlock b] = _
              rw [hes]
              simp [List.append_assoc]
        · rw [if_neg hc]
          exact ⟨[], by simp⟩

theorem resetB_events_mono (m : Mem) (b? : Option Nat) :
    ∃ es, (m.resetB b?).events = m.events ++ es :=
  resetFuel_events_mono _ _ _

/-- Installing a back-link over a fresh address is an increment plus a slot
cons. -/
theorem installWeak_eq (m : Mem) (a : Nat) (sp : Handle)
    (hsl : findK m.slots a = none) :
    SharedPtr.InternalSetWeakThis m a sp =
      { incr m sp.block with slots := (a, sp) :: m.slots } := by
  unfold SharedPtr.InternalSetWeakThis
  rw [hsl]
  simp only [Option.getD_none]
  rw [show Handle.empty.block = none from rfl, resetB_none, incr_slots,
    eraseK_of_findK_none _ _ hsl]

theorem slot_cons_fresh_preserved (s : Sys) (hw : WF s) (a1 : Nat)
    (ha1 : s.mem.nextAddr ≤ a1) (sp : Handle) (a0 : Nat) (wh : Handle)
    (hq : findK s.mem.slots a0 = some wh) :
    findK ((a1, sp) :: s.mem.slots) a0 = some wh := by
  have := hw.slotFresh a0 (mem_keysOf_of_findK _ _ _ hq)
  rw [findK, if_neg (by omega)]
  exact hq

theorem installWeak_events (m : Mem) (a : Nat) (sp : Handle)
    (hsl : findK m.slots a = none) :
    (SharedPtr.InternalSetWeakThis m a sp).events = m.events := by
  rw [installWeak_eq m a sp hsl]
  show (incr m sp.block).events = m.events
  exact incr_events m sp.block

theorem installWeak_slots (m : Mem) (a : Nat) (sp : Handle)
    (hsl : findK m.slots a = none) :
    (SharedPtr.InternalSetWeakThis m a sp).slots = (a, sp) :: m.slots := by
  rw [installWeak_eq m a sp hsl]

/-- One step only appends events, and every installed back-link slot
persists unchanged. -/
theorem step_frame (s : Sys) (hw : WF s) (op : Op) :
    (∃ es, (step s op).mem.events = s.mem.events ++ es) ∧
    (∀ a0 wh, findK s.mem.slots a0 = some wh →
      findK (step s op).mem.slots a0 = some wh) := by
  cases op with
  | mkEmpty => exact ⟨⟨[], by simp [step]⟩, fun a0 wh hq => hq⟩
  | wrapNull => exact ⟨⟨[], by simp [step, SharedPtr.ctorPtr]⟩, fun a0 wh hq => hq⟩
  | copy j =>
    simp only [step]
    cases hg : getH s.handles j with
    | none => exact ⟨⟨[], by simp⟩, fun a0 wh hq => hq⟩
    | some hj =>
      refine ⟨⟨[], ?_⟩, fun a0 wh hq => ?_⟩
      · show (incr s.mem hj.block).events = _
        rw [incr_events]
        simp
      · show findK (incr s.mem hj.block).slots a0 = some wh
        rw [incr_slots]
        exact hq
  | aliasOf j p =>
    simp only [step]
    cases hg : getH s.handles j with
    | none => exact ⟨⟨[], by simp⟩, fun a0 wh hq => hq⟩
    | some hj =>
      refine ⟨⟨[], ?_⟩, fun a0 wh hq => ?_⟩
      · show (incr s.mem hj.block).events = _
        rw [incr_events]
        simp
      · show findK (incr s.mem hj.block).slots a0 = some wh
        rw [incr_slots]
        exact hq
  | fromThis a =>
    simp only [step, SharedFromThis]
    refine ⟨⟨[], ?_⟩, fun a0 wh hq => ?_⟩
    · show (incr s.mem ((findK s.mem.slots a).getD Handle.empty).block).events = _
      rw [incr_events]
      simp
    · show findK (incr s.mem ((findK s.mem.slots a).getD Handle.empty).block).slots a0
        = some wh
      rw [incr_slots]
      exact hq
  | move j =>
    simp only [step]
    cases hg : getH s.handles j with
    | none => exact ⟨⟨[], by simp⟩, fun a0 wh hq => hq⟩
    | some hj => exact ⟨⟨[], by simp⟩, fun a0 wh hq => hq⟩
  | swapOp i j =>
    simp only [step]
    cases hgi : getH s.handles i with
    | none => exact ⟨⟨[], by simp⟩, fun a0 wh hq => hq⟩
    | some hi =>
      cases hgj : getH s.handles j with
      | none => exact ⟨⟨[], by simp⟩, fun a0 wh hq => hq⟩
      | some hj => exact ⟨⟨[], by simp⟩, fun a0 wh hq => hq⟩
  | reset i =>
    simp only [step]
    cases hg : getH s.handles i with
    | none => exact ⟨⟨[], by simp⟩, fun a0 wh hq => hq⟩
    | some hi =>
      obtain ⟨_, hslots1, _, _, _⟩ := wf_release s hw i hi hg
      refine ⟨resetB_events_mono s.mem hi.block, fun a0 wh hq => ?_⟩
      show findK (s.mem.resetB hi.block).slots a0 = some wh
      rw [hslots1]
      exact hq
  | destruct i =>
    simp only [step]
    cases hg : getH s.handles i with
    | none => exact ⟨⟨[], by simp⟩, fun a0 wh hq => hq⟩
    | some hi =>
      obtain ⟨_, hslots1, _, _, _⟩ := wf_release s hw i hi hg
      refine ⟨resetB_events_mono s.mem hi.block, fun a0 wh hq => ?_⟩
      show findK (s.mem.resetB hi.block).slots a0 = some wh
      rw [hslots1]
      exact hq
  | assignCopy i j =>
    simp only [step]
    by_cases hij : i = j
    · rw [if_pos hij]
      exact ⟨⟨[], by simp⟩, fun a0 wh hq => hq⟩
    · rw [if_neg hij]
      cases hgi : getH s.handles i with
      | none => exact ⟨⟨[], by simp⟩, fun a0 wh hq => hq⟩
      | some hi =>
        cases hgj : getH s.handles j with
        | none => exact ⟨⟨[], by simp⟩, fun a0 wh hq => hq⟩
        | some hj =>
          obtain ⟨_, hslots1, _, _, _⟩ := wf_release s hw i hi hgi
          obtain ⟨es, hes⟩ := resetB_events_mono s.mem hi.block
          refine ⟨⟨es, ?_⟩, fun a0 wh hq => ?_⟩
          · show (incr (s.mem.resetB hi.block) hj.block).events = _
            rw [incr_events]
            exact hes
          · show findK (incr (s.mem.resetB hi.block) hj.block).slots a0 = some wh
            rw [incr_slots, hslots1]
            exact hq
  | assignMove i j =>
    simp only [step]
    by_cases hij : i = j
    · rw [if_pos hij]
      exact ⟨⟨[], by simp⟩, fun a0 wh hq => hq⟩
    · rw [if_neg hij]
      cases hgi : getH s.handles i with
      | none => exact ⟨⟨[], by simp⟩, fun a0 wh hq => hq⟩
      | some hi =>
        cases hgj : getH s.handles j with
        | none => exact ⟨⟨[], by simp⟩, fun a0 wh hq => hq⟩
        | some hj =>
          obtain ⟨_, hslots1, _, _, _⟩ := wf_release s hw i hi hgi
          refine ⟨resetB_events_mono s.mem hi.block, fun a0 wh hq => ?_⟩
          show findK (s.mem.resetB hi.block).slots a0 = some wh
          rw [hslots1]
          exact hq
  | assignCopyConv i j =>
    simp only [step]
    cases hgi : getH s.handles i with
    | none => exact ⟨⟨[], by simp⟩, fun a0 wh hq => hq⟩
    | some hi =>
      cases hgj : getH s.handles j with
      | none => exact ⟨⟨[], by simp⟩, fun a0 wh hq => hq⟩
      | some hj =>
        change (∃ es, (if hi.block = hj.block ∧ hi.ptr = hj.ptr then s
            else (⟨incr (s.mem.resetB hi.block) hj.block,
              setH s.handles i ⟨hj.ptr, hj.block⟩⟩ : Sys)).mem.events
          = s.mem.events ++ es) ∧ (∀ a0 wh, findK s.mem.slots a0 = some wh →
            findK (if hi.block = hj.block ∧ hi.ptr = hj.ptr then s
            else (⟨incr (s.mem.resetB hi.block) hj.block,
              setH s.handles i ⟨hj.ptr, hj.block⟩⟩ : Sys)).mem.slots a0 = some wh)
        by_cases hguard : hi.block = hj.block ∧ hi.ptr = hj.ptr
        · rw [if_pos hguard]
          exact ⟨⟨[], by simp⟩, fun a0 wh hq => hq⟩
        · rw [if_neg hguard]
          obtain ⟨_, hslots1, _, _, _⟩ := wf_release s hw i hi hgi
          obtain ⟨es, hes⟩ := resetB_events_mono s.mem hi.block
          refine ⟨⟨es, ?_⟩, fun a0 wh hq => ?_⟩
          · show (incr (s.mem.resetB hi.block) hj.block).events = _
            rw [incr_events]
            exact hes
          · show findK (incr (s.mem.resetB hi.block) hj.block).slots a0 = some wh
            rw [incr_slots, hslots1]
            exact hq
  | assignMoveConv i j =>
    simp only [step]
    cases hgi : getH s.handles i with
    | none => exact ⟨⟨[], by simp⟩, fun a0 wh hq => hq⟩
    | some hi =>
      cases hgj : getH s.handles j with
      | none => exact ⟨⟨[], by simp⟩, fun a0 wh hq => hq⟩
      | some hj =>
        change (∃ es, (if hi.block = hj.block ∧ hi.ptr = hj.ptr then s
            else (⟨s.mem.resetB hi.block,
              setH (setH s.handles i ⟨hj.ptr, hj.block⟩) j Handle.empty⟩ : Sys)).mem.events
          = s.mem.events ++ es) ∧ (∀ a0 wh, findK s.mem.slots a0 = some wh →
            findK (if hi.block = hj.block ∧ hi.ptr = hj.ptr then s
            else (⟨s.mem.resetB hi.block,
              setH (setH s.handles i ⟨hj.ptr, hj.block⟩) j
                Handle.empty⟩ : Sys)).mem.slots a0 = some wh)
        by_cases hguard : hi.block = hj.block ∧ hi.ptr = hj.ptr
        · rw [if_pos hguard]
          exact ⟨⟨[], by simp⟩, fun a0 wh hq => hq⟩
        · rw [if_neg hguard]
          obtain ⟨_, hslots1, _, _, _⟩ := wf_release s hw i hi hgi
          refine ⟨resetB_events_mono s.mem hi.block, fun a0 wh hq => ?_⟩
          show findK (s.mem.resetB hi.block).slots a0 = some wh
          rw [hslots1]
          exact hq
  | wrapFresh esft =>
    cases esft with
    | false =>
      refine ⟨⟨[Event.allocBlock s.mem.nextBlock], by simp [step, SharedPtr.ctorPtr,
        SharedPtr.MakeEnableSharedFromThis]⟩, fun a0 wh hq => hq⟩
    | true =>
      have hsl : findK s.mem.slots s.mem.nextAddr = none :=
        slot_none_of_fresh s hw s.mem.nextAddr (by omega)
      have hsl1 : findK ({ s.mem with
          nextAddr := s.mem.nextAddr + 1,
          nextBlock := s.mem.nextBlock + 1,
          blocks := (s.mem.nextBlock, ⟨1, some s.mem.nextAddr, false⟩) :: s.mem.blocks,
          events := s.mem.events ++ [Event.allocBlock s.mem.nextBlock],
          allocs := s.mem.allocs + 1 } : Mem).slots s.mem.nextAddr = none := hsl
      refine ⟨⟨[Event.allocBlock s.mem.nextBlock], ?_⟩, fun a0 wh hq => ?_⟩
      · show (SharedPtr.InternalSetWeakThis { s.mem with
            nextAddr := s.mem.nextAddr + 1,
            nextBlock := s.mem.nextBlock + 1,
            blocks := (s.mem.nextBlock, ⟨1, some s.mem.nextAddr, false⟩) :: s.mem.blocks,
            events := s.mem.events ++ [Event.allocBlock s.mem.nextBlock],
            allocs := s.mem.allocs + 1 } s.mem.nextAddr
          ⟨some s.mem.nextAddr, some s.mem.nextBlock⟩).events = _
        rw [installWeak_events _ _ _ hsl1]
      · show findK (SharedPtr.InternalSetWeakThis { s.mem with
            nextAddr := s.mem.nextAddr + 1,
            nextBlock := s.mem.nextBlock + 1,
            blocks := (s.mem.nextBlock, ⟨1, some s.mem.nextAddr, false⟩) :: s.mem.blocks,
            events := s.mem.events ++ [Event.allocBlock s.mem.nextBlock],
            allocs := s.mem.allocs + 1 } s.mem.nextAddr
          ⟨some s.mem.nextAddr, some s.mem.nextBlock⟩).slots a0 = some wh
        rw [installWeak_slots _ _ _ hsl1]
        show findK ((s.mem.nextAddr,
          (⟨some s.mem.nextAddr, some s.mem.nextBlock⟩ : Handle)) :: s.mem.slots) a0 = some wh
        exact slot_cons_fresh_preserved s hw s.mem.nextAddr (by omega) _ a0 wh hq
  | mkShared esft args =>
    cases esft with
    | false =>
      refine ⟨⟨[Event.allocBlock s.mem.nextBlock, Event.construct s.mem.nextAddr args],
        by simp [step, MakeShared, SharedPtr.MakeEnableSharedFromThis]⟩,
        fun a0 wh hq => hq⟩
    | true =>
      have hsl : findK s.mem.slots s.mem.nextAddr = none :=
        slot_none_of_fresh s hw s.mem.nextAddr (by omega)
      have hsl1 : findK ({ s.mem with
          nextBlock := s.mem.nextBlock + 1,
          nextAddr := s.mem.nextAddr + 1,
          blocks := (s.mem.nextBlock, ⟨1, some s.mem.nextAddr, true⟩) :: s.mem.blocks,
          events := s.mem.events ++ [Event.allocBlock s.mem.nextBlock,
            Event.construct s.mem.nextAddr args],
          allocs := s.mem.allocs + 1 } : Mem).slots s.mem.nextAddr = none := hsl
      refine ⟨⟨[Event.allocBlock s.mem.nextBlock, Event.construct s.mem.nextAddr args], ?_⟩,
        fun a0 wh hq => ?_⟩
      · show (SharedPtr.InternalSetWeakThis { s.mem with
            nextBlock := s.mem.nextBlock + 1,
            nextAddr := s.mem.nextAddr + 1,
            blocks := (s.mem.nextBlock, ⟨1, some s.mem.nextAddr, true⟩) :: s.mem.blocks,
            events := s.mem.events ++ [Event.allocBlock s.mem.nextBlock,
              Event.construct s.mem.nextAddr args],
            allocs := s.mem.allocs + 1 } s.mem.nextAddr
          ⟨some s.mem.nextAddr, some s.mem.nextBlock⟩).events = _
        rw [installWeak_events _ _ _ hsl1]
      · show findK (SharedPtr.InternalSetWeakThis { s.mem with
            nextBlock := s.mem.nextBlock + 1,
            nextAddr := s.mem.nextAddr + 1,
            blocks := (s.mem.nextBlock, ⟨1, some s.mem.nextAddr, true⟩) :: s.mem.blocks,
            events := s.mem.events ++ [Event.allocBlock s.mem.nextBlock,
              Event.construct s.mem.nextAddr args],
            allocs := s.mem.allocs + 1 } s.mem.nextAddr
          ⟨some s.mem.nextAddr, some s.mem.nextBlock⟩).slots a0 = some wh
        rw [installWeak_slots _ _ _ hsl1]
        show findK ((s.mem.nextAddr,
          (⟨some s.mem.nextAddr, some s.mem.nextBlock⟩ : Handle)) :: s.mem.slots) a0 = some wh
        exact slot_cons_fresh_preserved s hw s.mem.nextAddr (by omega) _ a0 wh hq
  | resetNull i =>
    simp only [step]
    cases hg : getH s.handles i with
    | none => exact ⟨⟨[], by simp⟩, fun a0 wh hq => hq⟩
    | some hi =>
      change (∃ es, (SharedPtr.ResetPtr s.mem hi false none).1.events = s.mem.events ++ es) ∧
        (∀ a0 wh, findK s.mem.slots a0 = some wh →
          findK (SharedPtr.ResetPtr s.mem hi false none).1.slots a0 = some wh)
      by_cases hptr : hi.ptr = (none : Ptr)
      · have hr : SharedPtr.ResetPtr s.mem hi false none = (s.mem, hi) := by
          unfold SharedPtr.ResetPtr
          rw [if_pos hptr]
        rw [hr]
        exact ⟨⟨[], by simp⟩, fun a0 wh hq => hq⟩
      · have hr : SharedPtr.ResetPtr s.mem hi false none =
            ({ (s.mem.resetB hi.block) with
              nextBlock := (s.mem.resetB hi.block).nextBlock + 1,
              blocks := ((s.mem.resetB hi.block).nextBlock, ⟨1, none, false⟩)
                :: (s.mem.resetB hi.block).blocks,
              events := (s.mem.resetB hi.block).events
                ++ [Event.allocBlock (s.mem.resetB hi.block).nextBlock],
              allocs := (s.mem.resetB hi.block).allocs + 1 },
            ⟨none, some (s.mem.resetB hi.block).nextBlock⟩) := by
          unfold SharedPtr.ResetPtr
          rw [if_neg hptr]
          rfl
        rw [hr]
        obtain ⟨_, hslots1, _, _, _⟩ := wf_release s hw i hi hg
        obtain ⟨es, hes⟩ := resetB_events_mono s.mem hi.block
        refine ⟨⟨es ++ [Event.allocBlock (s.mem.resetB hi.block).nextBlock], ?_⟩,
          fun a0 wh hq => ?_⟩
        · show (s.mem.resetB hi.block).events
            ++ [Event.allocBlock (s.mem.resetB hi.block).nextBlock] = _
          rw [hes, List.append_assoc]
        · show findK (s.mem.resetB hi.block).slots a0 = some wh
          rw [hslots1]
          exact hq
  | resetFresh i esft =>
    simp only [step]
    cases hg : getH s.handles i with
    | none => exact ⟨⟨[], by simp⟩, fun a0 wh hq => hq⟩
    | some hi =>
      change (∃ es, (SharedPtr.ResetPtr { s.mem with nextAddr := s.mem.nextAddr + 1 } hi esft
          (some s.mem.nextAddr)).1.events = s.mem.events ++ es) ∧
        (∀ a0 wh, findK s.mem.slots a0 = some wh →
          findK (SharedPtr.ResetPtr { s.mem with nextAddr := s.mem.nextAddr + 1 } hi esft
            (some s.mem.nextAddr)).1.slots a0 = some wh)
      have hw0 : WF ⟨{ s.mem with nextAddr := s.mem.nextAddr + 1 }, s.handles⟩ :=
        wf_bumpAddr s hw (s.mem.nextAddr + 1) (by omega)
      by_cases hptr : hi.ptr = (some s.mem.nextAddr : Ptr)
      · have hr : SharedPtr.ResetPtr { s.mem with nextAddr := s.mem.nextAddr + 1 } hi esft
            (some s.mem.nextAddr) = ({ s.mem with nextAddr := s.mem.nextAddr + 1 }, hi) := by
          unfold SharedPtr.ResetPtr
          rw [if_pos hptr]
        rw [hr]
        exact ⟨⟨[], by simp⟩, fun a0 wh hq => hq⟩
      · obtain ⟨_, hslots1, _, _, _⟩ :=
          wf_release ⟨{ s.mem with nextAddr := s.mem.nextAddr + 1 }, s.handles⟩ hw0 i hi hg
        obtain ⟨es, hes⟩ := resetB_events_mono { s.mem with nextAddr := s.mem.nextAddr + 1 }
          hi.block
        have hslots2 : (Mem.resetB { s.mem with nextAddr := s.mem.nextAddr + 1 }
            hi.block).slots = s.mem.slots := hslots1
        have hes2 : (Mem.resetB { s.mem with nextAddr := s.mem.nextAddr + 1 }
            hi.block).events = s.mem.events ++ es := hes
        have hslfresh : findK (Mem.resetB { s.mem with nextAddr := s.mem.nextAddr + 1 }
            hi.block).slots s.mem.nextAddr = none := by
          rw [hslots2]
          exact slot_none_of_fresh s hw s.mem.nextAddr (by omega)
        have hslfresh2 : findK ({ (Mem.resetB { s.mem with nextAddr := s.mem.nextAddr + 1 }
              hi.block) with
            nextBlock := (Mem.resetB { s.mem with nextAddr := s.mem.nextAddr + 1 }
              hi.block).nextBlock + 1,
            blocks := ((Mem.resetB { s.mem with nextAddr := s.mem.nextAddr + 1 }
                hi.block).nextBlock, ⟨1, some s.mem.nextAddr, false⟩)
              :: (Mem.resetB { s.mem with nextAddr := s.mem.nextAddr + 1 } hi.block).blocks,
            events := (Mem.resetB { s.mem with nextAddr := s.mem.nextAddr + 1 }
                hi.block).events
              ++ [Event.allocBlock (Mem.resetB { s.mem with
                nextAddr := s.mem.nextAddr + 1 } hi.block).nextBlock],
            allocs := (Mem.resetB { s.mem with nextAddr := s.mem.nextAddr + 1 }
              hi.block).allocs + 1 } : Mem).slots s.mem.nextAddr = none := hslfresh
        cases esft with
        | false =>
          have hr : SharedPtr.ResetPtr { s.mem with nextAddr := s.mem.nextAddr + 1 } hi false
              (some s.mem.nextAddr) =
              ({ (Mem.resetB { s.mem with nextAddr := s.mem.nextAddr + 1 } hi.block) with
                nextBlock := (Mem.resetB { s.mem with nextAddr := s.mem.nextAddr + 1 }
                  hi.block).nextBlock + 1,
                blocks := ((Mem.resetB { s.mem with nextAddr := s.mem.nextAddr + 1 }
                    hi.block).nextBlock, ⟨1, some s.mem.nextAddr, false⟩)
                  :: (Mem.resetB { s.mem with nextAddr := s.mem.nextAddr + 1 } hi.block).blocks,
                events := (Mem.resetB { s.mem with nextAddr := s.mem.nextAddr + 1 }
                    hi.block).events
                  ++ [Event.allocBlock (Mem.resetB { s.mem with
                    nextAddr := s.mem.nextAddr + 1 } hi.block).nextBlock],
                allocs := (Mem.resetB { s.mem with nextAddr := s.mem.nextAddr + 1 }
                  hi.block).allocs + 1 },
              ⟨some s.mem.nextAddr, some (Mem.resetB { s.mem with
                nextAddr := s.mem.nextAddr + 1 } hi.block).nextBlock⟩) := by
            unfold SharedPtr.ResetPtr
            rw [if_neg hptr]
            rfl
          rw [hr]
          refine ⟨⟨es ++ [Event.allocBlock (Mem.resetB { s.mem with
            nextAddr := s.mem.nextAddr + 1 } hi.block).nextBlock], ?_⟩, fun a0 wh hq => ?_⟩
          · show (Mem.resetB { s.mem with nextAddr := s.mem.nextAddr + 1 } hi.block).events
              ++ _ = _
            rw [hes2, List.append_assoc]
          · show findK (Mem.resetB { s.mem with nextAddr := s.mem.nextAddr + 1 }
              hi.block).slots a0 = some wh
            rw [hslots2]
            exact hq
        | true =>
          have hr : SharedPtr.ResetPtr { s.mem with nextAddr := s.mem.nextAddr + 1 } hi true
              (some s.mem.nextAddr) =
              (SharedPtr.InternalSetWeakThis
                { (Mem.resetB { s.mem with nextAddr := s.mem.nextAddr + 1 } hi.block) with
                  nextBlock := (Mem.resetB { s.mem with nextAddr := s.mem.nextAddr + 1 }
                    hi.block).nextBlock + 1,
                  blocks := ((Mem.resetB { s.mem with nextAddr := s.mem.nextAddr + 1 }
                      hi.block).nextBlock, ⟨1, some s.mem.nextAddr, false⟩)
                    :: (Mem.resetB { s.mem with nextAddr := s.mem.nextAddr + 1 }
                      hi.block).blocks,
                  events := (Mem.resetB { s.mem with nextAddr := s.mem.nextAddr + 1 }
                      hi.block).events
                    ++ [Event.allocBlock (Mem.resetB { s.mem with
                      nextAddr := s.mem.nextAddr + 1 } hi.block).nextBlock],
                  allocs := (Mem.resetB { s.mem with nextAddr := s.mem.nextAddr + 1 }
                    hi.block).allocs + 1 }
                s.mem.nextAddr
                ⟨some s.mem.nextAddr, some (Mem.resetB { s.mem with
                  nextAddr := s.mem.nextAddr + 1 } hi.block).nextBlock⟩,
              ⟨some s.mem.nextAddr, some (Mem.resetB { s.mem with
                nextAddr := s.mem.nextAddr + 1 } hi.block).nextBlock⟩) := by
            unfold SharedPtr.ResetPtr
            rw [if_neg hptr]
            rfl
          rw [hr]
          refine ⟨⟨es ++ [Event.allocBlock (Mem.resetB { s.mem with
            nextAddr := s.mem.nextAddr + 1 } hi.block).nextBlock], ?_⟩, fun a0 wh hq => ?_⟩
          · rw [installWeak_events _ _ _ hslfresh2]
            show (Mem.resetB { s.mem with nextAddr := s.mem.nextAddr + 1 } hi.block).events
              ++ _ = _
            rw [hes2, List.append_assoc]
          · rw [installWeak_slots _ _ _ hslfresh2]
            show findK ((s.mem.nextAddr,
              (⟨some s.mem.nextAddr, some (Mem.resetB { s.mem with
                nextAddr := s.mem.nextAddr + 1 } hi.block).nextBlock⟩ : Handle))
              :: (Mem.resetB { s.mem with nextAddr := s.mem.nextAddr + 1 } hi.block).slots)
              a0 = some wh
            rw [hslots2]
            have ha0 := hw.slotFresh a0 (mem_keysOf_of_findK _ _ _ hq)
            rw [findK, if_neg (by omega)]
            exact hq

theorem runFrom_countFree_mono (s : Sys) (hw : WF s) (ops : List Op) (b : Nat) :
    countFree s.mem.events b ≤ countFree (runFrom s ops).mem.events b := by
  induction ops generalizing s with
  | nil => exact le_refl _
  | cons op t ih =>
    obtain ⟨⟨es, hes⟩, _⟩ := step_frame s hw op
    have h1 : countFree s.mem.events b ≤ countFree (step s op).mem.events b := by
      rw [hes, countFree_append]
      omega
    exact le_trans h1 (ih (step s op) (wf_step s hw op))

theorem runFrom_countDObj_mono (s : Sys) (hw : WF s) (ops : List Op) (b : Nat) :
    countDObj s.mem.events b ≤ countDObj (runFrom s ops).mem.events b := by
  induction ops generalizing s with
  | nil => exact le_refl _
  | cons op t ih =>
    obtain ⟨⟨es, hes⟩, _⟩ := step_frame s hw op
    have h1 : countDObj s.mem.events b ≤ countDObj (step s op).mem.events b := by
      rw [hes, countDObj_append]
      omega
    exact le_trans h1 (ih (step s op) (wf_step s hw op))

theorem runFrom_slot (s : Sys) (hw : WF s) (ops : List Op) (a : Nat) (wh : Handle)
    (hq : findK s.mem.slots a = some wh) :
    findK (runFrom s ops).mem.slots a = some wh := by
  induction ops generalizing s with
  | nil => exact hq
  | cons op t ih =>
    obtain ⟨_, hslot⟩ := step_frame s hw op
    exact ih (step s op) (wf_step s hw op) (hslot a wh hq)

theorem countB_two (hs : List Handle) (i j : Nat) (hi hj : Handle) (b : Nat)
    (hij : i ≠ j) (hgi : getH hs i = some hi) (hgj : getH hs j = some hj)
    (hbi : hi.block = some b) (hbj : hj.block = some b) : 2 ≤ countB hs b := by
  induction hs generalizing i j with
  | nil => simp [getH] at hgi
  | cons h t ih =>
    cases i with
    | zero =>
      cases j with
      | zero => exact absurd rfl hij
      | succ m =>
        simp only [getH] at hgi hgj
        have hh : h = hi := by injection hgi
        subst hh
        rw [countB_cons]
        have h1 : 1 ≤ countB t b := countB_pos_of_mem t hj b (getH_mem t m hj hgj) hbj
        have h2 : indB h b = 1 := by rw [indB, if_pos hbi]
        omega
    | succ n =>
      cases j with
      | zero =>
        simp only [getH] at hgi hgj
        have hh : h = hj := by injection hgj
        subst hh
        rw [countB_cons]
        have h1 : 1 ≤ countB t b := countB_pos_of_mem t hi b (getH_mem t n hi hgi) hbi
        have h2 : indB h b = 1 := by rw [indB, if_pos hbj]
        omega
      | succ m =>
        simp only [getH] at hgi hgj
        rw [countB_cons]
        have := ih n m (fun he => hij (by rw [he])) hgi hgj
        omega

theorem mapK_congr_id {α : Type} (l : List (Nat × α)) (b : Nat) (f : α → α)
    (h : ∀ v, (b, v) ∈ l → f v = v) : mapK b f l = l := by
  induction l with
  | nil => rfl
  | cons p t ih =>
    obtain ⟨k0, v0⟩ := p
    by_cases hk : k0 = b
    · subst hk
      rw [mapK, if_pos rfl, h v0 (List.mem_cons_self _ _),
        ih (fun v hv => h v (List.mem_cons_of_mem _ hv))]
    · rw [mapK, if_neg hk, ih (fun v hv => h v (List.mem_cons_of_mem _ hv))]

theorem mapK_mapK {α : Type} (l : List (Nat × α)) (b : Nat) (f g : α → α) :
    mapK b f (mapK b g l) = mapK b (fun v => f (g v)) l := by
  induction l with
  | nil => rfl
  | cons p t ih =>
    obtain ⟨k0, v0⟩ := p
    by_cases hk : k0 = b
    · subst hk
      rw [mapK, if_pos rfl, mapK, if_pos rfl, mapK, if_pos rfl, ih]
    · rw [mapK, if_neg hk, mapK, if_neg hk, mapK, if_neg hk, ih]

/-! ### The claims -/

/-- Claim C10: for every pair of handles (of any declared pointee types — the
model erases the types, and the source compares the converted raw pointers),
`operator==` returns true iff the view pointers (`Get()`) compare equal,
independently of the handles' control blocks: replacing either operand's
block by any other block does not change the comparison. -/
theorem C10_eq_compares_views (l r : Handle) :
    (SharedPtr.eqOp l r = true ↔ SharedPtr.Get l = SharedPtr.Get r) ∧
    (∀ bl br bl' br' : Option Nat,
      SharedPtr.eqOp ⟨l.ptr, bl⟩ ⟨r.ptr, br⟩ = SharedPtr.eqOp ⟨l.ptr, bl'⟩ ⟨r.ptr, br'⟩) := by
  constructor
  · unfold SharedPtr.eqOp SharedPtr.Get
    exact beq_iff_eq
  · intro bl br bl' br'
    rfl

/-- Claim C1: after every sequence of empty/wrap/combined/copy/converting/
aliasing constructions, moves, assignments, resets and destructions starting
from the initial state, `UseCount()` observed through any live handle holding
a control block equals the number of handles in the store holding that block
plus the number of installed self-reference back-links holding it (moved-from
handles are empty and hence not counted). -/
theorem C1_useCount_eq_live_refs (ops : List Op) (i : Nat) (h : Handle) (b : Nat)
    (hg : getH (run ops).handles i = some h) (hb : h.block = some b) :
    SharedPtr.UseCount (run ops).mem h
      = countB (run ops).handles b + countS (run ops).mem.slots b := by
  have hw := wf_run ops
  obtain ⟨blk, hf⟩ := hw.handleLive h (getH_mem _ _ _ hg) b hb
  have h1 := hw.cntRefs b blk hf
  have h2 : SharedPtr.UseCount (run ops).mem h = blk.cnt := by
    unfold SharedPtr.UseCount
    rw [hb]
    simp only [hf]
  rw [h2, h1]
  rfl

theorem C1_useCount_eq_live_refs_witness :
    (getH (run [Op.mkShared false [], Op.copy 0]).handles 1 = some ⟨some 0, some 0⟩) ∧
    ((⟨some 0, some 0⟩ : Handle).block = some 0) ∧
    SharedPtr.UseCount (run [Op.mkShared false [], Op.copy 0]).mem ⟨some 0, some 0⟩
      = countB (run [Op.mkShared false [], Op.copy 0]).handles 0
        + countS (run [Op.mkShared false [], Op.copy 0]).mem.slots 0 :=
  ⟨by decide, by decide,
    C1_useCount_eq_live_refs [Op.mkShared false [], Op.copy 0] 1 ⟨some 0, some 0⟩ 0
      (by decide) (by decide)⟩

theorem step_reset_eq (s : Sys) (i : Nat) (hi : Handle)
    (hg : getH s.handles i = some hi) :
    step s (Op.reset i) = ⟨s.mem.resetB hi.block, setH s.handles i Handle.empty⟩ := by
  simp only [step, hg]
  rfl

theorem step_destruct_eq (s : Sys) (i : Nat) (hi : Handle)
    (hg : getH s.handles i = some hi) :
    step s (Op.destruct i) = ⟨s.mem.resetB hi.block, setH s.handles i Handle.empty⟩ := by
  simp only [step, hg]
  rfl

/-- Claim C2: in every operation sequence, resetting (or destroying — the
destructor calls `Reset()`) the last live handle of an ownership group
destroys the pointee exactly once and deallocates the control block exactly
once: before the release neither event has happened; the release emits each
exactly once and removes the block; and no later operation on any handle ever
adds a second destruction or deallocation of that block. -/
theorem C2_last_release_frees_once (ops : List Op) (i : Nat) (hi : Handle) (b : Nat)
    (blk : BaseBlock) (a : Nat)
    (hg : getH (run ops).handles i = some hi) (hb : hi.block = some b)
    (hf : findK (run ops).mem.blocks b = some blk) (ho : blk.obj = some a)
    (hlast : countB (run ops).handles b + countS (run ops).mem.slots b = 1) :
    countFree (run ops).mem.events b = 0 ∧
    countDObj (run ops).mem.events b = 0 ∧
    countFree (step (run ops) (Op.reset i)).mem.events b = 1 ∧
    countDObj (step (run ops) (Op.reset i)).mem.events b = 1 ∧
    findK (step (run ops) (Op.reset i)).mem.blocks b = none ∧
    (∀ more, countFree (runFrom (step (run ops) (Op.reset i)) more).mem.events b = 1 ∧
      countDObj (runFrom (step (run ops) (Op.reset i)) more).mem.events b = 1) := by
  have hw := wf_run ops
  have hcnt : blk.cnt = 1 := by
    have h1 := hw.cntRefs b blk hf
    simp only [refs] at h1
    omega
  have hc0 : blk.cnt - 1 = 0 := by omega
  have hsl : findK (run ops).mem.slots a = none := by
    cases hq : findK (run ops).mem.slots a with
    | none => rfl
    | some wh =>
      obtain ⟨b2, blk2, hwb, hf2, ho2⟩ := hw.slotLive a wh hq
      have hbeq : b2 = b := hw.objUnique b2 b blk2 blk a hf2 hf ho2 ho
      subst hbeq
      have hcs : 1 ≤ countS (run ops).mem.slots b2 := countS_pos_of_findK _ _ _ _ hq hwb
      have hpos : 1 ≤ countB (run ops).handles b2 :=
        countB_pos_of_mem _ _ _ (getH_mem _ _ _ hg) hb
      omega
  obtain ⟨hlf, hld⟩ := hw.liveNotFreed b blk hf
  have hstep := step_reset_eq (run ops) i hi hg
  have hmem : (step (run ops) (Op.reset i)).mem = (run ops).mem.resetB hi.block := by
    rw [hstep]
  rw [hmem, hb, resetB_destroy_objSome (run ops).mem b blk a hf hc0 ho hsl]
  have hes : countFree [Event.destroyObj b a, Event.freeBlock b] b = 1 := by
    simp [countFree]
  have hed : countDObj [Event.destroyObj b a, Event.freeBlock b] b = 1 := by
    simp [countDObj]
  refine ⟨hlf, hld, ?_, ?_, ?_, ?_⟩
  · show countFree ((run ops).mem.events ++ [Event.destroyObj b a, Event.freeBlock b]) b = 1
    rw [countFree_append, hlf, hes]
  · show countDObj ((run ops).mem.events ++ [Event.destroyObj b a, Event.freeBlock b]) b = 1
    rw [countDObj_append, hld, hed]
  · show findK (eraseK (run ops).mem.blocks b) b = none
    exact findK_eraseK_self _ _
  · intro more
    have hw1 : WF (step (run ops) (Op.reset i)) := wf_step (run ops) hw (Op.reset i)
    have hw2 : WF (runFrom (step (run ops) (Op.reset i)) more) :=
      wf_runFrom _ hw1 more
    have hmf := runFrom_countFree_mono (step (run ops) (Op.reset i)) hw1 more b
    have hmd := runFrom_countDObj_mono (step (run ops) (Op.reset i)) hw1 more b
    have h1 : countFree (step (run ops) (Op.reset i)).mem.events b = 1 := by
      rw [hmem, hb, resetB_destroy_objSome (run ops).mem b blk a hf hc0 ho hsl]
      show countFree ((run ops).mem.events ++ [Event.destroyObj b a, Event.freeBlock b]) b = 1
      rw [countFree_append, hlf, hes]
    have h2 : countDObj (step (run ops) (Op.reset i)).mem.events b = 1 := by
      rw [hmem, hb, resetB_destroy_objSome (run ops).mem b blk a hf hc0 ho hsl]
      show countDObj ((run ops).mem.events ++ [Event.destroyObj b a, Event.freeBlock b]) b = 1
      rw [countDObj_append, hld, hed]
    obtain ⟨ho1, ho2⟩ := hw2.freedOnce b
    rw [h1] at hmf
    rw [h2] at hmd
    omega

theorem C2_last_release_frees_once_witness :
    (getH (run [Op.wrapFresh false]).handles 0 = some ⟨some 0, some 0⟩) ∧
    ((⟨some 0, some 0⟩ : Handle).block = some 0) ∧
    (findK (run [Op.wrapFresh false]).mem.blocks 0 = some ⟨1, some 0, false⟩) ∧
    ((⟨1, some 0, false⟩ : BaseBlock).obj = some 0) ∧
    (countB (run [Op.wrapFresh false]).handles 0
      + countS (run [Op.wrapFresh false]).mem.slots 0 = 1) ∧
    (countFree (run [Op.wrapFresh false]).mem.events 0 = 0 ∧
     countDObj (run [Op.wrapFresh false]).mem.events 0 = 0 ∧
     countFree (step (run [Op.wrapFresh false]) (Op.reset 0)).mem.events 0 = 1 ∧
     countDObj (step (run [Op.wrapFresh false]) (Op.reset 0)).mem.events 0 = 1 ∧
     findK (step (run [Op.wrapFresh false]) (Op.reset 0)).mem.blocks 0 = none ∧
     (∀ more, countFree (runFrom (step (run [Op.wrapFresh false]) (Op.reset 0))
        more).mem.events 0 = 1 ∧
      countDObj (runFrom (step (run [Op.wrapFresh false]) (Op.reset 0))
        more).mem.events 0 = 1)) :=
  ⟨by decide, by decide, by decide, by decide, by decide,
    C2_last_release_frees_once [Op.wrapFresh false] 0 ⟨some 0, some 0⟩ 0 ⟨1, some 0, false⟩ 0
      (by decide) (by decide) (by decide) (by decide) (by decide)⟩

/-- Claim C8: once a back-link has been installed for an object (the stored
back-link is a full owning handle), the block it references stays live with
count at least 1 under every continuation of handle operations — the pointee
is never destroyed and the block never deallocated (the reference cycle leaks
the object). -/
theorem C8_selfref_keeps_alive (ops : List Op) (a : Nat) (wh : Handle) (b : Nat)
    (hq : findK (run ops).mem.slots a = some wh) (hb : wh.block = some b) :
    ∀ more,
      (∃ blk, findK (runFrom (run ops) more).mem.blocks b = some blk ∧ 1 ≤ blk.cnt) ∧
      countFree (runFrom (run ops) more).mem.events b = 0 ∧
      countDObj (runFrom (run ops) more).mem.events b = 0 := by
  intro more
  have hw := wf_run ops
  have hw2 : WF (runFrom (run ops) more) := wf_runFrom _ hw more
  have hq2 : findK (runFrom (run ops) more).mem.slots a = some wh :=
    runFrom_slot (run ops) hw more a wh hq
  obtain ⟨b2, blk2, hwb, hf2, _⟩ := hw2.slotLive a wh hq2
  rw [hb] at hwb
  have hbeq : b = b2 := Option.some.inj hwb
  subst hbeq
  have h1 := hw2.cntRefs b blk2 hf2
  have hcs : 1 ≤ countS (runFrom (run ops) more).mem.slots b :=
    countS_pos_of_findK _ _ _ _ hq2 hb
  simp only [refs] at h1
  refine ⟨⟨blk2, hf2, by omega⟩, ?_⟩
  exact hw2.liveNotFreed b blk2 hf2

theorem C8_selfref_keeps_alive_witness :
    (findK (run [Op.wrapFresh true]).mem.slots 0 = some ⟨some 0, some 0⟩) ∧
    ((⟨some 0, some 0⟩ : Handle).block = some 0) ∧
    (∀ more,
      (∃ blk, findK (runFrom (run [Op.wrapFresh true]) more).mem.blocks 0 = some blk
        ∧ 1 ≤ blk.cnt) ∧
      countFree (runFrom (run [Op.wrapFresh true]) more).mem.events 0 = 0 ∧
      countDObj (runFrom (run [Op.wrapFresh true]) more).mem.events 0 = 0) :=
  ⟨by decide, by decide,
    C8_selfref_keeps_alive [Op.wrapFresh true] 0 ⟨some 0, some 0⟩ 0 (by decide) (by decide)⟩

theorem UseCount_eq (m : Mem) (p : Ptr) (b : Nat) (blk : BaseBlock)
    (hf : findK m.blocks b = some blk) :
    SharedPtr.UseCount m ⟨p, some b⟩ = blk.cnt := by
  unfold SharedPtr.UseCount
  simp only [hf]

/-- Claim C3 counterexample: for a value type adopting the Self-Reference
Capability, `MakeShared` returns a handle whose `UseCount()` is 2, not 1 —
the installed back-link is a full owning handle and is counted. -/
theorem C3_counterexample :
    SharedPtr.UseCount (MakeShared Mem.init true [5, 7]).1
      (MakeShared Mem.init true [5, 7]).2 = 2 ∧
    ¬ SharedPtr.UseCount (MakeShared Mem.init true [5, 7]).1
      (MakeShared Mem.init true [5, 7]).2 = 1 := by
  decide

/-- Claim C3 as amended: `MakeShared` performs exactly one allocation,
constructs the value in place exactly once with the forwarded arguments,
and returns a handle whose view is the in-place storage and whose block is
the newly allocated combined block; its `UseCount()` is 1 for a plain value
type, and 2 when the value type adopts the Self-Reference Capability
(the constructor installs the owning back-link). -/
theorem C3_makeShared_spec (m : Mem) (esft : Bool) (args : List Nat)
    (hs : findK m.slots m.nextAddr = none) :
    (MakeShared m esft args).1.allocs = m.allocs + 1 ∧
    (MakeShared m esft args).1.events
      = m.events ++ [Event.allocBlock m.nextBlock, Event.construct m.nextAddr args] ∧
    (MakeShared m esft args).2.ptr = some m.nextAddr ∧
    (MakeShared m esft args).2.block = some m.nextBlock ∧
    (∃ blk, findK (MakeShared m esft args).1.blocks m.nextBlock = some blk ∧
      blk.obj = some m.nextAddr ∧ blk.combined = true) ∧
    SharedPtr.UseCount (MakeShared m esft args).1 (MakeShared m esft args).2
      = (if esft then 2 else 1) := by
  have hf1 : findK ({ m with
      nextBlock := m.nextBlock + 1,
      nextAddr := m.nextAddr + 1,
      blocks := (m.nextBlock, ⟨1, some m.nextAddr, true⟩) :: m.blocks,
      events := m.events ++ [Event.allocBlock m.nextBlock,
        Event.construct m.nextAddr args],
      allocs := m.allocs + 1 } : Mem).blocks m.nextBlock
      = some ⟨1, some m.nextAddr, true⟩ := by
    show (if m.nextBlock = m.nextBlock then _ else _) = _
    rw [if_pos rfl]
  cases esft with
  | false =>
    refine ⟨rfl, rfl, rfl, rfl, ⟨⟨1, some m.nextAddr, true⟩, hf1, rfl, rfl⟩, ?_⟩
    exact UseCount_eq _ _ _ _ hf1
  | true =>
    have hsl1 : findK ({ m with
        nextBlock := m.nextBlock + 1,
        nextAddr := m.nextAddr + 1,
        blocks := (m.nextBlock, ⟨1, some m.nextAddr, true⟩) :: m.blocks,
        events := m.events ++ [Event.allocBlock m.nextBlock,
          Event.construct m.nextAddr args],
        allocs := m.allocs + 1 } : Mem).slots m.nextAddr = none := hs
    have hmk : MakeShared m true args =
        ({ incr { m with
            nextBlock := m.nextBlock + 1,
            nextAddr := m.nextAddr + 1,
            blocks := (m.nextBlock, ⟨1, some m.nextAddr, true⟩) :: m.blocks,
            events := m.events ++ [Event.allocBlock m.nextBlock,
              Event.construct m.nextAddr args],
            allocs := m.allocs + 1 } (some m.nextBlock) with
          slots := (m.nextAddr, (⟨some m.nextAddr, some m.nextBlock⟩ : Handle))
            :: m.slots },
        ⟨some m.nextAddr, some m.nextBlock⟩) := by
      show (SharedPtr.InternalSetWeakThis _ m.nextAddr
        ⟨some m.nextAddr, some m.nextBlock⟩, _) = _
      rw [installWeak_eq _ _ _ hsl1]
    rw [hmk]
    have hf2 : findK ({ incr { m with
        nextBlock := m.nextBlock + 1,
        nextAddr := m.nextAddr + 1,
        blocks := (m.nextBlock, ⟨1, some m.nextAddr, true⟩) :: m.blocks,
        events := m.events ++ [Event.allocBlock m.nextBlock,
          Event.construct m.nextAddr args],
        allocs := m.allocs + 1 } (some m.nextBlock) with
      slots := (m.nextAddr, (⟨some m.nextAddr, some m.nextBlock⟩ : Handle))
        :: m.slots } : Mem).blocks m.nextBlock = some ⟨2, some m.nextAddr, true⟩ :=
      findK_incr_self _ m.nextBlock ⟨1, some m.nextAddr, true⟩ hf1
    refine ⟨rfl, rfl, rfl, rfl, ⟨⟨2, some m.nextAddr, true⟩, hf2, rfl, rfl⟩, ?_⟩
    exact UseCount_eq _ _ _ _ hf2

theorem C3_makeShared_spec_witness :
    (findK Mem.init.slots Mem.init.nextAddr = none) ∧
    ((MakeShared Mem.init true [5, 7]).1.allocs = Mem.init.allocs + 1 ∧
     (MakeShared Mem.init true [5, 7]).1.events
       = Mem.init.events ++ [Event.allocBlock Mem.init.nextBlock,
          Event.construct Mem.init.nextAddr [5, 7]] ∧
     (MakeShared Mem.init true [5, 7]).2.ptr = some Mem.init.nextAddr ∧
     (MakeShared Mem.init true [5, 7]).2.block = some Mem.init.nextBlock ∧
     (∃ blk, findK (MakeShared Mem.init true [5, 7]).1.blocks Mem.init.nextBlock
        = some blk ∧ blk.obj = some Mem.init.nextAddr ∧ blk.combined = true) ∧
     SharedPtr.UseCount (MakeShared Mem.init true [5, 7]).1
       (MakeShared Mem.init true [5, 7]).2 = (if true then 2 else 1)) :=
  ⟨by decide, C3_makeShared_spec Mem.init true [5, 7] (by decide)⟩

theorem MakeESFT_none (m : Mem) (esft : Bool) (self : Handle) :
    SharedPtr.MakeEnableSharedFromThis m esft none self = m := by
  cases esft <;> rfl

/-- Claim C4 counterexample: `Reset` with a null pointer on a handle whose
view is non-null does not leave the handle empty — it allocates a control
block owning the null pointer, so the handle's block is non-null and
`UseCount()` is 1, not 0. -/
theorem C4_counterexample :
    getH (run [Op.wrapFresh false, Op.resetNull 0]).handles 0 = some ⟨none, some 1⟩ ∧
    ¬ (⟨none, some 1⟩ : Handle).block = none ∧
    SharedPtr.UseCount (run [Op.wrapFresh false, Op.resetNull 0]).mem ⟨none, some 1⟩ = 1 ∧
    ¬ SharedPtr.UseCount (run [Op.wrapFresh false, Op.resetNull 0]).mem
      ⟨none, some 1⟩ = 0 := by
  decide

/-- Claim C4 as amended: `Reset(p)` with `p` identical to the current view is
a no-op; with a non-null `p` different from the current view it is exactly
`Reset()` followed by the wrapping constructor on `p`; but with a null `p`
(and a non-null current view) it is not equivalent to wrapping — it
unconditionally allocates a fresh control block owning the null pointer, so
the resulting handle has a null view yet a live block with `UseCount() = 1`,
not the empty handle with `UseCount() = 0`. -/
theorem C4_resetPtr_spec (m : Mem) (h : Handle) (esft : Bool) :
    (∀ p, h.ptr = p → SharedPtr.ResetPtr m h esft p = (m, h)) ∧
    (∀ x, ¬ h.ptr = some x → SharedPtr.ResetPtr m h esft (some x)
      = SharedPtr.ctorPtr (SharedPtr.Reset m h).1 esft (some x)) ∧
    (∀ a, h.ptr = some a →
      (SharedPtr.ResetPtr m h esft none).2.ptr = none ∧
      (SharedPtr.ResetPtr m h esft none).2.block
        = some (m.resetB h.block).nextBlock ∧
      SharedPtr.UseCount (SharedPtr.ResetPtr m h esft none).1
        (SharedPtr.ResetPtr m h esft none).2 = 1) := by
  refine ⟨?_, ?_, ?_⟩
  · intro p hp
    unfold SharedPtr.ResetPtr
    rw [if_pos hp]
  · intro x hx
    unfold SharedPtr.ResetPtr SharedPtr.Reset SharedPtr.ctorPtr
    rw [if_neg hx]
  · intro a ha
    have hne : ¬ h.ptr = (none : Ptr) := by
      rw [ha]
      simp
    have hr : SharedPtr.ResetPtr m h esft none =
        (SharedPtr.MakeEnableSharedFromThis { (m.resetB h.block) with
          nextBlock := (m.resetB h.block).nextBlock + 1,
          blocks := ((m.resetB h.block).nextBlock, ⟨1, none, false⟩)
            :: (m.resetB h.block).blocks,
          events := (m.resetB h.block).events
            ++ [Event.allocBlock (m.resetB h.block).nextBlock],
          allocs := (m.resetB h.block).allocs + 1 } esft none
          ⟨none, some (m.resetB h.block).nextBlock⟩,
        ⟨none, some (m.resetB h.block).nextBlock⟩) := by
      unfold SharedPtr.ResetPtr
      rw [if_neg hne]
    rw [hr, MakeESFT_none]
    refine ⟨rfl, rfl, ?_⟩
    have hf1 : findK ({ (m.resetB h.block) with
        nextBlock := (m.resetB h.block).nextBlock + 1,
        blocks := ((m.resetB h.block).nextBlock, ⟨1, none, false⟩)
          :: (m.resetB h.block).blocks,
        events := (m.resetB h.block).events
          ++ [Event.allocBlock (m.resetB h.block).nextBlock],
        allocs := (m.resetB h.block).allocs + 1 } : Mem).blocks
        (m.resetB h.block).nextBlock = some ⟨1, none, false⟩ := by
      show (if (m.resetB h.block).nextBlock = (m.resetB h.block).nextBlock then _ else _) = _
      rw [if_pos rfl]
    exact UseCount_eq _ _ _ _ hf1

theorem C4_resetPtr_spec_witness :
    ((⟨some 0, some 0⟩ : Handle).ptr = some 0) ∧
    ((SharedPtr.ResetPtr (run [Op.wrapFresh false]).mem ⟨some 0, some 0⟩ false none).2.ptr
      = none ∧
     (SharedPtr.ResetPtr (run [Op.wrapFresh false]).mem ⟨some 0, some 0⟩ false none).2.block
      = some ((run [Op.wrapFresh false]).mem.resetB
          (⟨some 0, some 0⟩ : Handle).block).nextBlock ∧
     SharedPtr.UseCount
       (SharedPtr.ResetPtr (run [Op.wrapFresh false]).mem ⟨some 0, some 0⟩ false none).1
       (SharedPtr.ResetPtr (run [Op.wrapFresh false]).mem ⟨some 0, some 0⟩ false none).2
       = 1) :=
  ⟨rfl, (C4_resetPtr_spec (run [Op.wrapFresh false]).mem ⟨some 0, some 0⟩ false).2.2 0 rfl⟩


theorem UseCount_eq2 (m : Mem) (h : Handle) (b : Nat) (blk : BaseBlock)
    (hb : h.block = some b) (hf : findK m.blocks b = some blk) :
    SharedPtr.UseCount m h = blk.cnt := by
  unfold SharedPtr.UseCount
  rw [hb]
  simp only [hf]

theorem mapK_inc_dec (l : List (Nat × BaseBlock)) (b : Nat) (blk : BaseBlock)
    (hnd : (keysOf l).Nodup) (hf : findK l b = some blk) (hc : 2 ≤ blk.cnt) :
    mapK b (fun v => { v with cnt := v.cnt + 1 })
      (mapK b (fun v => { v with cnt := v.cnt - 1 }) l) = l := by
  induction l with
  | nil => rfl
  | cons p t ih =>
    obtain ⟨k0, v0⟩ := p
    rw [keysOf_cons, List.nodup_cons] at hnd
    by_cases hk : k0 = b
    · subst hk
      rw [findK, if_pos rfl] at hf
      have hv : v0 = blk := by injection hf
      subst hv
      rw [mapK, if_pos rfl, mapK, if_pos rfl]
      have ht : ∀ (f : BaseBlock → BaseBlock), mapK k0 f t = t := by
        intro f
        apply mapK_congr_id
        intro v hv
        exact absurd (List.mem_map.2 ⟨(k0, v), hv, rfl⟩) hnd.1
      rw [ht, ht]
      have hhead : ({ ({ v0 with cnt := v0.cnt - 1 } : BaseBlock) with
          cnt := ({ v0 with cnt := v0.cnt - 1 } : BaseBlock).cnt + 1 } : BaseBlock) = v0 := by
        cases v0 with
        | mk c o cb =>
          simp only at hc
          simp only [BaseBlock.mk.injEq, eq_self_iff_true, and_true, true_and, and_self]
          omega
      rw [hhead]
    · rw [findK, if_neg hk] at hf
      rw [mapK, if_neg hk, mapK, if_neg hk, ih hnd.2 hf]

/-- Claim C6 counterexample: the converting move-assignment between two
distinct handles that already hold the identical (block, view) pair is a
no-op — the source handle is left non-empty with `Get() ≠ null` and
`UseCount() = 2`, contradicting "move assignment leaves the source handle
empty afterward (`Get() == null`, `UseCount() == 0`)". -/
theorem C6_counterexample :
    getH (run [Op.mkShared false [], Op.copy 0, Op.assignMoveConv 0 1]).handles 1
      = some ⟨some 0, some 0⟩ ∧
    ¬ SharedPtr.Get ⟨some 0, some 0⟩ = none ∧
    SharedPtr.UseCount (run [Op.mkShared false [], Op.copy 0, Op.assignMoveConv 0 1]).mem
      ⟨some 0, some 0⟩ = 2 := by
  decide

/-- Claim C6 as amended: move construction takes the source's members, leaves
the source empty and changes no block count; same-type move-assignment between
distinct handles and converting move-assignment with a different (block, view)
pair leave the source empty; and the destination count after a move-assignment
is the count after the corresponding copy-assignment minus the copy's
increment.  The exception forced by the counterexample: converting
move-assignment onto a handle already holding the identical (block, view)
pair is a guarded no-op that does not empty the source. -/
theorem C6_move_spec (ops : List Op) (i j : Nat) (hi hj : Handle)
    (hgi : getH (run ops).handles i = some hi)
    (hgj : getH (run ops).handles j = some hj) :
    ((step (run ops) (Op.move j)).mem = (run ops).mem ∧
      getH (step (run ops) (Op.move j)).handles j = some Handle.empty) ∧
    (i ≠ j → getH (step (run ops) (Op.assignMove i j)).handles j = some Handle.empty) ∧
    (¬(hi.block = hj.block ∧ hi.ptr = hj.ptr) →
      getH (step (run ops) (Op.assignMoveConv i j)).handles j = some Handle.empty) ∧
    (∀ b, i ≠ j → hj.block = some b →
      SharedPtr.UseCount (step (run ops) (Op.assignCopy i j)).mem hj
        = SharedPtr.UseCount (step (run ops) (Op.assignMove i j)).mem hj + 1) := by
  refine ⟨?_, ?_, ?_, ?_⟩
  · have heq : step (run ops) (Op.move j) =
        ⟨(run ops).mem, setH (run ops).handles j Handle.empty ++ [hj]⟩ := by
      simp only [step, hgj]
      rfl
    rw [heq]
    exact ⟨rfl, getH_append_left _ _ j Handle.empty
      (getH_setH_self (run ops).handles j hj Handle.empty hgj)⟩
  · intro hij
    have heq : step (run ops) (Op.assignMove i j) =
        ⟨(run ops).mem.resetB hi.block,
          setH (setH (run ops).handles i ⟨hj.ptr, hj.block⟩) j Handle.empty⟩ := by
      simp only [step, hgi, hgj]
      rw [if_neg hij]
    rw [heq]
    refine getH_setH_self _ j hj Handle.empty ?_
    rw [getH_setH_ne _ _ _ _ (fun he => hij he.symm)]
    exact hgj
  · intro hguard
    have hij : i ≠ j := by
      intro he
      subst he
      rw [hgi] at hgj
      have : hi = hj := by injection hgj
      exact hguard ⟨by rw [this], by rw [this]⟩
    have heq : step (run ops) (Op.assignMoveConv i j) =
        ⟨(run ops).mem.resetB hi.block,
          setH (setH (run ops).handles i ⟨hj.ptr, hj.block⟩) j Handle.empty⟩ := by
      simp only [step, hgi, hgj]
      rw [if_neg hguard]
    rw [heq]
    refine getH_setH_self _ j hj Handle.empty ?_
    rw [getH_setH_ne _ _ _ _ (fun he => hij he.symm)]
    exact hgj
  · intro b hij hbj
    have hw := wf_run ops
    have hceq : step (run ops) (Op.assignCopy i j) =
        ⟨incr ((run ops).mem.resetB hi.block) hj.block,
          setH (run ops).handles i ⟨hj.ptr, hj.block⟩⟩ := by
      simp only [step, hgi, hgj]
      rw [if_neg hij]
    have hmeq : step (run ops) (Op.assignMove i j) =
        ⟨(run ops).mem.resetB hi.block,
          setH (setH (run ops).handles i ⟨hj.ptr, hj.block⟩) j Handle.empty⟩ := by
      simp only [step, hgi, hgj]
      rw [if_neg hij]
    rw [hceq, hmeq]
    dsimp only
    obtain ⟨hr1, _, _, _, _⟩ := wf_release (run ops) hw i hi hgi
    have hgj1 : getH (setH (run ops).handles i Handle.empty) j = some hj := by
      rw [getH_setH_ne _ _ _ _ (fun he => hij he.symm)]
      exact hgj
    obtain ⟨blk1, hfm1⟩ := hr1.handleLive hj (getH_mem _ _ _ hgj1) b hbj
    have hfm1' : findK ((run ops).mem.resetB hi.block).blocks b = some blk1 := hfm1
    rw [hbj]
    rw [UseCount_eq2 _ hj b _ hbj (findK_incr_self _ b blk1 hfm1'),
      UseCount_eq2 _ hj b blk1 hbj hfm1']

theorem C6_move_spec_witness :
    (getH (run [Op.mkShared false [], Op.copy 0]).handles 0 = some ⟨some 0, some 0⟩) ∧
    (getH (run [Op.mkShared false [], Op.copy 0]).handles 1 = some ⟨some 0, some 0⟩) ∧
    (((step (run [Op.mkShared false [], Op.copy 0]) (Op.move 1)).mem
        = (run [Op.mkShared false [], Op.copy 0]).mem ∧
      getH (step (run [Op.mkShared false [], Op.copy 0]) (Op.move 1)).handles 1
        = some Handle.empty) ∧
    ((0 : Nat) ≠ 1 → getH (step (run [Op.mkShared false [], Op.copy 0])
        (Op.assignMove 0 1)).handles 1 = some Handle.empty) ∧
    (¬((⟨some 0, some 0⟩ : Handle).block = (⟨some 0, some 0⟩ : Handle).block ∧
        (⟨some 0, some 0⟩ : Handle).ptr = (⟨some 0, some 0⟩ : Handle).ptr) →
      getH (step (run [Op.mkShared false [], Op.copy 0])
        (Op.assignMoveConv 0 1)).handles 1 = some Handle.empty) ∧
    (∀ b, (0 : Nat) ≠ 1 → (⟨some 0, some 0⟩ : Handle).block = some b →
      SharedPtr.UseCount (step (run [Op.mkShared false [], Op.copy 0])
          (Op.assignCopy 0 1)).mem ⟨some 0, some 0⟩
        = SharedPtr.UseCount (step (run [Op.mkShared false [], Op.copy 0])
            (Op.assignMove 0 1)).mem ⟨some 0, some 0⟩ + 1)) :=
  ⟨by decide, by decide,
    C6_move_spec [Op.mkShared false [], Op.copy 0] 0 1 ⟨some 0, some 0⟩ ⟨some 0, some 0⟩
      (by decide) (by decide)⟩

/-- Claim C7: copy-assignment from a handle already holding the identical
(block, view) pair leaves the whole system state unchanged (same-type
assignment re-establishes it by decrementing and re-incrementing the shared
count; the converting assignments skip the work via their guard), and
self-assignment and self-move-assignment are exact no-ops, never destroying
the owned object. -/
theorem C7_assign_noop (ops : List Op) (i j : Nat) (hi hj : Handle)
    (hgi : getH (run ops).handles i = some hi)
    (hgj : getH (run ops).handles j = some hj) :
    (step (run ops) (Op.assignCopy i i) = run ops) ∧
    (step (run ops) (Op.assignMove i i) = run ops) ∧
    (hi.block = hj.block → hi.ptr = hj.ptr →
      step (run ops) (Op.assignCopyConv i j) = run ops ∧
      step (run ops) (Op.assignMoveConv i j) = run ops ∧
      step (run ops) (Op.assignCopy i j) = run ops) := by
  refine ⟨?_, ?_, ?_⟩
  · simp only [step]
    rw [if_pos trivial]
  · simp only [step]
    rw [if_pos trivial]
  · intro hbl hpt
    refine ⟨?_, ?_, ?_⟩
    · simp only [step, hgi, hgj]
      rw [if_pos ⟨hbl, hpt⟩]
    · simp only [step, hgi, hgj]
      rw [if_pos ⟨hbl, hpt⟩]
    · by_cases hij : i = j
      · subst hij
        simp only [step]
        rw [if_pos trivial]
      · have heq : step (run ops) (Op.assignCopy i j) =
            ⟨incr ((run ops).mem.resetB hi.block) hj.block,
              setH (run ops).handles i ⟨hj.ptr, hj.block⟩⟩ := by
          simp only [step, hgi, hgj]
          rw [if_neg hij]
        rw [heq]
        have hw := wf_run ops
        have hhi : (⟨hj.ptr, hj.block⟩ : Handle) = hi := by
          rw [← hbl, ← hpt]
        rw [hhi, setH_self (run ops).handles i hi hgi]
        cases hjb : hj.block with
        | none =>
          rw [hbl, hjb, resetB_none]
          rfl
        | some b =>
          have hbi : hi.block = some b := by rw [hbl, hjb]
          obtain ⟨blk, hf⟩ := hw.handleLive hj (getH_mem _ _ _ hgj) b hjb
          have hcnt2 : 2 ≤ blk.cnt := by
            have h1 := hw.cntRefs b blk hf
            have h2 := countB_two (run ops).handles i j hi hj b hij hgi hgj hbi hjb
            simp only [refs] at h1
            omega
          rw [hbi, resetB_decr (run ops).mem b blk hf (by omega)]
          show (⟨{ (run ops).mem with
              blocks := mapK b (fun v => { v with cnt := v.cnt + 1 })
                (mapK b (fun v => { v with cnt := v.cnt - 1 }) (run ops).mem.blocks) },
            (run ops).handles⟩ : Sys) = run ops
          rw [mapK_inc_dec (run ops).mem.blocks b blk hw.nodupB hf hcnt2]

theorem C7_assign_noop_witness :
    (getH (run [Op.mkShared false [], Op.copy 0]).handles 0 = some ⟨some 0, some 0⟩) ∧
    (getH (run [Op.mkShared false [], Op.copy 0]).handles 1 = some ⟨some 0, some 0⟩) ∧
    ((step (run [Op.mkShared false [], Op.copy 0]) (Op.assignCopy 0 0)
        = run [Op.mkShared false [], Op.copy 0]) ∧
      (step (run [Op.mkShared false [], Op.copy 0]) (Op.assignMove 0 0)
        = run [Op.mkShared false [], Op.copy 0]) ∧
      ((⟨some 0, some 0⟩ : Handle).block = (⟨some 0, some 0⟩ : Handle).block →
        (⟨some 0, some 0⟩ : Handle).ptr = (⟨some 0, some 0⟩ : Handle).ptr →
        step (run [Op.mkShared false [], Op.copy 0]) (Op.assignCopyConv 0 1)
          = run [Op.mkShared false [], Op.copy 0] ∧
        step (run [Op.mkShared false [], Op.copy 0]) (Op.assignMoveConv 0 1)
          = run [Op.mkShared false [], Op.copy 0] ∧
        step (run [Op.mkShared false [], Op.copy 0]) (Op.assignCopy 0 1)
          = run [Op.mkShared false [], Op.copy 0])) :=
  ⟨by decide, by decide,
    C7_assign_noop [Op.mkShared false [], Op.copy 0] 0 1 ⟨some 0, some 0⟩ ⟨some 0, some 0⟩
      (by decide) (by decide)⟩

/-! ### Claim C5: the block-null-implies-view-null invariant -/

/-- The property claimed by C5 for a single handle: if its block pointer is
null then its view pointer is null. -/
def NullInv (h : Handle) : Prop := h.block = none → h.ptr = none

/-- An operation is alias-safe in a state when it is not an aliasing
construction from an empty source handle with a non-null new view — the one
combination that can break `NullInv`. -/
def aliasOkB (s : Sys) : Op → Bool
  | Op.aliasOf j p =>
    match getH s.handles j with
    | some hj => hj.block != none || p == none
    | none => true
  | _ => true

/-- All operations along a run are alias-safe. -/
def okRunB (s : Sys) : List Op → Bool
  | [] => true
  | op :: rest => aliasOkB s op && okRunB (step s op) rest

theorem nullInv_empty : NullInv Handle.empty := fun _ => rfl

theorem nullInv_of_block (h : Handle) (b : Nat) (hb : h.block = some b) : NullInv h := by
  intro hn
  rw [hb] at hn
  exact absurd hn (by simp)

theorem nullInv_step (s : Sys) (hw : WF s) (hh : ∀ h, h ∈ s.handles → NullInv h)
    (op : Op) (hok : aliasOkB s op = true) :
    ∀ h, h ∈ (step s op).handles → NullInv h := by
  cases op with
  | mkEmpty =>
    intro h hm
    rcases List.mem_append.1 hm with h1 | h1
    · exact hh h h1
    · rw [List.mem_singleton] at h1
      subst h1
      exact nullInv_empty
  | wrapFresh esft =>
    intro h hm
    rcases List.mem_append.1 hm with h1 | h1
    · exact hh h h1
    · rw [List.mem_singleton] at h1
      subst h1
      intro hb
      exact Option.noConfusion hb
  | wrapNull =>
    intro h hm
    rcases List.mem_append.1 hm with h1 | h1
    · exact hh h h1
    · rw [List.mem_singleton] at h1
      subst h1
      exact nullInv_empty
  | copy j =>
    cases hg : getH s.handles j with
    | none =>
      simp only [step, hg]
      exact hh
    | some hj =>
      simp only [step, hg]
      intro h hm
      rcases List.mem_append.1 hm with h1 | h1
      · exact hh h h1
      · rw [List.mem_singleton] at h1
        rw [h1]
        exact hh hj (getH_mem _ _ _ hg)
  | move j =>
    cases hg : getH s.handles j with
    | none =>
      simp only [step, hg]
      exact hh
    | some hj =>
      simp only [step, hg]
      intro h hm
      rcases List.mem_append.1 hm with h1 | h1
      · rcases mem_setH _ _ _ _ h1 with h2 | h2
        · exact hh h h2
        · subst h2
          exact nullInv_empty
      · rw [List.mem_singleton] at h1
        rw [h1]
        exact hh hj (getH_mem _ _ _ hg)
  | aliasOf j p =>
    cases hg : getH s.handles j with
    | none =>
      simp only [step, hg]
      exact hh
    | some hj =>
      simp only [step, hg]
      intro h hm
      rcases List.mem_append.1 hm with h1 | h1
      · exact hh h h1
      · rw [List.mem_singleton] at h1
        subst h1
        intro hb
        have hb' : hj.block = none := hb
        simp only [aliasOkB, hg, hb'] at hok
        simp only [bne_self_eq_false, Bool.false_or, beq_iff_eq] at hok
        exact hok
  | assignCopy i j =>
    by_cases hij : i = j
    · simp only [step, if_pos hij]
      exact hh
    · cases hgi : getH s.handles i with
      | none =>
        simp only [step, if_neg hij, hgi]
        exact hh
      | some hi =>
        cases hgj : getH s.handles j with
        | none =>
          simp only [step, if_neg hij, hgi, hgj]
          exact hh
        | some hj =>
          simp only [step, if_neg hij, hgi, hgj]
          intro h hm
          rcases mem_setH _ _ _ _ hm with h1 | h1
          · exact hh h h1
          · subst h1
            intro hb
            exact hh hj (getH_mem _ _ _ hgj) hb
  | assignMove i j =>
    by_cases hij : i = j
    · simp only [step, if_pos hij]
      exact hh
    · cases hgi : getH s.handles i with
      | none =>
        simp only [step, if_neg hij, hgi]
        exact hh
      | some hi =>
        cases hgj : getH s.handles j with
        | none =>
          simp only [step, if_neg hij, hgi, hgj]
          exact hh
        | some hj =>
          simp only [step, if_neg hij, hgi, hgj]
          intro h hm
          rcases mem_setH _ _ _ _ hm with h1 | h1
          · rcases mem_setH _ _ _ _ h1 with h2 | h2
            · exact hh h h2
            · subst h2
              intro hb
              exact hh hj (getH_mem _ _ _ hgj) hb
          · subst h1
            exact nullInv_empty
  | assignCopyConv i j =>
    cases hgi : getH s.handles i with
    | none =>
      simp only [step, hgi]
      exact hh
    | some hi =>
      cases hgj : getH s.handles j with
      | none =>
        simp only [step, hgi, hgj]
        exact hh
      | some hj =>
        simp only [step, hgi, hgj]
        by_cases hguard : hi.block = hj.block ∧ hi.ptr = hj.ptr
        · rw [if_pos hguard]
          exact hh
        · rw [if_neg hguard]
          intro h hm
          rcases mem_setH _ _ _ _ hm with h1 | h1
          · exact hh h h1
          · subst h1
            intro hb
            exact hh hj (getH_mem _ _ _ hgj) hb
  | assignMoveConv i j =>
    cases hgi : getH s.handles i with
    | none =>
      simp only [step, hgi]
      exact hh
    | some hi =>
      cases hgj : getH s.handles j with
      | none =>
        simp only [step, hgi, hgj]
        exact hh
      | some hj =>
        simp only [step, hgi, hgj]
        by_cases hguard : hi.block = hj.block ∧ hi.ptr = hj.ptr
        · rw [if_pos hguard]
          exact hh
        · rw [if_neg hguard]
          intro h hm
          rcases mem_setH _ _ _ _ hm with h1 | h1
          · rcases mem_setH _ _ _ _ h1 with h2 | h2
            · exact hh h h2
            · subst h2
              intro hb
              exact hh hj (getH_mem _ _ _ hgj) hb
          · subst h1
            exact nullInv_empty
  | reset i =>
    cases hg : getH s.handles i with
    | none =>
      simp only [step, hg]
      exact hh
    | some hi =>
      simp only [step, hg]
      intro h hm
      rcases mem_setH _ _ _ _ hm with h1 | h1
      · exact hh h h1
      · subst h1
        exact nullInv_empty
  | resetNull i =>
    cases hg : getH s.handles i with
    | none =>
      simp only [step, hg]
      exact hh
    | some hi =>
      simp only [step, hg]
      by_cases hp : hi.ptr = none
      · rw [SharedPtr.ResetPtr, if_pos hp]
        intro h hm
        rcases mem_setH _ _ _ _ hm with h1 | h1
        · exact hh h h1
        · rw [h1]
          exact hh hi (getH_mem _ _ _ hg)
      · rw [SharedPtr.ResetPtr, if_neg hp]
        intro h hm
        rcases mem_setH _ _ _ _ hm with h1 | h1
        · exact hh h h1
        · subst h1
          exact nullInv_of_block _ (s.mem.resetB hi.block).nextBlock rfl
  | resetFresh i esft =>
    cases hg : getH s.handles i with
    | none =>
      simp only [step, hg]
      exact hh
    | some hi =>
      simp only [step, hg]
      by_cases hp : hi.ptr = some s.mem.nextAddr
      · rw [SharedPtr.ResetPtr, if_pos hp]
        intro h hm
        rcases mem_setH _ _ _ _ hm with h1 | h1
        · exact hh h h1
        · rw [h1]
          exact hh hi (getH_mem _ _ _ hg)
      · rw [SharedPtr.ResetPtr, if_neg hp]
        intro h hm
        rcases mem_setH _ _ _ _ hm with h1 | h1
        · exact hh h h1
        · subst h1
          exact nullInv_of_block _
            (({ s.mem with nextAddr := s.mem.nextAddr + 1 } : Mem).resetB hi.block).nextBlock rfl
  | destruct i =>
    cases hg : getH s.handles i with
    | none =>
      simp only [step, hg]
      exact hh
    | some hi =>
      simp only [step, hg]
      intro h hm
      rcases mem_setH _ _ _ _ hm with h1 | h1
      · exact hh h h1
      · subst h1
        exact nullInv_empty
  | mkShared esft args =>
    intro h hm
    rcases List.mem_append.1 hm with h1 | h1
    · exact hh h h1
    · rw [List.mem_singleton] at h1
      subst h1
      exact nullInv_of_block _ s.mem.nextBlock rfl
  | fromThis a =>
    intro h hm
    rcases List.mem_append.1 hm with h1 | h1
    · exact hh h h1
    · rw [List.mem_singleton] at h1
      subst h1
      cases hsl : findK s.mem.slots a with
      | none =>
        have : (SharedFromThis s.mem a).2 = Handle.empty := by
          simp only [SharedFromThis, SharedPtr.ctorCopy, hsl, Option.getD]
        rw [show (step s (Op.fromThis a)).handles
            = s.handles ++ [(SharedFromThis s.mem a).2] from rfl] at hm
        rw [this]
        exact nullInv_empty
      | some w =>
        obtain ⟨b, blk, hwb, _, _⟩ := hw.slotLive a w hsl
        have : (SharedFromThis s.mem a).2 = w := by
          simp only [SharedFromThis, SharedPtr.ctorCopy, hsl, Option.getD]
        rw [this]
        exact nullInv_of_block w b hwb
  | swapOp i j =>
    cases hgi : getH s.handles i with
    | none =>
      simp only [step, hgi]
      exact hh
    | some hi =>
      cases hgj : getH s.handles j with
      | none =>
        simp only [step, hgi, hgj]
        exact hh
      | some hj =>
        simp only [step, hgi, hgj]
        intro h hm
        rcases mem_setH _ _ _ _ hm with h1 | h1
        · rcases mem_setH _ _ _ _ h1 with h2 | h2
          · exact hh h h2
          · rw [h2]
            exact hh hj (getH_mem _ _ _ hgj)
        · rw [h1]
          exact hh hi (getH_mem _ _ _ hgi)

theorem nullInv_runFrom (s : Sys) (hw : WF s) (hh : ∀ h, h ∈ s.handles → NullInv h)
    (ops : List Op) (hok : okRunB s ops = true) :
    ∀ h, h ∈ (runFrom s ops).handles → NullInv h := by
  induction ops generalizing s with
  | nil => exact hh
  | cons op rest ih =>
    rw [okRunB, Bool.and_eq_true] at hok
    exact ih (step s op) (wf_step s hw op) (nullInv_step s hw hh op hok.1) hok.2

/-- Claim C5 counterexample: the aliasing constructor applied to an empty
source handle with a non-null view pointer produces a handle whose block is
null but whose view is not — "a handle with no control block is the empty
handle" fails. -/
theorem C5_counterexample :
    getH (run [Op.mkEmpty, Op.aliasOf 0 (some 3)]).handles 1 = some ⟨some 3, none⟩ ∧
    (⟨some 3, none⟩ : Handle).block = none ∧
    ¬ (⟨some 3, none⟩ : Handle).ptr = none := by
  decide

/-- Claim C5 as amended: every public operation other than aliasing
construction preserves "block null implies view null" on every handle of the
family, and an aliasing construction preserves it precisely when the source
handle is non-empty or the new view pointer is null; the unrestricted claim
fails on aliasing an empty source with a non-null view. -/
theorem C5_null_inv (ops : List Op) :
    (okRunB Sys.init ops = true → ∀ h, h ∈ (run ops).handles → NullInv h) ∧
    (∀ (m : Mem) (src : Handle) (p : Ptr),
      NullInv (SharedPtr.ctorAlias m src p).2 ↔ (src.block = none → p = none)) := by
  constructor
  · intro hok
    exact nullInv_runFrom Sys.init wf_init (by intro h hm; cases hm) ops hok
  · intro m src p
    exact Iff.rfl

theorem C5_null_inv_witness :
    (okRunB Sys.init [Op.mkEmpty, Op.aliasOf 0 none] = true) ∧ NullInv Handle.empty :=
  ⟨by decide,
    (C5_null_inv [Op.mkEmpty, Op.aliasOf 0 none]).1 (by decide) Handle.empty (by decide)⟩

/-! ### Claim C9: `SharedFromThis` on an arbitrary owned instance

The key invariant: an installed back-link slot stores a handle whose view is
the address of its own object (`weak_this_ = *this` is only ever assigned the
handle being constructed over that very object). -/

/-- Every installed back-link slot's stored handle views its own address. -/
def SlotSelf (m : Mem) : Prop :=
  ∀ a wh, findK m.slots a = some wh → wh.ptr = some a

theorem resetFuel_slots_sub (fuel : Nat) (m : Mem) (b? : Option Nat) (a : Nat) :
    findK (resetFuel fuel m b?).slots a = findK m.slots a ∨
    findK (resetFuel fuel m b?).slots a = none := by
  induction fuel generalizing m b? with
  | zero =>
    cases b? with
    | none => exact Or.inl rfl
    | some b => exact Or.inl rfl
  | succ n ih =>
    cases b? with
    | none => exact Or.inl rfl
    | some b =>
      unfold resetFuel
      cases hf : findK m.blocks b with
      | none => exact Or.inl rfl
      | some blk =>
        simp only
        by_cases hc : blk.cnt - 1 = 0
        · rw [if_pos hc]
          cases ho : blk.obj with
          | none =>
            simp only [ho]
            exact Or.inl trivial
          | some a0 =>
            simp only [ho]
            cases hq : findK m.slots a0 with
            | none =>
              simp only [hq]
              exact Or.inl trivial
            | some wh =>
              simp only [hq]
              have hih := ih { m with
                blocks := eraseK m.blocks b,
                slots := eraseK m.slots a0,
                events := m.events ++ [Event.destroyObj b a0] } wh.block
              have hsl : ({ m with
                  blocks := eraseK m.blocks b,
                  slots := eraseK m.slots a0,
                  events := m.events ++ [Event.destroyObj b a0] } : Mem).slots
                  = eraseK m.slots a0 := rfl
              by_cases haa : a = a0
              · subst haa
                refine Or.inr ?_
                rcases hih with h1 | h1
                · show findK (resetFuel n { m with
                      blocks := eraseK m.blocks b,
                      slots := eraseK m.slots a,
                      events := m.events ++ [Event.destroyObj b a] } wh.block).slots a
                      = none
                  rw [h1, hsl]
                  exact findK_eraseK_self m.slots a
                · show findK (resetFuel n { m with
                      blocks := eraseK m.blocks b,
                      slots := eraseK m.slots a,
                      events := m.events ++ [Event.destroyObj b a] } wh.block).slots a
                      = none
                  exact h1
              · rcases hih with h1 | h1
                · refine Or.inl ?_
                  show findK (resetFuel n { m with
                      blocks := eraseK m.blocks b,
                      slots := eraseK m.slots a0,
                      events := m.events ++ [Event.destroyObj b a0] } wh.block).slots a
                      = findK m.slots a
                  rw [h1, hsl]
                  exact findK_eraseK_ne m.slots a0 a haa
                · refine Or.inr ?_
                  show findK (resetFuel n { m with
                      blocks := eraseK m.blocks b,
                      slots := eraseK m.slots a0,
                      events := m.events ++ [Event.destroyObj b a0] } wh.block).slots a
                      = none
                  exact h1
        · rw [if_neg hc]
          exact Or.inl rfl

theorem slotSelf_resetB (m : Mem) (b? : Option Nat) (hm : SlotSelf m) :
    SlotSelf (m.resetB b?) := by
  intro a wh hq
  rw [Mem.resetB] at hq
  rcases resetFuel_slots_sub (m.blocks.length + 1) m b? a with h1 | h1
  · rw [h1] at hq
    exact hm a wh hq
  · rw [h1] at hq
    exact absurd hq (by simp)

theorem slotSelf_incr (m : Mem) (b? : Option Nat) (hm : SlotSelf m) :
    SlotSelf (incr m b?) := by
  intro a wh hq
  rw [incr_slots] at hq
  exact hm a wh hq

theorem slotSelf_installWeak (m : Mem) (a : Nat) (sp : Handle)
    (hm : SlotSelf m) (hp : sp.ptr = some a) :
    SlotSelf (SharedPtr.InternalSetWeakThis m a sp) := by
  intro a' wh hq
  have hq' : findK ((a, sp) :: eraseK
      (incr (m.resetB ((findK m.slots a).getD Handle.empty).block) sp.block).slots a) a'
      = some wh := hq
  rw [findK] at hq'
  by_cases haa : a = a'
  · rw [if_pos haa] at hq'
    have hsp : sp = wh := by injection hq'
    rw [← hsp, hp, haa]
  · rw [if_neg haa] at hq'
    have h2 := findK_eraseK_back _ _ _ _ hq'
    rw [incr_slots] at h2
    exact slotSelf_resetB m _ hm a' wh h2.2

theorem slotSelf_makeESFT (m : Mem) (esft : Bool) (p : Ptr) (b? : Option Nat)
    (hm : SlotSelf m) :
    SlotSelf (SharedPtr.MakeEnableSharedFromThis m esft p ⟨p, b?⟩) := by
  cases esft with
  | false => exact hm
  | true =>
    cases p with
    | none => exact hm
    | some a => exact slotSelf_installWeak m a ⟨some a, b?⟩ hm rfl

theorem slotSelf_step (s : Sys) (hm : SlotSelf s.mem) (op : Op) :
    SlotSelf (step s op).mem := by
  cases op with
  | mkEmpty => exact hm
  | wrapFresh esft => exact slotSelf_makeESFT _ esft _ _ hm
  | wrapNull => exact hm
  | copy j =>
    cases hg : getH s.handles j with
    | none =>
      simp only [step, hg]
      exact hm
    | some hj =>
      simp only [step, hg]
      exact slotSelf_incr _ _ hm
  | move j =>
    cases hg : getH s.handles j with
    | none =>
      simp only [step, hg]
      exact hm
    | some hj =>
      simp only [step, hg]
      exact hm
  | aliasOf j p =>
    cases hg : getH s.handles j with
    | none =>
      simp only [step, hg]
      exact hm
    | some hj =>
      simp only [step, hg]
      exact slotSelf_incr _ _ hm
  | assignCopy i j =>
    by_cases hij : i = j
    · simp only [step, if_pos hij]
      exact hm
    · cases hgi : getH s.handles i with
      | none =>
        simp only [step, if_neg hij, hgi]
        exact hm
      | some hi =>
        cases hgj : getH s.handles j with
        | none =>
          simp only [step, if_neg hij, hgi, hgj]
          exact hm
        | some hj =>
          simp only [step, if_neg hij, hgi, hgj]
          exact slotSelf_incr _ _ (slotSelf_resetB _ _ hm)
  | assignMove i j =>
    by_cases hij : i = j
    · simp only [step, if_pos hij]
      exact hm
    · cases hgi : getH s.handles i with
      | none =>
        simp only [step, if_neg hij, hgi]
        exact hm
      | some hi =>
        cases hgj : getH s.handles j with
        | none =>
          simp only [step, if_neg hij, hgi, hgj]
          exact hm
        | some hj =>
          simp only [step, if_neg hij, hgi, hgj]
          exact slotSelf_resetB _ _ hm
  | assignCopyConv i j =>
    cases hgi : getH s.handles i with
    | none =>
      simp only [step, hgi]
      exact hm
    | some hi =>
      cases hgj : getH s.handles j with
      | none =>
        simp only [step, hgi, hgj]
        exact hm
      | some hj =>
        simp only [step, hgi, hgj]
        by_cases hguard : hi.block = hj.block ∧ hi.ptr = hj.ptr
        · rw [if_pos hguard]
          exact hm
        · rw [if_neg hguard]
          exact slotSelf_incr _ _ (slotSelf_resetB _ _ hm)
  | assignMoveConv i j =>
    cases hgi : getH s.handles i with
    | none =>
      simp only [step, hgi]
      exact hm
    | some hi =>
      cases hgj : getH s.handles j with
      | none =>
        simp only [step, hgi, hgj]
        exact hm
      | some hj =>
        simp only [step, hgi, hgj]
        by_cases hguard : hi.block = hj.block ∧ hi.ptr = hj.ptr
        · rw [if_pos hguard]
          exact hm
        · rw [if_neg hguard]
          exact slotSelf_resetB _ _ hm
  | reset i =>
    cases hg : getH s.handles i with
    | none =>
      simp only [step, hg]
      exact hm
    | some hi =>
      simp only [step, hg]
      exact slotSelf_resetB _ _ hm
  | resetNull i =>
    cases hg : getH s.handles i with
    | none =>
      simp only [step, hg]
      exact hm
    | some hi =>
      simp only [step, hg]
      by_cases hp : hi.ptr = none
      · rw [SharedPtr.ResetPtr, if_pos hp]
        exact hm
      · rw [SharedPtr.ResetPtr, if_neg hp]
        exact slotSelf_resetB s.mem hi.block hm
  | resetFresh i esft =>
    cases hg : getH s.handles i with
    | none =>
      simp only [step, hg]
      exact hm
    | some hi =>
      simp only [step, hg]
      by_cases hp : hi.ptr = some s.mem.nextAddr
      · rw [SharedPtr.ResetPtr, if_pos hp]
        exact hm
      · rw [SharedPtr.ResetPtr, if_neg hp]
        exact slotSelf_makeESFT _ esft _ _ (slotSelf_resetB _ _ hm)
  | destruct i =>
    cases hg : getH s.handles i with
    | none =>
      simp only [step, hg]
      exact hm
    | some hi =>
      simp only [step, hg]
      exact slotSelf_resetB _ _ hm
  | mkShared esft args => exact slotSelf_makeESFT _ esft _ _ hm
  | fromThis a => exact slotSelf_incr _ _ hm
  | swapOp i j =>
    cases hgi : getH s.handles i with
    | none =>
      simp only [step, hgi]
      exact hm
    | some hi =>
      cases hgj : getH s.handles j with
      | none =>
        simp only [step, hgi, hgj]
        exact hm
      | some hj =>
        simp only [step, hgi, hgj]
        exact hm

theorem slotSelf_run (ops : List Op) : SlotSelf (run ops).mem := by
  have h : ∀ s, SlotSelf s.mem → SlotSelf (runFrom s ops).mem := by
    induction ops with
    | nil => exact fun s hs => hs
    | cons op rest ih => exact fun s hs => ih (step s op) (slotSelf_step s hs op)
  exact h Sys.init (fun a wh hq => Option.noConfusion hq)

/-- Claim C9: in any reachable state, for an instance at address `a` of a
Self-Reference-Capability type whose back-link is installed — i.e. currently
owned, however created (raw-pointer wrap or `MakeShared`) and with any number
of live copies — and any owning handle `h` of that instance (`h` views `a`
and `h`'s block owns the object at `a`), `SharedFromThis` returns a handle
with the same `Get()` as `h` and raises the `UseCount()` observed through `h`
by exactly one; on an instance never bound to an owning handle (no back-link
slot) it returns the empty handle and leaves memory untouched, rather than
faulting. -/
theorem C9_sharedFromThis_spec (ops : List Op) (a : Nat) :
    (findK (run ops).mem.slots a = none →
      SharedFromThis (run ops).mem a = ((run ops).mem, Handle.empty)) ∧
    (∀ w, findK (run ops).mem.slots a = some w →
      ∀ h b blk, h ∈ (run ops).handles → SharedPtr.Get h = some a →
        h.block = some b → findK (run ops).mem.blocks b = some blk →
        blk.obj = some a →
        SharedPtr.Get (SharedFromThis (run ops).mem a).2 = SharedPtr.Get h ∧
        SharedPtr.UseCount (SharedFromThis (run ops).mem a).1 h
          = SharedPtr.UseCount (run ops).mem h + 1) := by
  constructor
  · intro hsl
    unfold SharedFromThis SharedPtr.ctorCopy
    rw [hsl]
    rfl
  · intro w hsl h b blk hmem hget hb hf hobj
    have hw := wf_run ops
    obtain ⟨bw, blkw, hwb, hfw, hwobj⟩ := hw.slotLive a w hsl
    have hbb : b = bw := hw.objUnique b bw blk blkw a hf hfw hobj hwobj
    have hwb' : w.block = some b := by rw [hwb, hbb]
    have hsf : SharedFromThis (run ops).mem a = (incr (run ops).mem w.block, w) := by
      unfold SharedFromThis SharedPtr.ctorCopy
      rw [hsl]
      rfl
    rw [hsf]
    constructor
    · show w.ptr = SharedPtr.Get h
      rw [slotSelf_run ops a w hsl, hget]
    · show SharedPtr.UseCount (incr (run ops).mem w.block) h
        = SharedPtr.UseCount (run ops).mem h + 1
      rw [hwb']
      rw [UseCount_eq2 _ h b _ hb (findK_incr_self _ b blk hf),
        UseCount_eq2 _ h b blk hb hf]

theorem C9_sharedFromThis_spec_witness :
    (findK (run [Op.mkShared true []]).mem.slots 0 = some ⟨some 0, some 0⟩) ∧
    ((⟨some 0, some 0⟩ : Handle) ∈ (run [Op.mkShared true []]).handles) ∧
    (SharedPtr.Get ⟨some 0, some 0⟩ = some 0) ∧
    ((⟨some 0, some 0⟩ : Handle).block = some 0) ∧
    (findK (run [Op.mkShared true []]).mem.blocks 0 = some ⟨2, some 0, true⟩) ∧
    ((⟨2, some 0, true⟩ : BaseBlock).obj = some 0) ∧
    (SharedPtr.Get (SharedFromThis (run [Op.mkShared true []]).mem 0).2
        = SharedPtr.Get ⟨some 0, some 0⟩ ∧
      SharedPtr.UseCount (SharedFromThis (run [Op.mkShared true []]).mem 0).1
          ⟨some 0, some 0⟩
        = SharedPtr.UseCount (run [Op.mkShared true []]).mem ⟨some 0, some 0⟩ + 1) :=
  ⟨by decide, by decide, by decide, by decide, by decide, by decide,
    (C9_sharedFromThis_spec [Op.mkShared true []] 0).2 ⟨some 0, some 0⟩ (by decide)
      ⟨some 0, some 0⟩ 0 ⟨2, some 0, true⟩ (by decide) (by decide) (by decide)
      (by decide) (by decide)⟩
